import Mathlib

/-!
# Verification of the SoloLeveling game systems

Shallow embedding of the game's core systems, translated from the Python
source (`src/systems/pathfinding.py`, `src/systems/procgen.py`,
`src/entities/base_entity.py`, `src/entities/enemy.py`,
`src/entities/shadow.py`, `src/game_engine.py`), together with theorems
settling the specification claims about them.

Python `float` timers/durations are modelled as `ℚ` (the operations used
are subtraction, multiplication and comparison); Python `int` values as
`ℤ`/`ℕ`; coordinate tuples as `ℤ × ℤ`; dictionaries as association
lists with first-match lookup (insertion = prepend, which shadows older
entries exactly like dict assignment); randomness as explicit streams of
values passed in as parameters.
-/

/-- A coordinate tuple `(x, y)`, as used throughout the Python code. -/
abbrev Coord := Int × Int

/-- Tile type strings (`'floor'`, `'wall'`, `'trap'`, `'resource'`, `'exit'`)
from `entities/tile.py`, as an enumeration. -/
inductive TileType where
  | floor
  | wall
  | trap
  | resource
  | exitTile
deriving DecidableEq, Repr

/-- The fields of `entities/tile.py`'s `Tile` that pathfinding reads:
`tile.type` and `tile.cost`. -/
structure Tile where
  type : TileType
  cost : Int
deriving DecidableEq, Repr

/-- The interface of `entities/grid.py`'s `Grid` that pathfinding uses:
`width`, `height`, and `get_tile`.  Tiles are modelled as a total function;
`get_tile` restricts it to the in-bounds region. -/
structure Grid where
  width : Nat
  height : Nat
  tiles : Int → Int → Tile

/-- `Grid.get_tile`: returns the tile at `(x, y)`, or `none` if out of
bounds. -/
def Grid.get_tile (g : Grid) (x y : Int) : Option Tile :=
  if 0 ≤ x ∧ x < (g.width : Int) ∧ 0 ≤ y ∧ y < (g.height : Int) then
    some (g.tiles x y)
  else
    none

/-- The in-bounds test `0 <= nx < grid_obj.width and 0 <= ny < grid_obj.height`
used by the pathfinding neighbor loops. -/
def Grid.inBounds (g : Grid) (c : Coord) : Prop :=
  0 ≤ c.1 ∧ c.1 < (g.width : Int) ∧ 0 ≤ c.2 ∧ c.2 < (g.height : Int)

instance (g : Grid) (c : Coord) : Decidable (g.inBounds c) := by
  unfold Grid.inBounds; infer_instance

/-- The 4-directional neighbor list `[(cx+1,cy), (cx-1,cy), (cx,cy+1), (cx,cy-1)]`
used by every search in `systems/pathfinding.py` and `systems/procgen.py`. -/
def neighbors4 (c : Coord) : List Coord :=
  [(c.1 + 1, c.2), (c.1 - 1, c.2), (c.1, c.2 + 1), (c.1, c.2 - 1)]

/-! ## `entities/base_entity.py`: HealthComponent -/

/-- `HealthComponent` from `entities/base_entity.py` (the fields used by
damage handling). -/
structure HealthComponent where
  max_health : Int
  current : Int
  armor : Int
deriving DecidableEq, Repr

namespace HealthComponent

/-- `HealthComponent.is_dead`. -/
def is_dead (h : HealthComponent) : Prop := h.current ≤ 0

instance (h : HealthComponent) : Decidable h.is_dead := by
  unfold is_dead; infer_instance

/-- `HealthComponent.take_damage`: applies damage accounting for armor,
floors health at 0, and returns the actual damage dealt.  Result is
`(updated component, returned value)`. -/
def take_damage (h : HealthComponent) (damage : Int) :
    HealthComponent × Int :=
  let actual_damage := max 1 (damage - h.armor)
  ({ h with current := max 0 (h.current - actual_damage) }, actual_damage)

/-- `HealthComponent.heal`. -/
def heal (h : HealthComponent) (amount : Int) : HealthComponent × Int :=
  let old_health := h.current
  let newCur := min h.max_health (h.current + amount)
  ({ h with current := newCur }, newCur - old_health)

end HealthComponent

/-- `BaseEntity.take_damage`: delegates to the health component and starts
the damage-flash animation when damage was dealt.  Modelled on the pair of
the health component and the animation timer, the only state it touches. -/
def BaseEntity.take_damage (h : HealthComponent) (animTimer : ℚ)
    (damage : Int) : (HealthComponent × ℚ) × Int :=
  let r := h.take_damage damage
  let animTimer' := if r.2 > 0 then (15 / 100 : ℚ) else animTimer
  ((r.1, animTimer'), r.2)

/-! ## `systems/procgen.py`: cellular-automata map generation

The generator represents a map as `list[list[bool]]` indexed
`map_grid[x][y]`, `True` = wall.  We embed it as `List (List Bool)`
with the same indexing. -/

/-- Read cell `(x, y)` of a `list[list[bool]]` map grid
(out-of-range reads default to `true`, i.e. wall; the source never reads
out of range). -/
def cellAt (m : List (List Bool)) (x y : Nat) : Bool :=
  ((m.getD x []).getD y true)

namespace CellularAutomataGenerator

/-- `_get_surrounding_wall_count`: counts wall cells among the 8 neighbors
of `(x, y)`, with out-of-bounds positions counted as walls. -/
def get_surrounding_wall_count (width height : Nat)
    (x y : Int) (m : List (List Bool)) : Nat :=
  ((List.range 3).map (fun i => (x - 1) + (i : Int))).foldl
    (fun count nx =>
      ((List.range 3).map (fun j => (y - 1) + (j : Int))).foldl
        (fun count ny =>
          if nx = x ∧ ny = y then count
          else if nx < 0 ∨ (width : Int) ≤ nx ∨ ny < 0 ∨ (height : Int) ≤ ny then
            count + 1
          else if cellAt m nx.toNat ny.toNat then count + 1
          else count)
        count)
    0

/-- `_smooth_map`: one smoothing iteration.  Builds a fresh `new_map`
(double buffering): every cell of the output is computed from the input
grid `m` only. -/
def smooth_map (width height : Nat) (m : List (List Bool)) :
    List (List Bool) :=
  (List.range width).map (fun (x : Nat) =>
    (List.range height).map (fun (y : Nat) =>
      let c := get_surrounding_wall_count width height (x : Int) (y : Int) m
      if 4 < c then true
      else if c < 4 then false
      else cellAt m x y))

end CellularAutomataGenerator

/-- Write cell `(x, y)` of a `list[list[bool]]` map grid
(`map_grid[x][y] = v`). -/
def setCell (m : List (List Bool)) (x y : Nat) (v : Bool) : List (List Bool) :=
  m.set x ((m.getD x []).set y v)

/-- In-bounds test `0 <= x < width and 0 <= y < height` on raw coordinates,
as used by the generator's flood fill. -/
def inBoundsWH (width height : Nat) (c : Coord) : Prop :=
  0 ≤ c.1 ∧ c.1 < (width : Int) ∧ 0 ≤ c.2 ∧ c.2 < (height : Int)

instance (width height : Nat) (c : Coord) : Decidable (inBoundsWH width height c) := by
  unfold inBoundsWH; infer_instance

/-- Read a map-grid cell at integer coordinates (callers establish
in-bounds first, exactly as the Python code indexes only after its bounds
check). -/
def cellAtI (m : List (List Bool)) (c : Coord) : Bool :=
  cellAt m c.1.toNat c.2.toNat

namespace CellularAutomataGenerator

/-- One step of the `_get_region_tiles` flood-fill `while queue:` loop body:
pop the queue front, record it in `tiles`, and enqueue/visit the unvisited
in-bounds neighbors whose cell matches `tile_type`.  State is
`(queue, visited, tiles)`; the Python `set` is modelled as a list used
only through membership. -/
def region_step (width height : Nat) (tile_type : Bool) (m : List (List Bool))
    (queue visited tiles : List Coord) :
    List Coord × List Coord × List Coord :=
  match queue with
  | [] => ([], visited, tiles)
  | c :: rest =>
    let tiles' := tiles ++ [c]
    let qv := (neighbors4 c).foldl
      (fun (qv : List Coord × List Coord) n =>
        if inBoundsWH width height n ∧ n ∉ qv.2 ∧ cellAtI m n = tile_type then
          (qv.1 ++ [n], qv.2 ++ [n])
        else qv)
      (rest, visited)
    (qv.1, qv.2, tiles')

/-- The `while queue:` loop of `_get_region_tiles`, with fuel (the loop
provably finishes within `width * height + 1` iterations). -/
def region_loop (width height : Nat) (tile_type : Bool) (m : List (List Bool)) :
    Nat → List Coord → List Coord → List Coord →
    List Coord × List Coord × List Coord
  | 0, queue, visited, tiles => (queue, visited, tiles)
  | fuel + 1, queue, visited, tiles =>
    match queue with
    | [] => ([], visited, tiles)
    | q =>
      let s := region_step width height tile_type m q visited tiles
      region_loop width height tile_type m fuel s.1 s.2.1 s.2.2

/-- `_get_region_tiles`: flood fill collecting all tiles of `tile_type`
reachable from `(start_x, start_y)`. -/
def get_region_tiles (width height : Nat) (start_x start_y : Int)
    (tile_type : Bool) (m : List (List Bool)) : List Coord :=
  (region_loop width height tile_type m (width * height + 1)
    [(start_x, start_y)] [(start_x, start_y)] []).2.2

/-- `_get_regions`: scans all cells in `(x, y)` lexicographic order and
flood-fills a fresh region at every not-yet-visited cell of `tile_type`. -/
def get_regions (width height : Nat) (tile_type : Bool)
    (m : List (List Bool)) : List (List Coord) :=
  ((List.range width).foldl
    (fun (acc : List (List Coord) × List Coord) (x : Nat) =>
      (List.range height).foldl
        (fun (acc : List (List Coord) × List Coord) (y : Nat) =>
          if ((x : Int), (y : Int)) ∉ acc.2 ∧ cellAt m x y = tile_type then
            let region := get_region_tiles width height x y tile_type m
            (acc.1 ++ [region], acc.2 ++ region)
          else acc)
        acc)
    ([], [])).1

/-- Stable insertion of a region into a list sorted by descending length,
modelling `regions.sort(key=len, reverse=True)` (Python's sort is stable). -/
def insertByLenDesc (e : List Coord) : List (List Coord) → List (List Coord)
  | [] => [e]
  | h :: t => if h.length < e.length then e :: h :: t else h :: insertByLenDesc e t

/-- `regions.sort(key=len, reverse=True)`: stable descending sort by
region size. -/
def sortRegions (regions : List (List Coord)) : List (List Coord) :=
  regions.foldl (fun acc e => insertByLenDesc e acc) []

/-- `_connect_caves`: keeps only the largest floor region; every other cell
becomes wall.  Returns `(final_map, largest_region)`, or `(map_grid, [])`
when there is no floor region at all.  The Python loop writing `False` at
each member of `largest_region` (all of which are in bounds) is modelled by
membership. -/
def connect_caves (width height : Nat) (m : List (List Bool)) :
    List (List Bool) × List Coord :=
  let regions := get_regions width height false m
  if regions = [] then (m, [])
  else
    match sortRegions regions with
    | [] => (m, [])
    | largest :: _ =>
      ((List.range width).map (fun (x : Nat) =>
        (List.range height).map (fun (y : Nat) =>
          if ((x : Int), (y : Int)) ∈ largest then false else true)),
       largest)

/-- `random.randint(a, b)` (inclusive bounds), parameterized by one draw `r`
from the integer randomness stream. -/
def randint (a b : Int) (r : Nat) : Int :=
  a + (r : Int) % (b - a + 1)

/-- The `while placed < count and attempts < max_attempts:` loop of
`_add_pillars`, with `remaining = max_attempts - attempts` as the
structural fuel, and `ki`/`kf` the positions in the integer/float
randomness streams. -/
def add_pillars_loop (width height : Nat) (ints : Nat → Nat) (floats : Nat → ℚ)
    (count : Nat) :
    Nat → Nat → Nat → Nat → List (List Bool) → List (List Bool)
  | 0, _, _, _, m => m
  | remaining + 1, placed, ki, kf, m =>
    if placed < count then
      let px : Int := randint 3 ((width : Int) - 4) (ints ki)
      let py : Int := randint 3 ((height : Int) - 4) (ints (ki + 1))
      if cellAtI m (px, py) = false then
        let m' := setCell m px.toNat py.toNat true
        if floats kf > mkRat 1 2 then
          let dir := [((1 : Int), (0 : Int)), (0, 1), (-1, 0), (0, -1)].getD
            (ints (ki + 2) % 4) (1, 0)
          let nx := px + dir.1
          let ny := py + dir.2
          let m'' :=
            if 1 < nx ∧ nx < (width : Int) - 2 ∧ 1 < ny ∧ ny < (height : Int) - 2 then
              setCell m' nx.toNat ny.toNat true
            else m'
          add_pillars_loop width height ints floats count remaining
            (placed + 1) (ki + 3) (kf + 1) m''
        else
          add_pillars_loop width height ints floats count remaining
            (placed + 1) (ki + 2) (kf + 1) m'
      else
        add_pillars_loop width height ints floats count remaining
          placed (ki + 2) kf m
    else m

/-- `_add_pillars`: places up to `count` small wall clusters at random
floor positions, starting at float-stream position `kf`. -/
def add_pillars (width height : Nat) (ints : Nat → Nat) (floats : Nat → ℚ)
    (count : Nat) (kf : Nat) (m : List (List Bool)) : List (List Bool) :=
  add_pillars_loop width height ints floats count (count * 20) 0 0 kf m

/-- The random-initialization step of `generate`: edge cells are walls,
interior cells are walls with probability `wall_prob`
(`random.random() < wall_prob`), drawing floats in `(x, y)` lexicographic
order.  Returns the map and the next float-stream position. -/
def init_map (width height : Nat) (floats : Nat → ℚ) (wall_prob : ℚ) :
    List (List Bool) × Nat :=
  (List.range width).foldl
    (fun (acc : List (List Bool) × Nat) (x : Nat) =>
      let row := (List.range height).foldl
        (fun (acc : List Bool × Nat) (y : Nat) =>
          if x = 0 ∨ x = width - 1 ∨ y = 0 ∨ y = height - 1 then
            (acc.1 ++ [true], acc.2)
          else
            (acc.1 ++ [decide (floats acc.2 < wall_prob)], acc.2 + 1))
        ([], acc.2)
      (acc.1 ++ [row.1], row.2))
    ([], 0)

/-- `generate`: random init, `iterations` smoothing rounds, cave
connection, then pillar placement.  Returns the final map together with
`self.largest_region`. -/
def generate (width height : Nat) (floats : Nat → ℚ) (ints : Nat → Nat)
    (wall_prob : ℚ := 1/4) (iterations : Nat := 2) :
    List (List Bool) × List Coord :=
  let im := init_map width height floats wall_prob
  let smoothed := (List.range iterations).foldl
    (fun m _ => smooth_map width height m) im.1
  let cc := connect_caves width height smoothed
  let count := max 3 (width / 6)
  (add_pillars width height ints floats count im.2 cc.1, cc.2)

end CellularAutomataGenerator

/-! ## `systems/pathfinding.py`: BFS layered scan and A*

Python dicts (`distances`, `came_from`, `cost_so_far`) are modelled as
association lists with first-match lookup; assignment prepends, shadowing
any older entry.  `heapq` frontier entries are `(priority, node)` tuples
popped in full lexicographic tuple order, which is exactly the order
`heapq.heappop` respects (entries comparing equal are interchangeable). -/

/-- First-match association-list lookup (Python dict read). -/
def alist.lookup {β : Type} (l : List (Coord × β)) (c : Coord) : Option β :=
  (l.find? (fun p => p.1 = c)).map (·.2)

/-- Dict key-membership test (`k in d`). -/
def alist.hasKey {β : Type} (l : List (Coord × β)) (c : Coord) : Prop :=
  (alist.lookup l c).isSome

instance {β : Type} (l : List (Coord × β)) (c : Coord) :
    Decidable (alist.hasKey l c) := by
  unfold alist.hasKey; infer_instance

namespace Pathfinding

/-- `Pathfinding.heuristic`: Manhattan distance. -/
def heuristic (a b : Coord) : Int :=
  |a.1 - b.1| + |a.2 - b.2|

/-- State of the `bfs_scan_layered` main loop. -/
structure BfsState where
  queue : List Coord
  visited : List Coord
  dists : List (Coord × Nat)
  layers : List (List Coord)
deriving Repr

/-- One iteration of the `while queue:` body of `bfs_scan_layered`:
pop the front, and unless its distance has reached `radius`, visit its
unvisited in-bounds neighbors, record their distances, and append them to
the layer of their distance. -/
def bfs_step (g : Grid) (radius : Nat) (s : BfsState) : BfsState :=
  match s.queue with
  | [] => s
  | current :: rest =>
    let current_dist := (alist.lookup s.dists current).getD 0
    if radius ≤ current_dist then { s with queue := rest }
    else
      (neighbors4 current).foldl
        (fun (st : BfsState) n =>
          if g.inBounds n ∧ n ∉ st.visited then
            let new_dist := current_dist + 1
            { queue := st.queue ++ [n]
              visited := st.visited ++ [n]
              dists := (n, new_dist) :: st.dists
              layers :=
                if new_dist ≤ radius then
                  st.layers.set new_dist ((st.layers.getD new_dist []) ++ [n])
                else st.layers }
          else st)
        { s with queue := rest }

/-- The fueled `while queue:` loop of `bfs_scan_layered` (it provably
finishes within `width * height + 1` iterations). -/
def bfs_loop (g : Grid) (radius : Nat) : Nat → BfsState → BfsState
  | 0, s => s
  | fuel + 1, s =>
    match s.queue with
    | [] => s
    | _ => bfs_loop g radius fuel (bfs_step g radius s)

/-- Initial state of `bfs_scan_layered`: queue/visited/distances seeded
with `start_pos`, `radius + 1` empty layers with `start_pos` appended to
layer 0. -/
def bfs_init (start_pos : Coord) (radius : Nat) : BfsState :=
  { queue := [start_pos]
    visited := [start_pos]
    dists := [(start_pos, 0)]
    layers := (List.replicate (radius + 1) []).set 0 [start_pos] }

/-- `Pathfinding.bfs_scan_layered`: BFS grouping tiles by distance from
`start_pos` (walls are not consulted; only bounds are). -/
def bfs_scan_layered (start_pos : Coord) (g : Grid) (radius : Nat := 5) :
    List (List Coord) :=
  (bfs_loop g radius (g.width * g.height + 1) (bfs_init start_pos radius)).layers

/-- Lexicographic order on heap entries `(priority, (x, y))`: the order in
which `heapq.heappop` returns pushed tuples. -/
def tupLe (a b : Int × Coord) : Prop :=
  a.1 < b.1 ∨ (a.1 = b.1 ∧ (a.2.1 < b.2.1 ∨ (a.2.1 = b.2.1 ∧ a.2.2 ≤ b.2.2)))

instance (a b : Int × Coord) : Decidable (tupLe a b) := by
  unfold tupLe; infer_instance

/-- `heapq.heappop`: remove and return the least entry (w.r.t. `tupLe`). -/
def popMin (l : List (Int × Coord)) :
    Option ((Int × Coord) × List (Int × Coord)) :=
  match l with
  | [] => none
  | h :: t =>
    let m := t.foldl (fun a x => if tupLe a x then a else x) h
    some (m, l.erase m)

/-- State of the A* main loop: `(frontier, came_from, cost_so_far)`,
plus a flag recording that the `break` on popping the goal was taken. -/
structure AStarState where
  frontier : List (Int × Coord)
  came_from : List (Coord × Option Coord)
  cost_so_far : List (Coord × Int)
  found : Bool
deriving Repr

/-- The neighbor-relaxation body of one A* iteration: for each in-bounds
non-wall neighbor of `current`, if the new cost improves (or the node is
fresh), record cost and parent and push `(new_cost + h, node)`. -/
def astar_expand (g : Grid) (goal current : Coord) (s : AStarState) : AStarState :=
  (neighbors4 current).foldl
    (fun (st : AStarState) next_node =>
      if g.inBounds next_node then
        let tile := g.tiles next_node.1 next_node.2
        if tile.type = TileType.wall then st
        else
          let new_cost := (alist.lookup st.cost_so_far current).getD 0 + tile.cost
          if ¬ alist.hasKey st.cost_so_far next_node ∨
              new_cost < (alist.lookup st.cost_so_far next_node).getD 0 then
            { st with
              cost_so_far := (next_node, new_cost) :: st.cost_so_far
              frontier := st.frontier ++ [(new_cost + heuristic next_node goal, next_node)]
              came_from := (next_node, some current) :: st.came_from }
          else st
      else st)
    s

/-- The fueled `while frontier:` loop of `a_star`; `found := true` models
taking the `break` when the goal is popped. -/
def astar_loop (g : Grid) (goal : Coord) : Nat → AStarState → AStarState
  | 0, s => s
  | fuel + 1, s =>
    match popMin s.frontier with
    | none => s
    | some (entry, rest) =>
      if entry.2 = goal then { s with frontier := rest, found := true }
      else astar_loop g goal fuel (astar_expand g goal entry.2 { s with frontier := rest })

/-- The `while cur != start:` path-reconstruction loop, following
`came_from` parents and prepending (Python appends and then reverses). -/
def reconstruct : Nat → List (Coord × Option Coord) → Coord → Coord →
    List Coord → List Coord
  | 0, _, _, _, acc => acc
  | fuel + 1, came, start, cur, acc =>
    if cur = start then acc
    else
      match alist.lookup came cur with
      | some (some prev) => reconstruct fuel came start prev (cur :: acc)
      | _ => acc

/-- Initial A* state: frontier `[(0, start)]`, `came_from = {start: None}`,
`cost_so_far = {start: 0}`. -/
def astar_init (start : Coord) : AStarState :=
  { frontier := [((0 : Int), start)]
    came_from := [(start, none)]
    cost_so_far := [(start, (0 : Int))]
    found := false }

/-- `Pathfinding.a_star`: A* search from `start` to `goal`; returns the
reconstructed path (excluding `start`), or `[]` when `goal` was never
reached. -/
def a_star (start goal : Coord) (g : Grid) : List Coord :=
  let fuel := (g.width * g.height + 1) * (g.width * g.height + 1)
  let final := astar_loop g goal fuel (astar_init start)
  if alist.hasKey final.came_from goal then
    reconstruct (final.came_from.length + 1) final.came_from start goal []
  else []

end Pathfinding

/-! ## `entities/enemy.py` and `entities/shadow.py` -/

/-- Enemy AI state strings (`'IDLE'`, `'PATROL'`, `'HUNTING'`). -/
inductive EState where
  | IDLE
  | PATROL
  | HUNTING
deriving DecidableEq, Repr

/-- The `Enemy` entity: the fields read or written by `apply_effect`,
`update`, `_update_patrol` and `move_step` (position, health component,
movement component, AI state, status-effect timers, patrol bookkeeping,
and the type-derived stats). -/
structure Enemy where
  x : Int
  y : Int
  health : HealthComponent
  speed : ℚ
  path : List Coord
  move_timer : ℚ
  state : EState
  damage : Int
  detection_range : Int
  attack_cooldown : ℚ
  frozen_timer : ℚ
  slow_timer : ℚ
  slow_factor : ℚ
  patrol_points : List Coord
  current_patrol_index : Nat
  patrol_wait_timer : ℚ
  patrol_wait_duration : ℚ
  home_position : Coord
  damage_animation_timer : ℚ
deriving DecidableEq, Repr

namespace Enemy

/-- `BaseEntity.is_dead` as seen by the enemy. -/
def is_dead (e : Enemy) : Prop := e.health.is_dead

instance (e : Enemy) : Decidable e.is_dead := by
  unfold is_dead; infer_instance

/-- `BaseEntity.take_damage` on an enemy: health-component damage plus the
damage-flash timer. -/
def take_damage (damage : Int) (e : Enemy) : Enemy × Int :=
  let r := e.health.take_damage damage
  let e' := { e with health := r.1 }
  let e'' := if r.2 > 0 then { e' with damage_animation_timer := 15/100 } else e'
  (e'', r.2)

/-- `Enemy.apply_effect`: `freeze` sets the countdown and clears the path
(the source comment reads "Reset path when frozen to force re-evaluation
after thaw"); `slow` sets its timer and halves speed. -/
def apply_effect (effect_type : String) (duration : ℚ) (e : Enemy) : Enemy :=
  if effect_type = "freeze" then
    { e with frozen_timer := duration, path := [] }
  else if effect_type = "slow" then
    { e with slow_timer := duration, slow_factor := 1/2 }
  else e

/-- `BaseEntity.update`: ticks the damage-flash timer. -/
def base_update (dt : ℚ) (e : Enemy) : Enemy :=
  if e.damage_animation_timer > 0 then
    { e with damage_animation_timer := e.damage_animation_timer - dt }
  else e

/-- `BaseEntity.move_step`: accumulate the move timer; when it reaches
`speed` and a path exists, step to the next path node and reset the
timer. -/
def base_move_step (dt : ℚ) (e : Enemy) : Enemy :=
  let e' := { e with move_timer := e.move_timer + dt }
  if e'.move_timer ≥ e'.speed then
    match e'.path with
    | [] => e'
    | p :: rest => { e' with x := p.1, y := p.2, path := rest, move_timer := 0 }
  else e'

/-- `Enemy.move_step`: frozen enemies only tick their freeze timer; slowed
enemies move with a scaled `dt`; the patrol wait timer also ticks here. -/
def move_step (dt : ℚ) (e : Enemy) : Enemy :=
  if e.frozen_timer > 0 then
    { e with frozen_timer := e.frozen_timer - dt }
  else
    let sc :=
      if e.slow_timer > 0 then
        ({ e with slow_timer := e.slow_timer - dt }, dt * e.slow_factor)
      else (e, dt)
    let e' := sc.1
    let current_dt := sc.2
    let e'' :=
      if e'.patrol_wait_timer > 0 then
        { e' with patrol_wait_timer := e'.patrol_wait_timer - current_dt }
      else e'
    base_move_step current_dt e''

/-- The `if not self.path:` tail of `_update_patrol`: compute an A* path to
the current patrol point when it is in bounds and not a wall. -/
def gen_patrol_path (g : Grid) (e : Enemy) : Enemy :=
  if e.path = [] then
    let target := e.patrol_points.getD e.current_patrol_index (0, 0)
    if 0 ≤ target.1 ∧ target.1 < (g.width : Int) ∧
        0 ≤ target.2 ∧ target.2 < (g.height : Int) then
      match g.get_tile target.1 target.2 with
      | some tile =>
        if tile.type ≠ TileType.wall then
          { e with path := Pathfinding.a_star (e.x, e.y) target g }
        else e
      | none => e
    else e
  else e

/-- `Enemy._update_patrol`.  The patrol index is `< patrol_points.length`
in every reachable state (it is only ever set modulo the length), so the
Python list indexing is modelled with a default that is never consulted. -/
def update_patrol (g : Grid) (e : Enemy) : Enemy :=
  if e.patrol_points = [] then { e with state := EState.IDLE }
  else
    let e' := { e with state := EState.PATROL }
    let current_target := e'.patrol_points.getD e'.current_patrol_index (0, 0)
    if e'.x = current_target.1 ∧ e'.y = current_target.2 then
      if e'.patrol_wait_timer > 0 then e'
      else
        gen_patrol_path g
          { e' with
            current_patrol_index :=
              (e'.current_patrol_index + 1) % e'.patrol_points.length
            patrol_wait_timer := e'.patrol_wait_duration }
    else gen_patrol_path g e'

/-- The attack-cooldown decrement at the top of `Enemy.update`. -/
def cooldown_step (dt : ℚ) (e : Enemy) : Enemy :=
  if e.attack_cooldown > 0 then
    { e with attack_cooldown := e.attack_cooldown - dt }
  else e

/-- `Enemy.update`: tick timers, then hunt (recomputing an A* path every
tick) when the player's Manhattan distance is strictly below
`detection_range`, otherwise fall back to patrol, clearing the path on
the Hunting → Patrol transition. -/
def update (dt : ℚ) (player : Coord) (g : Grid) (e : Enemy) : Enemy :=
  let e₁ := base_update dt e
  if e₁.is_dead then e₁
  else
    let e₂ := cooldown_step dt e₁
    let dist := |e₂.x - player.1| + |e₂.y - player.2|
    if dist < e₂.detection_range then
      let e₃ := if e₂.state ≠ EState.HUNTING then { e₂ with state := EState.HUNTING } else e₂
      { e₃ with path := Pathfinding.a_star (e₃.x, e₃.y) (player.1, player.2) g }
    else
      let e₃ :=
        if e₂.state = EState.HUNTING then
          { e₂ with state := EState.PATROL, path := [] }
        else e₂
      update_patrol g e₃

end Enemy

/-- Shadow AI state strings (`'IDLE'`, `'ATTACK'`). -/
inductive SState where
  | IDLE
  | ATTACK
deriving DecidableEq, Repr

/-- The `Shadow` companion entity: fields read or written by `update`,
`_update_idle_state`, `_update_attack_state` and `attack_enemy`.
`target_enemy` (a Python object reference into the enemies list) is
modelled as an index into that list. -/
structure Shadow where
  x : Int
  y : Int
  health : HealthComponent
  speed : ℚ
  path : List Coord
  move_timer : ℚ
  state : SState
  damage : Int
  combat_cooldown : ℚ
  damage_animation_timer : ℚ
  target_enemy : Option Nat
deriving DecidableEq, Repr

namespace Shadow

/-- `BaseEntity.is_dead` as seen by the shadow. -/
def is_dead (s : Shadow) : Prop := s.health.is_dead

instance (s : Shadow) : Decidable s.is_dead := by
  unfold is_dead; infer_instance

/-- `Shadow.attack_enemy`: deals damage only when the shadow stands on the
enemy's tile; on a hit also sets the 0.3 s attack cooldown.  Returns the
updated shadow and enemy plus the whether-damage-was-dealt flag. -/
def attack_enemy (s : Shadow) (enemy : Enemy) : (Shadow × Enemy) × Bool :=
  if s.is_dead then ((s, enemy), false)
  else if s.x ≠ enemy.x ∨ s.y ≠ enemy.y then ((s, enemy), false)
  else
    let r := enemy.take_damage s.damage
    (({ s with combat_cooldown := 3/10 }, r.1), decide (r.2 > 0))

/-- `min(alive_enemies, key=lambda e: |sx-ex| + |sy-ey|)`, returning the
index of the first minimizer among the alive enemies (Python's `min`
returns the first minimal element), or `none` when no enemy is alive. -/
def closest_alive (s : Shadow) (enemies : List Enemy) : Option (Nat × Enemy) :=
  (enemies.enum.filter (fun p => ¬ p.2.is_dead)).foldl
    (fun best p =>
      match best with
      | none => some p
      | some b =>
        if |s.x - p.2.x| + |s.y - p.2.y| < |s.x - b.2.x| + |s.y - b.2.y| then
          some p
        else best)
    none

/-- `Shadow._update_attack_state`: with no alive enemy, go idle; otherwise
target the closest alive enemy and, when the cooldown has elapsed, either
attack it (at distance ≤ 1) or path toward it.  Returns the updated shadow
and enemies list. -/
def update_attack_state (enemies : List Enemy) (g : Grid) (s : Shadow) :
    Shadow × List Enemy :=
  match closest_alive s enemies with
  | none => ({ s with state := SState.IDLE, path := [], target_enemy := none }, enemies)
  | some (i, t) =>
    let s' := { s with target_enemy := some i }
    let dist_to_target := |s'.x - t.x| + |s'.y - t.y|
    if dist_to_target ≤ 1 ∧ s'.combat_cooldown ≤ 0 then
      let r := s'.attack_enemy t
      (r.1.1, enemies.set i r.1.2)
    else if s'.combat_cooldown ≤ 0 then
      ({ s' with path := Pathfinding.a_star (s'.x, s'.y) (t.x, t.y) g }, enemies)
    else (s', enemies)

/-- `Shadow._update_idle_state`: follow the player when more than 2 tiles
away. -/
def update_idle_state (player : Coord) (g : Grid) (s : Shadow) : Shadow :=
  if |s.x - player.1| + |s.y - player.2| > 2 then
    { s with path := Pathfinding.a_star (s.x, s.y) (player.1, player.2) g }
  else s

/-- `Shadow.update`: tick timers, run the state behavior, then move along
the path when the move timer allows. -/
def update (dt : ℚ) (player : Coord) (enemies : List Enemy) (g : Grid)
    (s : Shadow) : Shadow × List Enemy :=
  if s.is_dead then (s, enemies)
  else
    let s₁ := { s with
      move_timer := s.move_timer + dt
      combat_cooldown := max 0 (s.combat_cooldown - dt)
      damage_animation_timer := max 0 (s.damage_animation_timer - dt) }
    let se :=
      if s₁.state = SState.IDLE then (update_idle_state player g s₁, enemies)
      else if s₁.state = SState.ATTACK then update_attack_state enemies g s₁
      else (s₁, enemies)
    let s₂ := se.1
    let s₃ :=
      if s₂.move_timer ≥ s₂.speed then
        match s₂.path with
        | [] => s₂
        | p :: rest => { s₂ with x := p.1, y := p.2, path := rest, move_timer := 0 }
      else s₂
    (s₃, se.2)

end Shadow

/-! ## `game_engine.py`: spawn selection in `init_level` -/

/-- Stable insertion into a list sorted ascending by an integer key
(Python's stable `sorted(..., key=...)`). -/
def insertByKey (key : Coord → Int) (e : Coord) : List Coord → List Coord
  | [] => [e]
  | h :: t => if key e < key h then e :: h :: t else h :: insertByKey key e t

/-- `sorted(l, key=key)` as a stable insertion sort. -/
def sortByKey (key : Coord → Int) (l : List Coord) : List Coord :=
  l.foldl (fun acc e => insertByKey key e acc) []

/-- The player-spawn selection of `GameEngine.init_level`: the region tile
closest to the origin by `p[0]**2 + p[1]**2` when the largest region is
nonempty, else the hardcoded fallback `(2, 2)`. -/
def GameEngine.choose_spawn (largest_region : List Coord) : Coord :=
  match sortByKey (fun p => p.1 ^ 2 + p.2 ^ 2) largest_region with
  | p :: _ => p
  | [] => (2, 2)

/-! ## Specification-side notions: paths, reachability, distances

These define what the claims quantify over: 4-directional paths through
the grid, their lengths and accumulated costs, and graph distances. -/

/-- A path from `a` to `b` under a step relation: the list holds the
coordinates visited after `a`, in order. -/
def StepPath (step : Coord → Coord → Prop) : Coord → List Coord → Coord → Prop
  | a, [], b => a = b
  | a, c :: l, b => step a c ∧ StepPath step c l b

/-- A walkable A* step: 4-adjacent, in bounds, and not a wall. -/
def walkStep (g : Grid) (a b : Coord) : Prop :=
  b ∈ neighbors4 a ∧ g.inBounds b ∧ (g.tiles b.1 b.2).type ≠ TileType.wall

/-- A walkable path from `start` through `p` to `goal`. -/
def WalkPath (g : Grid) (a : Coord) (p : List Coord) (b : Coord) : Prop :=
  StepPath (walkStep g) a p b

/-- Accumulated cost of a path: the sum of the tile costs of the visited
coordinates (the start tile's cost is not paid, matching
`new_cost = cost_so_far[current] + tile.cost`). -/
def path_cost (g : Grid) (p : List Coord) : Int :=
  (p.map (fun c => (g.tiles c.1 c.2).cost)).sum

/-- `goal` is reachable from `start` by walkable steps. -/
def ReachableW (g : Grid) (a b : Coord) : Prop :=
  ∃ p, WalkPath g a p b

/-- A fog-scan step: 4-adjacent and in bounds (walls do not block). -/
def scanStep (g : Grid) (a b : Coord) : Prop :=
  b ∈ neighbors4 a ∧ g.inBounds b

/-- The set of lengths of scan paths from `a` to `b`; the graph distance
of the BFS-layering claim is the least element of this set. -/
def scanDistSet (g : Grid) (a b : Coord) : Set Nat :=
  { n | ∃ p, StepPath (scanStep g) a p b ∧ p.length = n }

/-- The set of lengths of walkable paths from `a` to `b` (unit-cost
shortest-path distance is its least element). -/
def walkDistSet (g : Grid) (a b : Coord) : Set Nat :=
  { n | ∃ p, WalkPath g a p b ∧ p.length = n }

/-- The set of accumulated costs of walkable paths from `a` to `b` (the
minimum achievable cost of the A* claim is its least element). -/
def walkCostSet (g : Grid) (a b : Coord) : Set Int :=
  { n | ∃ p, WalkPath g a p b ∧ path_cost g p = n }

instance stepPathDecidable (step : Coord → Coord → Prop)
    [∀ a b, Decidable (step a b)] :
    ∀ (a : Coord) (p : List Coord) (b : Coord), Decidable (StepPath step a p b)
  | _, [], _ => inferInstanceAs (Decidable (_ = _))
  | a, c :: l, b =>
    have : Decidable (StepPath step c l b) := stepPathDecidable step c l b
    inferInstanceAs (Decidable (_ ∧ _))

instance (g : Grid) (a b : Coord) : Decidable (walkStep g a b) := by
  unfold walkStep; infer_instance

instance (g : Grid) (a : Coord) (p : List Coord) (b : Coord) :
    Decidable (WalkPath g a p b) := by
  unfold WalkPath; infer_instance

/-- A floor step on a generator map grid: 4-adjacent, in bounds, floor. -/
def floorStep (width height : Nat) (m : List (List Bool)) (a b : Coord) : Prop :=
  b ∈ neighbors4 a ∧ inBoundsWH width height b ∧ cellAtI m b = false

/-- Two cells are floor-connected on a map grid. -/
def FloorConnected (width height : Nat) (m : List (List Bool)) (a b : Coord) : Prop :=
  ∃ p, StepPath (floorStep width height m) a p b

/-- A cell of a map grid is an in-bounds floor cell. -/
def isFloorCell (width height : Nat) (m : List (List Bool)) (c : Coord) : Prop :=
  inBoundsWH width height c ∧ cellAtI m c = false

instance (width height : Nat) (m : List (List Bool)) (c : Coord) :
    Decidable (isFloorCell width height m c) := by
  unfold isFloorCell; infer_instance

/-- The single-connected-component property claimed for generated maps. -/
def FloorConnectedMap (width height : Nat) (m : List (List Bool)) : Prop :=
  ∀ a b, isFloorCell width height m a → isFloorCell width height m b →
    FloorConnected width height m a b

/-- The 8 cells surrounding `c`, in the order the source's double loop
visits them (excluding the center). -/
def neighbors8 (c : Coord) : List Coord :=
  [(c.1 - 1, c.2 - 1), (c.1 - 1, c.2), (c.1 - 1, c.2 + 1),
   (c.1, c.2 - 1), (c.1, c.2 + 1),
   (c.1 + 1, c.2 - 1), (c.1 + 1, c.2), (c.1 + 1, c.2 + 1)]

/-- Indicator of "counts as a wall for the smoothing rule": out of bounds
or a wall cell. -/
def wallIndicator (width height : Nat) (m : List (List Bool)) (c : Coord) : Nat :=
  if ¬ inBoundsWH width height c ∨ cellAtI m c = true then 1 else 0

/-! ## Concrete instances used by witnesses and counterexamples -/

/-- A `w × h` grid whose every tile is a floor of cost 1. -/
def allFloorGrid (w h : Nat) : Grid :=
  ⟨w, h, fun _ _ => ⟨TileType.floor, 1⟩⟩

/-- The finite set of in-bounds coordinates of a `width × height` grid. -/
def boundsFinset (width height : Nat) : Finset Coord :=
  ((Finset.range width) ×ˢ (Finset.range height)).image
    (fun p => ((p.1 : Int), (p.2 : Int)))

/-- A concrete `random.random()` stream for `generate 9 9`: the interior
initialization (49 draws, `(x, y)` lexicographic) makes rows `y = 4, 5`
floor and everything else wall; draw 49 accepts the first pillar's
adjacent extension, later draws decline. -/
def pillarFloats : Nat → ℚ := fun k =>
  if k < 49 then (if k % 7 = 3 ∨ k % 7 = 4 then mkRat 1 2 else 0)
  else if k = 49 then mkRat 9 10 else 0

/-- A concrete `random.randint`/`random.choice` stream for `generate 9 9`:
the first pillar lands on `(4, 4)` and extends to `(4, 5)`, severing the
two-tile-wide corridor; the remaining two pillars land on `(3, 4)` and
`(5, 4)`. -/
def pillarInts : Nat → Nat := fun k => [1, 1, 1, 0, 1, 2, 1].getD k 0

/-- Invariant of the `_get_region_tiles` flood-fill loop, for state
`(queue, visited, tiles)` and a flood fill started at `start` on cells of
type `tt`: the start is visited; queue and tiles hold visited nodes; every
visited node has been output or is still queued; visited nodes are
in-bounds cells of the right type; and every visited node is reachable
from `start` through visited cells. -/
def RegionInv (width height : Nat) (tt : Bool) (m : List (List Bool))
    (start : Coord) (s : List Coord × List Coord × List Coord) : Prop :=
  start ∈ s.2.1 ∧
  (∀ c ∈ s.1, c ∈ s.2.1) ∧
  (∀ c ∈ s.2.2, c ∈ s.2.1) ∧
  (∀ c ∈ s.2.1, c ∈ s.2.2 ∨ c ∈ s.1) ∧
  (∀ c ∈ s.2.1, inBoundsWH width height c ∧ cellAtI m c = tt) ∧
  (∀ c ∈ s.2.1, ∃ p, StepPath (fun u v => v ∈ neighbors4 u ∧ v ∈ s.2.1) start p c)

/-- Termination measure of the flood-fill loop: queued nodes plus
in-bounds cells not yet visited. -/
def regionMeasure (width height : Nat)
    (s : List Coord × List Coord × List Coord) : Nat :=
  s.1.length + ((boundsFinset width height).filter (fun c => c ∉ s.2.1)).card

/-- The distance value the BFS loop associates with a coordinate
(its `distances[c]`, defaulting to 0 as the code's lookups always hit). -/
def bfsDistOf (dists : List (Coord × Nat)) (c : Coord) : Nat :=
  (alist.lookup dists c).getD 0

/-- Invariant of the `bfs_scan_layered` main loop for origin `o` and
radius `R`: queued nodes are visited, the distances dict has exactly the
visited nodes as keys and records true graph distances, the queue is
sorted by distance with spread at most 1, fully processed nodes below the
radius have all their in-bounds neighbors visited, and the layers hold
exactly the visited nodes of each recorded distance `≤ R`, without
duplicates. -/
def BfsInv (g : Grid) (R : Nat) (o : Coord) (s : Pathfinding.BfsState) : Prop :=
  o ∈ s.visited ∧
  (∀ c ∈ s.queue, c ∈ s.visited) ∧
  (∀ c, (alist.lookup s.dists c).isSome ↔ c ∈ s.visited) ∧
  (∀ c n, alist.lookup s.dists c = some n → IsLeast (scanDistSet g o c) n) ∧
  List.Sorted (· ≤ ·) (s.queue.map (bfsDistOf s.dists)) ∧
  (∀ a ∈ s.queue, ∀ b ∈ s.queue, bfsDistOf s.dists a ≤ bfsDistOf s.dists b + 1) ∧
  (∀ u ∈ s.visited, u ∉ s.queue → bfsDistOf s.dists u < R →
    ∀ n ∈ neighbors4 u, g.inBounds n → n ∈ s.visited) ∧
  s.layers.length = R + 1 ∧
  (∀ d, ∀ c ∈ s.layers.getD d [], alist.lookup s.dists c = some d) ∧
  (∀ c n, alist.lookup s.dists c = some n → n ≤ R → c ∈ s.layers.getD n []) ∧
  (∀ d, (s.layers.getD d []).Nodup) ∧
  (∀ d, ∀ c ∈ s.layers.getD d [], c ∈ s.visited)

/-- Termination measure of the BFS loop: queued nodes plus in-bounds
cells not yet visited. -/
def bfsMeasure (g : Grid) (s : Pathfinding.BfsState) : Nat :=
  s.queue.length +
    ((boundsFinset g.width g.height).filter (fun c => c ∉ s.visited)).card

/-- Core invariant of the A* main loop for grid `g`, `start` and `goal`
(all components not mentioning the open/relaxed dichotomy): the start
keeps cost 0 and parent `None`; `cost_so_far` and `came_from` share keys;
recorded costs are nonnegative; every parent link is a walkable step
whose tile cost fits between the two recorded costs; every recorded cost
is realized by a walkable path from `start`; and every frontier entry
except the initial `(0, start)` carries a priority at least the node's
current cost plus its heuristic. -/
def AInvCore (g : Grid) (start goal : Coord)
    (s : Pathfinding.AStarState) : Prop :=
  alist.lookup s.cost_so_far start = some 0 ∧
  (∀ n, (alist.lookup s.cost_so_far n).isSome ↔
    (alist.lookup s.came_from n).isSome) ∧
  (∀ n c, alist.lookup s.cost_so_far n = some c → 0 ≤ c) ∧
  alist.lookup s.came_from start = some none ∧
  (∀ n pp, alist.lookup s.came_from n = some pp → n = start ∨
    ∃ prev, pp = some prev ∧ walkStep g prev n ∧
      ∃ cn cp, alist.lookup s.cost_so_far n = some cn ∧
        alist.lookup s.cost_so_far prev = some cp ∧
        cp + (g.tiles n.1 n.2).cost ≤ cn) ∧
  (∀ n c, alist.lookup s.cost_so_far n = some c →
    ∃ p, WalkPath g start p n ∧ path_cost g p = c) ∧
  (∀ e ∈ s.frontier, e = ((0 : Int), start) ∨
    ∃ cn, alist.lookup s.cost_so_far e.2 = some cn ∧
      cn + Pathfinding.heuristic e.2 goal ≤ e.1)

/-- The open-or-relaxed component of the A* invariant: every node with a
recorded cost either has a frontier entry whose priority is at most its
cost plus heuristic, or has already relaxed all its walkable successors. -/
def AOpenRel (g : Grid) (goal : Coord) (s : Pathfinding.AStarState) : Prop :=
  ∀ n c, alist.lookup s.cost_so_far n = some c →
    (∃ pr, (pr, n) ∈ s.frontier ∧ pr ≤ c + Pathfinding.heuristic n goal) ∨
    (∀ m, walkStep g n m → ∃ cm, alist.lookup s.cost_so_far m = some cm ∧
      cm ≤ c + (g.tiles m.1 m.2).cost)

/-- The weakened open-or-relaxed component holding mid-iteration, after
the entry of the node `u` being expanded has been popped. -/
def AOpenRelExc (g : Grid) (goal u : Coord)
    (s : Pathfinding.AStarState) : Prop :=
  ∀ n c, alist.lookup s.cost_so_far n = some c →
    (∃ pr, (pr, n) ∈ s.frontier ∧ pr ≤ c + Pathfinding.heuristic n goal) ∨
    (∀ m, walkStep g n m → ∃ cm, alist.lookup s.cost_so_far m = some cm ∧
      cm ≤ c + (g.tiles m.1 m.2).cost) ∨
    n = u

/-- The full A* loop invariant. -/
def AInv (g : Grid) (start goal : Coord)
    (s : Pathfinding.AStarState) : Prop :=
  AInvCore g start goal s ∧ AOpenRel g goal s

/-! ## Theorems -/

/-- C10: for every health component and damage amount `d ≥ 0`,
`take_damage(d)` deals exactly `max(1, d - armor)` damage (so at least 1
even when armor ≥ d), returns that value, and floors health at 0 so it
never becomes negative; `BaseEntity.take_damage` forwards exactly these
values. -/
theorem take_damage_exact (h : HealthComponent) (a : ℚ) (d : Int)
    (hd : 0 ≤ d) :
    (h.take_damage d).2 = max 1 (d - h.armor) ∧
    1 ≤ (h.take_damage d).2 ∧
    (h.take_damage d).1.current = max 0 (h.current - max 1 (d - h.armor)) ∧
    0 ≤ (h.take_damage d).1.current ∧
    (BaseEntity.take_damage h a d).2 = max 1 (d - h.armor) ∧
    (BaseEntity.take_damage h a d).1.1 = (h.take_damage d).1 := by
  refine ⟨rfl, ?_, rfl, ?_, rfl, rfl⟩
  · exact le_max_left 1 (d - h.armor)
  · exact le_max_left 0 _

/-- Witness for C10 at a concrete component and damage value. -/
theorem take_damage_exact_witness :
    (0 : Int) ≤ 3 ∧
    ((⟨10, 10, 5⟩ : HealthComponent).take_damage 3).2 = max 1 (3 - 5) :=
  ⟨by decide, (take_damage_exact ⟨10, 10, 5⟩ 0 3 (by decide)).1⟩

/-- C3 counterexample: applying a freeze effect does NOT leave the enemy's
path unchanged — the code clears it (`self.path = []`).  Witnessed by a
concrete patrolling enemy whose path holds one step. -/
theorem freeze_keeps_path_counterexample :
    (Enemy.apply_effect "freeze" 2
      (⟨0, 0, ⟨30, 30, 0⟩, 1/2, [(1, 1)], 0, EState.PATROL, 5, 8,
        0, 0, 0, 1, [(0, 0)], 0, 0, 3/2, (0, 0), 0⟩ : Enemy)).path ≠
    (⟨0, 0, ⟨30, 30, 0⟩, 1/2, [(1, 1)], 0, EState.PATROL, 5, 8,
        0, 0, 0, 1, [(0, 0)], 0, 0, 3/2, (0, 0), 0⟩ : Enemy).path := by
  decide

/-- C3 (amended): `apply_effect('freeze', d)` sets the freeze countdown and
clears the path (it does not preserve it); while `frozen_timer > 0` every
`move_step` changes nothing but the countdown (zero position changes, path
untouched), across any number of calls whose total `dt` stays below the
countdown; and once all status timers have run out, `move_step` behaves
exactly as the plain `BaseEntity` movement again (which requires a fresh
path, the pre-freeze one having been discarded). -/
theorem freeze_suppresses_movement :
    (∀ (e : Enemy) (d : ℚ),
      Enemy.apply_effect "freeze" d e = { e with frozen_timer := d, path := [] }) ∧
    (∀ (e : Enemy) (dt : ℚ), 0 < e.frozen_timer →
      Enemy.move_step dt e = { e with frozen_timer := e.frozen_timer - dt }) ∧
    (∀ (e : Enemy) (dts : List ℚ), (∀ q ∈ dts, 0 ≤ q) →
      dts.sum < e.frozen_timer →
      dts.foldl (fun e' dt => Enemy.move_step dt e') e =
        { e with frozen_timer := e.frozen_timer - dts.sum }) ∧
    (∀ (e : Enemy) (dt : ℚ),
      e.frozen_timer ≤ 0 → e.slow_timer ≤ 0 → e.patrol_wait_timer ≤ 0 →
      Enemy.move_step dt e = Enemy.base_move_step dt e) := by
  have happly : ∀ (e : Enemy) (d : ℚ),
      Enemy.apply_effect "freeze" d e = { e with frozen_timer := d, path := [] } := by
    intro e d
    rfl
  have hstep : ∀ (e : Enemy) (dt : ℚ), 0 < e.frozen_timer →
      Enemy.move_step dt e = { e with frozen_timer := e.frozen_timer - dt } := by
    intro e dt hfz
    unfold Enemy.move_step
    rw [if_pos hfz]
  refine ⟨happly, hstep, ?_, ?_⟩
  · intro e dts
    induction dts generalizing e with
    | nil =>
      intro _ _
      simp
    | cons dt rest ih =>
      intro hnn hsum
      have hdt : 0 ≤ dt := hnn dt (List.mem_cons_self dt rest)
      have hrest : 0 ≤ rest.sum :=
        List.sum_nonneg (fun q hq => hnn q (List.mem_cons_of_mem dt hq))
      have hfz : 0 < e.frozen_timer := by
        have : dt + rest.sum < e.frozen_timer := by
          simpa [List.sum_cons] using hsum
        nlinarith
      have h1 := hstep e dt hfz
      simp only [List.foldl_cons, h1]
      have h2 := ih ({ e with frozen_timer := e.frozen_timer - dt })
        (fun q hq => hnn q (List.mem_cons_of_mem dt hq))
        (by
          simp only [List.sum_cons] at hsum
          simp only []
          linarith)
      rw [h2]
      simp only [List.sum_cons]
      congr 1
      ring
  · intro e dt hfz hsl hpw
    unfold Enemy.move_step
    rw [if_neg (by linarith)]
    simp only [if_neg (by linarith : ¬ e.slow_timer > 0)]
    rw [if_neg (by linarith : ¬ e.patrol_wait_timer > 0)]

/-- Witness for C3's amended theorem at a concrete frozen enemy and two
ticks totalling less than the countdown. -/
theorem freeze_suppresses_movement_witness :
    (∀ q ∈ [(1 : ℚ)/4, 1/4], 0 ≤ q) ∧
    ([(1 : ℚ)/4, 1/4].sum <
      (⟨0, 0, ⟨30, 30, 0⟩, 1/2, [], 0, EState.PATROL, 5, 8,
        0, 1, 0, 1, [(0, 0)], 0, 0, 3/2, (0, 0), 0⟩ : Enemy).frozen_timer) ∧
    ([(1 : ℚ)/4, 1/4].foldl (fun e' dt => Enemy.move_step dt e')
      (⟨0, 0, ⟨30, 30, 0⟩, 1/2, [], 0, EState.PATROL, 5, 8,
        0, 1, 0, 1, [(0, 0)], 0, 0, 3/2, (0, 0), 0⟩ : Enemy) =
      { (⟨0, 0, ⟨30, 30, 0⟩, 1/2, [], 0, EState.PATROL, 5, 8,
          0, 1, 0, 1, [(0, 0)], 0, 0, 3/2, (0, 0), 0⟩ : Enemy) with
        frozen_timer := 1 - [(1 : ℚ)/4, 1/4].sum }) :=
  ⟨by norm_num [List.forall_mem_cons], by norm_num, by
    exact freeze_suppresses_movement.2.2.1
      (⟨0, 0, ⟨30, 30, 0⟩, 1/2, [], 0, EState.PATROL, 5, 8,
        0, 1, 0, 1, [(0, 0)], 0, 0, 3/2, (0, 0), 0⟩ : Enemy)
      [(1 : ℚ)/4, 1/4] (by norm_num [List.forall_mem_cons]) (by norm_num)⟩

/-- Writing back the element already stored at an index leaves a list
unchanged. -/
theorem list_set_self {α : Type} (l : List α) (i : Nat) (a : α)
    (h : l[i]? = some a) : l.set i a = l := by
  induction l generalizing i with
  | nil => simp at h
  | cons x t ih =>
    cases i with
    | zero =>
      simp at h
      simp [List.set, h]
    | succ j =>
      simp at h
      simp [List.set, ih j h]

/-- The fold underlying `Shadow.closest_alive` returns, when it starts
from `none`, either `none` or an element of the folded list. -/
theorem closest_fold_mem (s : Shadow) (l : List (Nat × Enemy))
    (acc : Option (Nat × Enemy)) (p : Nat × Enemy)
    (h : l.foldl
      (fun best p =>
        match best with
        | none => some p
        | some b =>
          if |s.x - p.2.x| + |s.y - p.2.y| < |s.x - b.2.x| + |s.y - b.2.y| then
            some p
          else best)
      acc = some p) :
    acc = some p ∨ p ∈ l := by
  induction l generalizing acc with
  | nil => simp at h; exact Or.inl h
  | cons q t ih =>
    simp only [List.foldl_cons] at h
    rcases ih _ h with hacc | hmem
    · cases acc with
      | none =>
        simp at hacc
        exact Or.inr (by simp [hacc])
      | some b =>
        by_cases hlt : |s.x - q.2.x| + |s.y - q.2.y| < |s.x - b.2.x| + |s.y - b.2.y|
        · simp [hlt] at hacc
          exact Or.inr (by simp [hacc])
        · simp [hlt] at hacc
          exact Or.inl (by simp [hacc])
    · exact Or.inr (List.mem_cons_of_mem q hmem)

/-- `Shadow.closest_alive` selects an alive enemy actually stored at the
returned index. -/
theorem closest_alive_sound (s : Shadow) (enemies : List Enemy)
    (i : Nat) (t : Enemy) (h : s.closest_alive enemies = some (i, t)) :
    enemies[i]? = some t ∧ ¬ t.is_dead := by
  unfold Shadow.closest_alive at h
  rcases closest_fold_mem s _ none (i, t) h with hacc | hmem
  · simp at hacc
  · have hmem' := List.mem_of_mem_filter hmem
    have hdead := List.of_mem_filter hmem
    refine ⟨?_, by simpa using hdead⟩
    have := List.mem_enum_iff_getElem?.mp hmem'
    simpa using this

/-- C4 counterexample: a shadow in Attack state at Manhattan distance
exactly 1 from the closest alive enemy, with its cooldown elapsed, does
NOT damage it and does NOT reset its cooldown: `attack_enemy` requires
standing on the enemy's tile, so the adjacent "attack" is a no-op. -/
theorem shadow_attack_adjacent_counterexample :
    (Shadow.update_attack_state
        [⟨1, 0, ⟨30, 30, 0⟩, 1, [], 0, EState.IDLE, 5, 8,
          0, 0, 0, 1, [], 0, 0, 2, (1, 0), 0⟩]
        (allFloorGrid 3 3)
        (⟨0, 0, ⟨20, 20, 0⟩, 1, [], 0, SState.ATTACK, 6, 0, 0, none⟩ : Shadow)).2 =
      [⟨1, 0, ⟨30, 30, 0⟩, 1, [], 0, EState.IDLE, 5, 8,
          0, 0, 0, 1, [], 0, 0, 2, (1, 0), 0⟩] ∧
    (Shadow.update_attack_state
        [⟨1, 0, ⟨30, 30, 0⟩, 1, [], 0, EState.IDLE, 5, 8,
          0, 0, 0, 1, [], 0, 0, 2, (1, 0), 0⟩]
        (allFloorGrid 3 3)
        (⟨0, 0, ⟨20, 20, 0⟩, 1, [], 0, SState.ATTACK, 6, 0, 0, none⟩ : Shadow)).1.combat_cooldown
      = 0 := by
  constructor
  · rfl
  · rfl

/-- `attack_enemy` by a dead shadow is a no-op. -/
theorem attack_enemy_dead (s : Shadow) (t : Enemy) (hd : s.is_dead) :
    s.attack_enemy t = ((s, t), false) := by
  unfold Shadow.attack_enemy
  rw [if_pos hd]

/-- `attack_enemy` on a target on a different tile is a no-op apart from
the recorded return flag. -/
theorem attack_enemy_miss (s : Shadow) (t : Enemy)
    (h : s.x ≠ t.x ∨ s.y ≠ t.y) :
    s.attack_enemy t = ((s, t), false) := by
  unfold Shadow.attack_enemy
  by_cases hd : s.is_dead
  · rw [if_pos hd]
  · rw [if_neg hd, if_pos h]

/-- `attack_enemy` on a target on the same tile, by a living shadow,
damages the target and sets the 0.3 s cooldown. -/
theorem attack_enemy_hit (s : Shadow) (t : Enemy)
    (hd : ¬ s.is_dead) (hx : s.x = t.x) (hy : s.y = t.y) :
    s.attack_enemy t =
      (({ s with combat_cooldown := 3/10 }, (t.take_damage s.damage).1),
        decide ((t.take_damage s.damage).2 > 0)) := by
  unfold Shadow.attack_enemy
  rw [if_neg hd, if_neg (by push_neg; exact ⟨hx, hy⟩)]

/-- C4 (amended): when the shadow's selected closest alive enemy is at
Manhattan distance ≤ 1 and the attack cooldown has elapsed, the update
invokes the attack instead of requesting a path (the path field is left
untouched); the attack actually lands — fixed damage via `take_damage`
and cooldown reset to 0.3 — only when the shadow stands on the enemy's
tile (distance 0); at distance exactly 1 it is a no-op: the enemies are
unchanged and the cooldown is not reset. -/
theorem shadow_attack_only_on_same_tile (s : Shadow) (enemies : List Enemy)
    (g : Grid) (i : Nat) (t : Enemy)
    (hc : s.closest_alive enemies = some (i, t))
    (hdist : |s.x - t.x| + |s.y - t.y| ≤ 1)
    (hcd : s.combat_cooldown ≤ 0) :
    ((s.update_attack_state enemies g).1.path = s.path) ∧
    (s.x = t.x ∧ s.y = t.y → ¬ s.is_dead →
      (s.update_attack_state enemies g).1.combat_cooldown = 3/10 ∧
      (s.update_attack_state enemies g).2 =
        enemies.set i (t.take_damage s.damage).1) ∧
    (¬ (s.x = t.x ∧ s.y = t.y) →
      (s.update_attack_state enemies g).1 = { s with target_enemy := some i } ∧
      (s.update_attack_state enemies g).2 = enemies) := by
  have hsound := closest_alive_sound s enemies i t hc
  have hset : enemies.set i t = enemies := list_set_self enemies i t hsound.1
  have hdist' : |(({ s with target_enemy := some i } : Shadow)).x - t.x| +
      |(({ s with target_enemy := some i } : Shadow)).y - t.y| ≤ 1 := hdist
  have hcd' : (({ s with target_enemy := some i } : Shadow)).combat_cooldown ≤ 0 := hcd
  unfold Shadow.update_attack_state
  simp only [hc]
  rw [if_pos (And.intro hdist' hcd')]
  by_cases hpos : s.x = t.x ∧ s.y = t.y
  · have hx' : (({ s with target_enemy := some i } : Shadow)).x = t.x := hpos.1
    have hy' : (({ s with target_enemy := some i } : Shadow)).y = t.y := hpos.2
    refine ⟨?_, fun _ hdead => ?_, fun hn => absurd hpos hn⟩
    · by_cases hsd : (({ s with target_enemy := some i } : Shadow)).is_dead
      · rw [attack_enemy_dead _ t hsd]
      · rw [attack_enemy_hit _ t hsd hx' hy']
    · have hsd : ¬ (({ s with target_enemy := some i } : Shadow)).is_dead := hdead
      rw [attack_enemy_hit _ t hsd hx' hy']
      exact ⟨rfl, rfl⟩
  · have hne : (({ s with target_enemy := some i } : Shadow)).x ≠ t.x ∨
        (({ s with target_enemy := some i } : Shadow)).y ≠ t.y := by
      by_cases hx : s.x = t.x
      · exact Or.inr (fun hy => hpos ⟨hx, hy⟩)
      · exact Or.inl hx
    rw [attack_enemy_miss _ t hne]
    exact ⟨rfl, fun hp _ => absurd hp hpos, fun _ => ⟨rfl, hset⟩⟩

/-- Witness for C4's amended theorem: a shadow standing on the enemy's
tile with its cooldown elapsed lands the attack and resets the cooldown. -/
theorem shadow_attack_only_on_same_tile_witness :
    Shadow.closest_alive
        (⟨1, 0, ⟨20, 20, 0⟩, 1, [], 0, SState.ATTACK, 6, 0, 0, none⟩ : Shadow)
        [⟨1, 0, ⟨30, 30, 0⟩, 1, [], 0, EState.IDLE, 5, 8,
          0, 0, 0, 1, [], 0, 0, 2, (1, 0), 0⟩] =
      some (0, ⟨1, 0, ⟨30, 30, 0⟩, 1, [], 0, EState.IDLE, 5, 8,
          0, 0, 0, 1, [], 0, 0, 2, (1, 0), 0⟩) ∧
    ((Shadow.update_attack_state
        [⟨1, 0, ⟨30, 30, 0⟩, 1, [], 0, EState.IDLE, 5, 8,
          0, 0, 0, 1, [], 0, 0, 2, (1, 0), 0⟩]
        (allFloorGrid 3 3)
        (⟨1, 0, ⟨20, 20, 0⟩, 1, [], 0, SState.ATTACK, 6, 0, 0, none⟩ : Shadow)).1.combat_cooldown
      = 3/10) := by
  refine ⟨by rfl, ?_⟩
  exact ((shadow_attack_only_on_same_tile
      (⟨1, 0, ⟨20, 20, 0⟩, 1, [], 0, SState.ATTACK, 6, 0, 0, none⟩ : Shadow)
      [⟨1, 0, ⟨30, 30, 0⟩, 1, [], 0, EState.IDLE, 5, 8,
          0, 0, 0, 1, [], 0, 0, 2, (1, 0), 0⟩]
      (allFloorGrid 3 3) 0
      ⟨1, 0, ⟨30, 30, 0⟩, 1, [], 0, EState.IDLE, 5, 8,
          0, 0, 0, 1, [], 0, 0, 2, (1, 0), 0⟩
      (by rfl) (by norm_num) (by norm_num)).2.1
    (by norm_num) (by decide)).1

/-- A fold whose step function fixes the accumulator on every list element
returns its initial accumulator. -/
theorem foldl_fixed {α β : Type} {l : List α} {f : β → α → β} {b : β}
    (h : ∀ a ∈ l, ∀ acc, f acc a = acc) : l.foldl f b = b := by
  induction l generalizing b with
  | nil => rfl
  | cons x t ih =>
    rw [List.foldl_cons, h x (List.mem_cons_self x t)]
    exact ih (fun a ha acc => h a (List.mem_cons_of_mem x ha) acc)

/-- C9: when no floor region exists (e.g. a degenerate all-wall map after
smoothing), `_get_regions` yields `[]`, `_connect_caves` returns the map
unchanged together with the empty largest-region list, and the
orchestrator's spawn selection falls back to the hardcoded `(2, 2)`
instead of indexing into the empty list. -/
theorem degenerate_generation_safe :
    (∀ (w h : Nat) (m : List (List Bool)),
      (∀ x y, x < w → y < h → cellAt m x y = true) →
      CellularAutomataGenerator.get_regions w h false m = []) ∧
    (∀ (w h : Nat) (m : List (List Bool)),
      CellularAutomataGenerator.get_regions w h false m = [] →
      CellularAutomataGenerator.connect_caves w h m = (m, [])) ∧
    GameEngine.choose_spawn [] = (2, 2) := by
  refine ⟨?_, ?_, rfl⟩
  · intro w h m hwall
    unfold CellularAutomataGenerator.get_regions
    have : (List.range w).foldl
        (fun (acc : List (List Coord) × List Coord) (x : Nat) =>
          (List.range h).foldl
            (fun (acc : List (List Coord) × List Coord) (y : Nat) =>
              if ((x : Int), (y : Int)) ∉ acc.2 ∧ cellAt m x y = false then
                let region := CellularAutomataGenerator.get_region_tiles w h x y false m
                (acc.1 ++ [region], acc.2 ++ region)
              else acc)
            acc)
        ([], []) = ([], []) := by
      apply foldl_fixed
      intro x hx acc
      apply foldl_fixed
      intro y hy acc'
      rw [if_neg]
      rintro ⟨-, hfloor⟩
      rw [hwall x y (List.mem_range.mp hx) (List.mem_range.mp hy)] at hfloor
      exact absurd hfloor (by simp)
    rw [this]
  · intro w h m hreg
    unfold CellularAutomataGenerator.connect_caves
    rw [hreg]
    rfl

/-- Witness for C9 at a concrete 3 × 3 all-wall map. -/
theorem degenerate_generation_safe_witness :
    (∀ x y, x < 3 → y < 3 →
      cellAt [[true, true, true], [true, true, true], [true, true, true]] x y = true) ∧
    CellularAutomataGenerator.connect_caves 3 3
      [[true, true, true], [true, true, true], [true, true, true]] =
      ([[true, true, true], [true, true, true], [true, true, true]], []) := by
  have hw : ∀ x y, x < 3 → y < 3 →
      cellAt [[true, true, true], [true, true, true], [true, true, true]] x y = true := by
    intro x y hx hy
    interval_cases x <;> interval_cases y <;> rfl
  exact ⟨hw, degenerate_generation_safe.2.1 3 3 _
    (degenerate_generation_safe.1 3 3 _ hw)⟩

/-- `_update_patrol`'s path-generation tail does not change the AI state. -/
theorem gen_patrol_path_state (g : Grid) (x : Enemy) :
    (Enemy.gen_patrol_path g x).state = x.state := by
  unfold Enemy.gen_patrol_path
  dsimp only
  split
  · split
    · split
      · split <;> rfl
      · rfl
    · rfl
  · rfl

/-- `_update_patrol` never leaves the enemy in the Hunting state. -/
theorem update_patrol_not_hunting (g : Grid) (x : Enemy) :
    (Enemy.update_patrol g x).state ≠ EState.HUNTING := by
  unfold Enemy.update_patrol
  dsimp only
  split
  · intro h
    exact absurd h (by simp)
  · split
    · split
      · intro h
        exact absurd h (by simp)
      · rw [gen_patrol_path_state]
        intro h
        exact absurd h (by simp)
    · rw [gen_patrol_path_state]
      intro h
      exact absurd h (by simp)

/-- With a nonempty patrol route, `_update_patrol` leaves the enemy in the
Patrol state. -/
theorem update_patrol_state_patrol (g : Grid) (x : Enemy)
    (h : x.patrol_points ≠ []) :
    (Enemy.update_patrol g x).state = EState.PATROL := by
  unfold Enemy.update_patrol
  dsimp only
  rw [if_neg h]
  split
  · split
    · rfl
    · rw [gen_patrol_path_state]
  · rw [gen_patrol_path_state]

/-- C5: over enemy update ticks (for a living enemy), the state after the
tick is Hunting exactly when the player's Manhattan distance is strictly
below `detection_range`; on a tick where the distance is ≥
`detection_range` and the enemy had been Hunting, the update is exactly
the patrol update applied to the enemy with state switched to Patrol and
path cleared; and (with a nonempty patrol route) that tick ends in the
Patrol state — the state never remains Hunting on such a tick. -/
theorem enemy_hunting_hysteresis (e : Enemy) (dt : ℚ) (player : Coord)
    (g : Grid) (halive : ¬ e.is_dead) :
    ((e.update dt player g).state = EState.HUNTING ↔
      |e.x - player.1| + |e.y - player.2| < e.detection_range) ∧
    (e.state = EState.HUNTING →
      e.detection_range ≤ |e.x - player.1| + |e.y - player.2| →
      e.update dt player g =
        Enemy.update_patrol g
          { Enemy.cooldown_step dt (Enemy.base_update dt e) with
            state := EState.PATROL, path := [] }) ∧
    (e.patrol_points ≠ [] →
      e.detection_range ≤ |e.x - player.1| + |e.y - player.2| →
      (e.update dt player g).state = EState.PATROL) := by
  have hdead₁ : ¬ (Enemy.base_update dt e).is_dead := by
    unfold Enemy.base_update
    unfold Enemy.is_dead HealthComponent.is_dead at halive ⊢
    split <;> exact halive
  have hx₂ : (Enemy.cooldown_step dt (Enemy.base_update dt e)).x = e.x := by
    unfold Enemy.base_update Enemy.cooldown_step
    split <;> split <;> rfl
  have hy₂ : (Enemy.cooldown_step dt (Enemy.base_update dt e)).y = e.y := by
    unfold Enemy.base_update Enemy.cooldown_step
    split <;> split <;> rfl
  have hstate₂ : (Enemy.cooldown_step dt (Enemy.base_update dt e)).state = e.state := by
    unfold Enemy.base_update Enemy.cooldown_step
    split <;> split <;> rfl
  have hrange₂ : (Enemy.cooldown_step dt (Enemy.base_update dt e)).detection_range
      = e.detection_range := by
    unfold Enemy.base_update Enemy.cooldown_step
    split <;> split <;> rfl
  have hpp₂ : (Enemy.cooldown_step dt (Enemy.base_update dt e)).patrol_points
      = e.patrol_points := by
    unfold Enemy.base_update Enemy.cooldown_step
    split <;> split <;> rfl
  have hupd : e.update dt player g =
      (let e₂ := Enemy.cooldown_step dt (Enemy.base_update dt e)
       let dist := |e₂.x - player.1| + |e₂.y - player.2|
       if dist < e₂.detection_range then
         let e₃ := if e₂.state ≠ EState.HUNTING then { e₂ with state := EState.HUNTING } else e₂
         { e₃ with path := Pathfinding.a_star (e₃.x, e₃.y) (player.1, player.2) g }
       else
         let e₃ :=
           if e₂.state = EState.HUNTING then
             { e₂ with state := EState.PATROL, path := [] }
           else e₂
         Enemy.update_patrol g e₃) := by
    unfold Enemy.update
    rw [if_neg hdead₁]
  rw [hupd]
  simp only [hx₂, hy₂, hstate₂, hrange₂]
  by_cases hlt : |e.x - player.1| + |e.y - player.2| < e.detection_range
  · rw [if_pos hlt]
    constructor
    · constructor
      · intro _
        exact hlt
      · intro _
        by_cases hst : e.state ≠ EState.HUNTING
        · rw [if_pos hst]
        · rw [if_neg hst]
          push_neg at hst
          simpa [hstate₂] using hst
    · exact ⟨fun _ hge => absurd hlt (not_lt.mpr hge),
        fun _ hge => absurd hlt (not_lt.mpr hge)⟩
  · rw [if_neg hlt]
    push_neg at hlt
    refine ⟨?_, ?_, ?_⟩
    · constructor
      · intro hcontr
        exact absurd hcontr (update_patrol_not_hunting g _)
      · intro h
        exact absurd h (not_lt.mpr hlt)
    · intro hst _
      rw [if_pos hst]
    · intro hpp _
      by_cases hst : e.state = EState.HUNTING
      · rw [if_pos hst]
        exact update_patrol_state_patrol g _ (by simpa [hpp₂] using hpp)
      · rw [if_neg hst]
        exact update_patrol_state_patrol g _ (by simpa [hpp₂] using hpp)

/-- Witness for C5 at a concrete hunting enemy that loses sight of the
player (distance ≥ detection range) and drops back to Patrol. -/
theorem enemy_hunting_hysteresis_witness :
    ¬ (⟨0, 0, ⟨30, 30, 0⟩, 1, [(1, 0)], 0, EState.HUNTING, 5, 3,
        0, 0, 0, 1, [(0, 0)], 0, 0, 2, (0, 0), 0⟩ : Enemy).is_dead ∧
    ((⟨0, 0, ⟨30, 30, 0⟩, 1, [(1, 0)], 0, EState.HUNTING, 5, 3,
        0, 0, 0, 1, [(0, 0)], 0, 0, 2, (0, 0), 0⟩ : Enemy).update 1 (5, 5)
      (allFloorGrid 4 4)).state = EState.PATROL :=
  ⟨by decide,
    (enemy_hunting_hysteresis
      (⟨0, 0, ⟨30, 30, 0⟩, 1, [(1, 0)], 0, EState.HUNTING, 5, 3,
        0, 0, 0, 1, [(0, 0)], 0, 0, 2, (0, 0), 0⟩ : Enemy)
      1 (5, 5) (allFloorGrid 4 4) (by decide)).2.2
      (by decide) (by decide)⟩

/-- The per-cell body of `_get_surrounding_wall_count`'s double loop adds
`0` for the center cell and the wall indicator otherwise. -/
theorem wall_count_body (width height : Nat) (m : List (List Bool))
    (x y nx ny : Int) (a : Nat) :
    (if nx = x ∧ ny = y then a
     else if nx < 0 ∨ (width : Int) ≤ nx ∨ ny < 0 ∨ (height : Int) ≤ ny then a + 1
     else if cellAt m nx.toNat ny.toNat then a + 1
     else a) =
    a + (if nx = x ∧ ny = y then 0 else wallIndicator width height m (nx, ny)) := by
  unfold wallIndicator inBoundsWH cellAtI
  split_ifs <;> simp_all <;> omega

/-- Reading back cell `(x, y)` of a grid built by the generator's
row-major double loop returns the loop body's value. -/
theorem cellAt_build (w h : Nat) (f : Nat → Nat → Bool) (x y : Nat)
    (hx : x < w) (hy : y < h) :
    cellAt ((List.range w).map (fun x => (List.range h).map (f x))) x y = f x y := by
  unfold cellAt
  have h1 : ((List.range w).map (fun x => (List.range h).map (f x))).getD x [] =
      (List.range h).map (f x) := by
    rw [List.getD_eq_getElem?_getD, List.getElem?_map, List.getElem?_range hx]
    rfl
  rw [h1]
  rw [List.getD_eq_getElem?_getD, List.getElem?_map, List.getElem?_range hy]
  rfl

/-- C8: each smoothing iteration computes, for every cell, the number of
wall neighbors among the 8 surrounding cells of the input grid (out of
bounds counting as wall), and the output cell is wall when that count
exceeds 4, floor when it is below 4, and the input cell's previous state
at exactly 4 — the output grid is built fresh from the input grid only
(double buffering). -/
theorem smoothing_majority_rule (width height : Nat) (m : List (List Bool))
    (x y : Nat) (hx : x < width) (hy : y < height) :
    CellularAutomataGenerator.get_surrounding_wall_count width height x y m =
      ((neighbors8 ((x : Int), (y : Int))).map
        (wallIndicator width height m)).sum ∧
    cellAt (CellularAutomataGenerator.smooth_map width height m) x y =
      (if 4 < CellularAutomataGenerator.get_surrounding_wall_count width height x y m
       then true
       else if CellularAutomataGenerator.get_surrounding_wall_count width height x y m < 4
       then false
       else cellAt m x y) := by
  constructor
  · unfold CellularAutomataGenerator.get_surrounding_wall_count
    have hmx : (List.range 3).map (fun i => (x : Int) - 1 + (i : Int)) =
        [(x : Int) - 1 + ((0 : Nat) : Int), (x : Int) - 1 + ((1 : Nat) : Int),
         (x : Int) - 1 + ((2 : Nat) : Int)] := rfl
    have hmy : (List.range 3).map (fun j => (y : Int) - 1 + (j : Int)) =
        [(y : Int) - 1 + ((0 : Nat) : Int), (y : Int) - 1 + ((1 : Nat) : Int),
         (y : Int) - 1 + ((2 : Nat) : Int)] := rfl
    rw [hmx, hmy]
    simp only [List.foldl_cons, List.foldl_nil, wall_count_body]
    have e2 : ∀ a : Int, a - 1 + 2 = a + 1 := fun a => by ring
    simp only [Nat.cast_zero, Nat.cast_one, Nat.cast_ofNat, add_zero, sub_add_cancel, e2]
    have hcx : ¬ ((x : Int) - 1 = x) := by omega
    have hcx2 : ¬ ((x : Int) + 1 = x) := by omega
    have hcy : ¬ ((y : Int) - 1 = y) := by omega
    have hcy2 : ¬ ((y : Int) + 1 = y) := by omega
    simp only [neighbors8, List.map_cons, List.map_nil, List.sum_cons, List.sum_nil]
    simp [hcx, hcx2, hcy, hcy2]
    ring
  · unfold CellularAutomataGenerator.smooth_map
    exact cellAt_build width height _ x y hx hy

/-- Witness for C8 at the center cell of a concrete 3 × 3 map. -/
theorem smoothing_majority_rule_witness :
    (1 : Nat) < 3 ∧
    CellularAutomataGenerator.get_surrounding_wall_count 3 3 1 1
        [[true, false, true], [false, false, true], [true, true, false]] =
      ((neighbors8 (1, 1)).map
        (wallIndicator 3 3
          [[true, false, true], [false, false, true], [true, true, false]])).sum :=
  ⟨by decide,
    (smoothing_majority_rule 3 3
      [[true, false, true], [false, false, true], [true, true, false]]
      1 1 (by decide) (by decide)).1⟩

/-- Appending one more step to a path. -/
theorem StepPath.append {step : Coord → Coord → Prop} {a b c : Coord}
    {p : List Coord} (hp : StepPath step a p b) (hs : step b c) :
    StepPath step a (p ++ [c]) c := by
  induction p generalizing a with
  | nil =>
    cases hp
    exact ⟨hs, rfl⟩
  | cons d q ih =>
    exact ⟨hp.1, ih hp.2⟩

/-- `heappop` returns a member of the heap and the heap with that entry
removed. -/
theorem popMin_mem {l : List (Int × Coord)} {e : Int × Coord}
    {rest : List (Int × Coord)}
    (h : Pathfinding.popMin l = some (e, rest)) :
    e ∈ l ∧ rest = l.erase e := by
  unfold Pathfinding.popMin at h
  cases l with
  | nil => simp at h
  | cons x t =>
    simp only [Option.some.injEq, Prod.mk.injEq] at h
    have hmem : ∀ (acc : Int × Coord) (u : List (Int × Coord)),
        u.foldl (fun a y => if Pathfinding.tupLe a y then a else y) acc ∈ acc :: u := by
      intro acc u
      induction u generalizing acc with
      | nil => simp [List.foldl_nil]
      | cons z w ih =>
        simp only [List.foldl_cons]
        by_cases hle : Pathfinding.tupLe acc z
        · rw [if_pos hle]
          rcases (List.mem_cons).mp (ih acc) with h1 | h1
          · rw [h1]
            exact List.mem_cons_self _ _
          · exact List.mem_cons_of_mem _ (List.mem_cons_of_mem _ h1)
        · rw [if_neg hle]
          rcases (List.mem_cons).mp (ih z) with h1 | h1
          · rw [h1]
            exact List.mem_cons_of_mem _ (List.mem_cons_self _ _)
          · exact List.mem_cons_of_mem _ (List.mem_cons_of_mem _ h1)
    constructor
    · rw [← h.1]
      exact hmem x t
    · rw [← h.2, ← h.1]

/-- Path reconstruction never emits the start coordinate. -/
theorem reconstruct_not_start (fuel : Nat)
    (came : List (Coord × Option Coord)) (start cur : Coord)
    (acc : List Coord) (hacc : start ∉ acc) :
    start ∉ Pathfinding.reconstruct fuel came start cur acc := by
  induction fuel generalizing cur acc with
  | zero => exact hacc
  | succ n ih =>
    unfold Pathfinding.reconstruct
    by_cases hcur : cur = start
    · rw [if_pos hcur]
      exact hacc
    · rw [if_neg hcur]
      match hl : alist.lookup came cur with
      | some (some prev) =>
        exact ih prev (cur :: acc)
          (by
            intro hmem
            rcases List.mem_cons.mp hmem with h1 | h1
            · exact hcur h1.symm
            · exact hacc h1)
      | some none => exact hacc
      | none => exact hacc

/-- Keys of a dict after one insertion. -/
theorem hasKey_cons {β : Type} {l : List (Coord × β)} {k : Coord} {v : β}
    {c : Coord} (h : alist.hasKey ((k, v) :: l) c) :
    c = k ∨ alist.hasKey l c := by
  by_cases hck : c = k
  · exact Or.inl hck
  · right
    unfold alist.hasKey alist.lookup at h ⊢
    rw [List.find?_cons] at h
    rw [show (decide ((k, v).1 = c)) = false from
      decide_eq_false (fun hh => hck hh.symm)] at h
    exact h

/-- The empty dict has no keys. -/
theorem hasKey_nil {β : Type} (c : Coord) : ¬ alist.hasKey ([] : List (Coord × β)) c := by
  simp [alist.hasKey, alist.lookup]

/-- Expanding a reachable node preserves the A* reachability invariant:
every frontier entry and every `came_from` key is reachable from `start`
by walkable steps. -/
theorem astar_expand_reach (g : Grid) (start goal cur : Coord)
    (st : Pathfinding.AStarState) (hcur : ReachableW g start cur)
    (hf : ∀ e ∈ st.frontier, ReachableW g start e.2)
    (hk : ∀ c, alist.hasKey st.came_from c → ReachableW g start c) :
    (∀ e ∈ (Pathfinding.astar_expand g goal cur st).frontier,
      ReachableW g start e.2) ∧
    (∀ c, alist.hasKey (Pathfinding.astar_expand g goal cur st).came_from c →
      ReachableW g start c) := by
  unfold Pathfinding.astar_expand
  have hgen : ∀ (L : List Coord), (∀ n ∈ L, n ∈ neighbors4 cur) →
      ∀ (s : Pathfinding.AStarState),
      (∀ e ∈ s.frontier, ReachableW g start e.2) →
      (∀ c, alist.hasKey s.came_from c → ReachableW g start c) →
      (∀ e ∈ (L.foldl
        (fun (st : Pathfinding.AStarState) next_node =>
          if g.inBounds next_node then
            let tile := g.tiles next_node.1 next_node.2
            if tile.type = TileType.wall then st
            else
              let new_cost := (alist.lookup st.cost_so_far cur).getD 0 + tile.cost
              if ¬ alist.hasKey st.cost_so_far next_node ∨
                  new_cost < (alist.lookup st.cost_so_far next_node).getD 0 then
                { st with
                  cost_so_far := (next_node, new_cost) :: st.cost_so_far
                  frontier := st.frontier ++
                    [(new_cost + Pathfinding.heuristic next_node goal, next_node)]
                  came_from := (next_node, some cur) :: st.came_from }
              else st
          else st) s).frontier, ReachableW g start e.2) ∧
      (∀ c, alist.hasKey (L.foldl
        (fun (st : Pathfinding.AStarState) next_node =>
          if g.inBounds next_node then
            let tile := g.tiles next_node.1 next_node.2
            if tile.type = TileType.wall then st
            else
              let new_cost := (alist.lookup st.cost_so_far cur).getD 0 + tile.cost
              if ¬ alist.hasKey st.cost_so_far next_node ∨
                  new_cost < (alist.lookup st.cost_so_far next_node).getD 0 then
                { st with
                  cost_so_far := (next_node, new_cost) :: st.cost_so_far
                  frontier := st.frontier ++
                    [(new_cost + Pathfinding.heuristic next_node goal, next_node)]
                  came_from := (next_node, some cur) :: st.came_from }
              else st
          else st) s).came_from c → ReachableW g start c) := by
    intro L
    induction L with
    | nil =>
      intro _ s hsf hsk
      exact ⟨hsf, hsk⟩
    | cons n t ih =>
      intro hmem s hsf hsk
      simp only [List.foldl_cons]
      have hnn : n ∈ neighbors4 cur := hmem n (List.mem_cons_self n t)
      have hrest : ∀ m ∈ t, m ∈ neighbors4 cur :=
        fun m hm => hmem m (List.mem_cons_of_mem n hm)
      by_cases hb : g.inBounds n
      · rw [if_pos hb]
        by_cases hw : (g.tiles n.1 n.2).type = TileType.wall
        · rw [if_pos hw]
          exact ih hrest s hsf hsk
        · rw [if_neg hw]
          by_cases himp : ¬ alist.hasKey s.cost_so_far n ∨
              (alist.lookup s.cost_so_far cur).getD 0 + (g.tiles n.1 n.2).cost <
                (alist.lookup s.cost_so_far n).getD 0
          · rw [if_pos himp]
            have hreach : ReachableW g start n := by
              obtain ⟨p, hp⟩ := hcur
              exact ⟨p ++ [n], StepPath.append hp ⟨hnn, hb, hw⟩⟩
            refine ih hrest _ ?_ ?_
            · intro e he
              rcases List.mem_append.mp he with h1 | h1
              · exact hsf e h1
              · rcases List.mem_singleton.mp h1 with rfl
                exact hreach
            · intro c hc
              rcases hasKey_cons hc with rfl | h1
              · exact hreach
              · exact hsk c h1
          · rw [if_neg himp]
            exact ih hrest s hsf hsk
      · rw [if_neg hb]
        exact ih hrest s hsf hsk
  exact hgen (neighbors4 cur) (fun _ h => h) st hf hk

/-- Running the A* loop (any fuel) keeps every `came_from` key reachable
from `start`. -/
theorem astar_loop_reach (g : Grid) (start goal : Coord) (fuel : Nat)
    (st : Pathfinding.AStarState)
    (hf : ∀ e ∈ st.frontier, ReachableW g start e.2)
    (hk : ∀ c, alist.hasKey st.came_from c → ReachableW g start c) :
    ∀ c, alist.hasKey (Pathfinding.astar_loop g goal fuel st).came_from c →
      ReachableW g start c := by
  induction fuel generalizing st with
  | zero => exact hk
  | succ n ih =>
    unfold Pathfinding.astar_loop
    cases hp : Pathfinding.popMin st.frontier with
    | none =>
      exact hk
    | some pr =>
      obtain ⟨entry, rest⟩ := pr
      obtain ⟨hemem, hrest⟩ := popMin_mem hp
      have hfr : ∀ e ∈ rest, ReachableW g start e.2 := by
        intro e he
        exact hf e (List.mem_of_mem_erase (hrest ▸ he))
      dsimp only
      by_cases hg : entry.2 = goal
      · rw [if_pos hg]
        exact hk
      · rw [if_neg hg]
        have hexp := astar_expand_reach g start goal entry.2
          { st with frontier := rest } (hf entry hemem)
          hfr hk
        exact ih _ hexp.1 hexp.2

/-- C7: for every start, goal and grid, `a_star` returns a sequence that
never contains the start coordinate, and when the goal is unreachable by
walkable (in-bounds, non-wall) steps it returns the empty sequence rather
than raising an error. -/
theorem a_star_contract :
    (∀ (start goal : Coord) (g : Grid),
      start ∉ Pathfinding.a_star start goal g) ∧
    (∀ (start goal : Coord) (g : Grid), ¬ ReachableW g start goal →
      Pathfinding.a_star start goal g = []) := by
  constructor
  · intro start goal g
    unfold Pathfinding.a_star
    dsimp only
    split
    · exact reconstruct_not_start _ _ start goal [] (by simp)
    · simp
  · intro start goal g hreach
    unfold Pathfinding.a_star
    dsimp only
    rw [if_neg]
    intro hkey
    refine hreach (astar_loop_reach g start goal _ (Pathfinding.astar_init start)
      ?_ ?_ goal hkey)
    · intro e he
      rcases List.mem_singleton.mp he with rfl
      exact ⟨[], rfl⟩
    · intro c hc
      rcases hasKey_cons hc with rfl | h1
      · exact ⟨[], rfl⟩
      · exact absurd h1 (hasKey_nil c)

/-- Witness for C7's unreachable clause: on an all-wall 3 × 3 grid no goal
other than the start is reachable, and `a_star` returns `[]`. -/
theorem a_star_contract_witness :
    ¬ ReachableW ⟨3, 3, fun _ _ => ⟨TileType.wall, 1⟩⟩ (0, 0) (2, 2) ∧
    Pathfinding.a_star (0, 0) (2, 2) ⟨3, 3, fun _ _ => ⟨TileType.wall, 1⟩⟩ = [] := by
  have hnr : ¬ ReachableW ⟨3, 3, fun _ _ => ⟨TileType.wall, 1⟩⟩ (0, 0) (2, 2) := by
    rintro ⟨p, hp⟩
    cases p with
    | nil =>
      have heq : ((0, 0) : Coord) = ((2, 2) : Coord) := hp
      exact absurd heq (by decide)
    | cons c q => exact hp.1.2.2 rfl
  exact ⟨hnr, a_star_contract.2 (0, 0) (2, 2) _ hnr⟩

/-- Concatenation of paths. -/
theorem StepPath.trans {step : Coord → Coord → Prop} {a b c : Coord}
    {p q : List Coord} (hp : StepPath step a p b) (hq : StepPath step b q c) :
    StepPath step a (p ++ q) c := by
  induction p generalizing a with
  | nil =>
    cases hp
    exact hq
  | cons d r ih =>
    exact ⟨hp.1, ih hp.2⟩

/-- 4-adjacency is symmetric. -/
theorem neighbors4_symm {a b : Coord} (h : b ∈ neighbors4 a) :
    a ∈ neighbors4 b := by
  simp [neighbors4, Prod.ext_iff] at h ⊢
  omega

/-- Weakening the membership constraint along a path. -/
theorem StepPath.mono_mem {V W : List Coord} {a b : Coord} {p : List Coord}
    (h : StepPath (fun u v => v ∈ neighbors4 u ∧ v ∈ V) a p b)
    (hVW : ∀ x ∈ V, x ∈ W) :
    StepPath (fun u v => v ∈ neighbors4 u ∧ v ∈ W) a p b := by
  induction p generalizing a with
  | nil => exact h
  | cons c q ih => exact ⟨⟨h.1.1, hVW c h.1.2⟩, ih h.2⟩

/-- Reversal of a membership-constrained path, given that the start point
is itself a member. -/
theorem StepPath.reverse_mem {V : List Coord} {a b : Coord} {p : List Coord}
    (h : StepPath (fun u v => v ∈ neighbors4 u ∧ v ∈ V) a p b) (ha : a ∈ V) :
    ∃ q, StepPath (fun u v => v ∈ neighbors4 u ∧ v ∈ V) b q a := by
  induction p generalizing a with
  | nil =>
    cases h
    exact ⟨[], rfl⟩
  | cons c q ih =>
    obtain ⟨r, hr⟩ := ih h.2 h.1.2
    exact ⟨r ++ [a], StepPath.append hr ⟨neighbors4_symm h.1.1, ha⟩⟩

/-- A fold preserves a predicate that every step preserves. -/
theorem foldl_preserve {α β : Type} {P : β → Prop} {f : β → α → β}
    {l : List α} {b : β} (h : ∀ b a, a ∈ l → P b → P (f b a)) (hb : P b) :
    P (l.foldl f b) := by
  induction l generalizing b with
  | nil => exact hb
  | cons x t ih =>
    exact ih (fun b a ha hbb => h b a (List.mem_cons_of_mem x ha) hbb)
      (h b x (List.mem_cons_self x t) hb)

set_option maxRecDepth 40000 in
/-- C1 counterexample: a concrete `generate 9 9` run (explicit randomness
streams) produces a map with two in-bounds floor cells, `(3, 5)` and
`(5, 5)`, that are not connected by 4-directional floor movement — the
pillar pass after cave connection severed the corridor. -/
theorem generate_connectivity_counterexample :
    isFloorCell 9 9 (CellularAutomataGenerator.generate 9 9 pillarFloats pillarInts (mkRat 1 4)).1 (3, 5) ∧
    isFloorCell 9 9 (CellularAutomataGenerator.generate 9 9 pillarFloats pillarInts (mkRat 1 4)).1 (5, 5) ∧
    ¬ FloorConnected 9 9 (CellularAutomataGenerator.generate 9 9 pillarFloats pillarInts (mkRat 1 4)).1
        (3, 5) (5, 5) := by
  refine ⟨by decide, by decide, ?_⟩
  rintro ⟨p, hp⟩
  cases p with
  | nil =>
    have heq : ((3, 5) : Coord) = ((5, 5) : Coord) := hp
    exact absurd heq (by decide)
  | cons c q =>
    have hstep := hp.1
    have hmem := hstep.1
    have hfloor := hstep.2.2
    simp only [neighbors4, List.mem_cons, List.not_mem_nil, or_false] at hmem
    rcases hmem with rfl | rfl | rfl | rfl <;> exact absurd hfloor (by decide)

/-- Splitting `List.range` at an interior point. -/
theorem range_split {n k : Nat} (h : k < n) :
    List.range n = List.range k ++ k :: (List.range' (k + 1) (n - k - 1)) := by
  rw [List.range_eq_range', List.range_eq_range']
  rw [show n = (n - k) + k by omega]
  rw [← List.range'_append 0 k (n - k) 1]
  norm_num
  rw [show n - k = (n - k - 1) + 1 by omega, List.range'_succ]
  congr 1

/-- Membership in the in-bounds coordinate set. -/
theorem mem_boundsFinset {width height : Nat} {c : Coord} :
    c ∈ boundsFinset width height ↔ inBoundsWH width height c := by
  unfold boundsFinset inBoundsWH
  constructor
  · intro h
    obtain ⟨p, hp, hpc⟩ := Finset.mem_image.mp h
    obtain ⟨h1, h2⟩ := Finset.mem_product.mp hp
    rw [← hpc]
    have hw := Finset.mem_range.mp h1
    have hh := Finset.mem_range.mp h2
    refine ⟨by positivity, ?_, by positivity, ?_⟩
    · show ((p.1 : Int)) < (width : Int)
      exact_mod_cast hw
    · show ((p.2 : Int)) < (height : Int)
      exact_mod_cast hh
  · rintro ⟨h1, h2, h3, h4⟩
    refine Finset.mem_image.mpr ⟨(c.1.toNat, c.2.toNat), ?_, ?_⟩
    · refine Finset.mem_product.mpr ⟨Finset.mem_range.mpr ?_, Finset.mem_range.mpr ?_⟩
      · omega
      · omega
    · simp only [Prod.ext_iff]
      constructor
      · simp [Int.toNat_of_nonneg h1]
      · simp [Int.toNat_of_nonneg h3]

/-- The in-bounds coordinate set has at most `width * height` elements. -/
theorem boundsFinset_card (width height : Nat) :
    (boundsFinset width height).card ≤ width * height := by
  unfold boundsFinset
  calc (((Finset.range width) ×ˢ (Finset.range height)).image
          (fun p => ((p.1 : Int), (p.2 : Int)))).card
      ≤ ((Finset.range width) ×ˢ (Finset.range height)).card :=
        Finset.card_image_le
    _ = width * height := by simp [Finset.card_product]

/-- Marking a fresh cell visited removes exactly it from the unvisited
set. -/
theorem filter_not_mem_append {S : Finset Coord} {v : List Coord} {n : Coord} :
    S.filter (fun x => x ∉ v ++ [n]) = (S.filter (fun x => x ∉ v)).erase n := by
  ext x
  simp only [Finset.mem_filter, Finset.mem_erase, List.mem_append,
    List.mem_singleton]
  constructor
  · rintro ⟨hS, hx⟩
    push_neg at hx
    exact ⟨hx.2, hS, hx.1⟩
  · rintro ⟨hxn, hS, hxv⟩
    refine ⟨hS, ?_⟩
    push_neg
    exact ⟨hxv, hxn⟩

/-- Properties of the neighbor-processing fold inside one flood-fill step:
memberships evolve as expected, fresh visitees are adjacent in-bounds
cells of the right type, and the fold leaves the termination measure
`|queue| + |unvisited|` unchanged. -/
theorem region_fold_aux (width height : Nat) (tt : Bool)
    (m : List (List Bool)) (c : Coord) (L : List Coord)
    (hL : ∀ n ∈ L, n ∈ neighbors4 c) :
    ∀ (q v q' v' : List Coord),
    (L.foldl
      (fun (qv : List Coord × List Coord) n =>
        if inBoundsWH width height n ∧ n ∉ qv.2 ∧ cellAtI m n = tt then
          (qv.1 ++ [n], qv.2 ++ [n])
        else qv)
      (q, v)) = (q', v') →
    (∀ z ∈ v, z ∈ v') ∧
    (∀ z ∈ q, z ∈ q') ∧
    (∀ z ∈ q', z ∈ q ∨ z ∈ v') ∧
    (∀ z ∈ v', z ∈ v ∨ (z ∈ neighbors4 c ∧ inBoundsWH width height z ∧
      cellAtI m z = tt ∧ z ∈ q')) ∧
    (q'.length + ((boundsFinset width height).filter (fun x => x ∉ v')).card
      = q.length + ((boundsFinset width height).filter (fun x => x ∉ v)).card) := by
  induction L with
  | nil =>
    intro q v q' v' heq
    simp only [List.foldl_nil, Prod.mk.injEq] at heq
    obtain ⟨rfl, rfl⟩ := heq
    exact ⟨fun z hz => hz, fun z hz => hz, fun z hz => Or.inl hz,
      fun z hz => Or.inl hz, rfl⟩
  | cons n t ih =>
    intro q v q' v' heq
    simp only [List.foldl_cons] at heq
    have hLt : ∀ x ∈ t, x ∈ neighbors4 c :=
      fun x hx => hL x (List.mem_cons_of_mem n hx)
    by_cases hacc : inBoundsWH width height n ∧ n ∉ v ∧ cellAtI m n = tt
    · rw [if_pos hacc] at heq
      obtain ⟨h1, h2, h3, h4, h5⟩ := ih hLt (q ++ [n]) (v ++ [n]) q' v' heq
      refine ⟨?_, ?_, ?_, ?_, ?_⟩
      · intro z hz
        exact h1 z (List.mem_append_left _ hz)
      · intro z hz
        exact h2 z (List.mem_append_left _ hz)
      · intro z hz
        rcases h3 z hz with hq | hv
        · rcases List.mem_append.mp hq with hq1 | hq1
          · exact Or.inl hq1
          · rcases List.mem_singleton.mp hq1 with rfl
            exact Or.inr (h1 z (List.mem_append_right _ (List.mem_singleton.mpr rfl)))
        · exact Or.inr hv
      · intro z hz
        rcases h4 z hz with hv | hnew
        · rcases List.mem_append.mp hv with hv1 | hv1
          · exact Or.inl hv1
          · rcases List.mem_singleton.mp hv1 with rfl
            exact Or.inr ⟨hL z (List.mem_cons_self z t), hacc.1, hacc.2.2,
              h2 z (List.mem_append_right _ (List.mem_singleton.mpr rfl))⟩
        · exact Or.inr hnew
      · rw [h5]
        have hmem : n ∈ (boundsFinset width height).filter (fun x => x ∉ v) :=
          Finset.mem_filter.mpr ⟨mem_boundsFinset.mpr hacc.1, by simpa using hacc.2.1⟩
        have hpos : 1 ≤ ((boundsFinset width height).filter (fun x => x ∉ v)).card :=
          Finset.card_pos.mpr ⟨n, hmem⟩
        rw [filter_not_mem_append, Finset.card_erase_of_mem hmem]
        simp only [List.length_append, List.length_singleton]
        omega
    · rw [if_neg hacc] at heq
      exact ih hLt q v q' v' heq

/-- One flood-fill step preserves the invariant and decreases the
termination measure by exactly one. -/
theorem region_step_spec (width height : Nat) (tt : Bool)
    (m : List (List Bool)) (start c : Coord) (rest v t : List Coord)
    (hinv : RegionInv width height tt m start (c :: rest, v, t)) :
    RegionInv width height tt m start
      (CellularAutomataGenerator.region_step width height tt m (c :: rest) v t) ∧
    regionMeasure width height
        (CellularAutomataGenerator.region_step width height tt m (c :: rest) v t) + 1
      = regionMeasure width height (c :: rest, v, t) := by
  obtain ⟨hstart, hqv, htv, hvt, hwf, hpath⟩ := hinv
  have haux := region_fold_aux width height tt m c (neighbors4 c)
    (fun n hn => hn) rest v
    ((neighbors4 c).foldl
      (fun (qv : List Coord × List Coord) n =>
        if inBoundsWH width height n ∧ n ∉ qv.2 ∧ cellAtI m n = tt then
          (qv.1 ++ [n], qv.2 ++ [n])
        else qv)
      (rest, v)).1
    ((neighbors4 c).foldl
      (fun (qv : List Coord × List Coord) n =>
        if inBoundsWH width height n ∧ n ∉ qv.2 ∧ cellAtI m n = tt then
          (qv.1 ++ [n], qv.2 ++ [n])
        else qv)
      (rest, v)).2 rfl
  obtain ⟨h1, h2, h3, h4, h5⟩ := haux
  have hcv : c ∈ v := hqv c (List.mem_cons_self c rest)
  constructor
  · refine ⟨h1 start hstart, ?_, ?_, ?_, ?_, ?_⟩
    · intro z hz
      rcases h3 z hz with hr | hv'
      · exact h1 z (hqv z (List.mem_cons_of_mem c hr))
      · exact hv'
    · intro z hz
      rcases List.mem_append.mp hz with hz1 | hz1
      · exact h1 z (htv z hz1)
      · rcases List.mem_singleton.mp hz1 with rfl
        exact h1 z hcv
    · intro z hz
      rcases h4 z hz with hv1 | hnew
      · rcases hvt z hv1 with ht1 | hq1
        · exact Or.inl (List.mem_append_left _ ht1)
        · rcases List.mem_cons.mp hq1 with rfl | hr
          · exact Or.inl (List.mem_append_right _ (List.mem_singleton.mpr rfl))
          · exact Or.inr (h2 z hr)
      · exact Or.inr hnew.2.2.2
    · intro z hz
      rcases h4 z hz with hv1 | hnew
      · exact hwf z hv1
      · exact ⟨hnew.2.1, hnew.2.2.1⟩
    · intro z hz
      rcases h4 z hz with hv1 | hnew
      · obtain ⟨p, hp⟩ := hpath z hv1
        exact ⟨p, hp.mono_mem h1⟩
      · obtain ⟨p, hp⟩ := hpath c hcv
        exact ⟨p ++ [z], StepPath.append (hp.mono_mem h1) ⟨hnew.1, hz⟩⟩
  · unfold regionMeasure CellularAutomataGenerator.region_step
    simp only []
    rw [h5]
    simp [List.length_cons]
    omega

/-- The flood-fill loop preserves the invariant, and with fuel at least
the measure it drains the queue completely. -/
theorem region_loop_spec (width height : Nat) (tt : Bool)
    (m : List (List Bool)) (start : Coord) :
    ∀ (fuel : Nat) (q v t : List Coord),
    RegionInv width height tt m start (q, v, t) →
    RegionInv width height tt m start
      (CellularAutomataGenerator.region_loop width height tt m fuel q v t) ∧
    (regionMeasure width height (q, v, t) ≤ fuel →
      (CellularAutomataGenerator.region_loop width height tt m fuel q v t).1 = []) := by
  intro fuel
  induction fuel with
  | zero =>
    intro q v t hinv
    constructor
    · exact hinv
    · intro hm
      unfold regionMeasure at hm
      simp only [Nat.le_zero, Nat.add_eq_zero] at hm
      have : q = [] := List.length_eq_zero.mp hm.1
      rw [this]
      rfl
  | succ n ih =>
    intro q v t hinv
    cases q with
    | nil =>
      exact ⟨hinv, fun _ => rfl⟩
    | cons c rest =>
      have hstep := region_step_spec width height tt m start c rest v t hinv
      have hloop :
          CellularAutomataGenerator.region_loop width height tt m (n + 1) (c :: rest) v t =
          CellularAutomataGenerator.region_loop width height tt m n
            (CellularAutomataGenerator.region_step width height tt m (c :: rest) v t).1
            (CellularAutomataGenerator.region_step width height tt m (c :: rest) v t).2.1
            (CellularAutomataGenerator.region_step width height tt m (c :: rest) v t).2.2 := by
        rfl
      rw [hloop]
      have hres := ih
        (CellularAutomataGenerator.region_step width height tt m (c :: rest) v t).1
        (CellularAutomataGenerator.region_step width height tt m (c :: rest) v t).2.1
        (CellularAutomataGenerator.region_step width height tt m (c :: rest) v t).2.2
        (by
          have := hstep.1
          simpa using this)
      refine ⟨hres.1, fun hm => hres.2 ?_⟩
      have hmeq := hstep.2
      simp only [Prod.mk.eta] at hmeq ⊢
      omega

/-- Pointwise strengthening of the step relation along a path. -/
theorem StepPath.imp {step1 step2 : Coord → Coord → Prop} {a b : Coord}
    {p : List Coord} (himp : ∀ u v, step1 u v → step2 u v)
    (h : StepPath step1 a p b) : StepPath step2 a p b := by
  induction p generalizing a with
  | nil => exact h
  | cons c q ih => exact ⟨himp a c h.1, ih h.2⟩

/-- `_get_region_tiles` on an in-bounds cell of the right type returns a
region containing its start, made of in-bounds cells of the right type,
each reachable from the start through region members. -/
theorem get_region_tiles_spec (width height : Nat) (tt : Bool)
    (m : List (List Bool)) (sx sy : Int)
    (hb : inBoundsWH width height (sx, sy)) (hc : cellAtI m (sx, sy) = tt) :
    (sx, sy) ∈ CellularAutomataGenerator.get_region_tiles width height sx sy tt m ∧
    (∀ c ∈ CellularAutomataGenerator.get_region_tiles width height sx sy tt m,
      inBoundsWH width height c ∧ cellAtI m c = tt) ∧
    (∀ c ∈ CellularAutomataGenerator.get_region_tiles width height sx sy tt m,
      ∃ p, StepPath (fun u v => v ∈ neighbors4 u ∧
        v ∈ CellularAutomataGenerator.get_region_tiles width height sx sy tt m)
        (sx, sy) p c) := by
  have hinv0 : RegionInv width height tt m (sx, sy)
      ([(sx, sy)], [(sx, sy)], []) := by
    refine ⟨List.mem_singleton.mpr rfl, fun c hc' => hc', fun c hc' => absurd hc' (List.not_mem_nil c), ?_, ?_, ?_⟩
    · intro c hc'
      exact Or.inr hc'
    · intro c hc'
      rcases List.mem_singleton.mp hc' with rfl
      exact ⟨hb, hc⟩
    · intro c hc'
      rcases List.mem_singleton.mp hc' with rfl
      exact ⟨[], rfl⟩
  have hm0 : regionMeasure width height ([(sx, sy)], [(sx, sy)], []) ≤
      width * height + 1 := by
    unfold regionMeasure
    simp only [List.length_singleton]
    calc 1 + ((boundsFinset width height).filter
          (fun c => c ∉ (([(sx, sy)], [(sx, sy)], []) :
            List Coord × List Coord × List Coord).2.1)).card
        ≤ 1 + width * height :=
          Nat.add_le_add_left
            (le_trans (Finset.card_filter_le _ _) (boundsFinset_card width height)) 1
      _ = width * height + 1 := Nat.add_comm _ _
  have hloop := region_loop_spec width height tt m (sx, sy)
    (width * height + 1) [(sx, sy)] [(sx, sy)] [] hinv0
  obtain ⟨⟨hstart, hqv, htv, hvt, hwf, hpath⟩, hempty⟩ := hloop
  have hq : (CellularAutomataGenerator.region_loop width height tt m
      (width * height + 1) [(sx, sy)] [(sx, sy)] []).1 = [] := hempty hm0
  have hset : ∀ z ∈ (CellularAutomataGenerator.region_loop width height tt m
      (width * height + 1) [(sx, sy)] [(sx, sy)] []).2.1,
      z ∈ (CellularAutomataGenerator.region_loop width height tt m
      (width * height + 1) [(sx, sy)] [(sx, sy)] []).2.2 := by
    intro z hz
    rcases hvt z hz with h1 | h1
    · exact h1
    · rw [hq] at h1
      exact absurd h1 (List.not_mem_nil z)
  refine ⟨hset _ hstart, ?_, ?_⟩
  · intro c hcm
    exact hwf c (htv c hcm)
  · intro c hcm
    obtain ⟨p, hp⟩ := hpath c (htv c hcm)
    exact ⟨p, hp.mono_mem hset⟩

/-- Every region produced by `_get_regions` is a flood fill from some
in-bounds cell of the requested type. -/
theorem get_regions_mem (width height : Nat) (tt : Bool)
    (m : List (List Bool)) :
    ∀ r ∈ CellularAutomataGenerator.get_regions width height tt m,
    ∃ x y : Nat, x < width ∧ y < height ∧ cellAt m x y = tt ∧
      r = CellularAutomataGenerator.get_region_tiles width height x y tt m := by
  unfold CellularAutomataGenerator.get_regions
  apply foldl_preserve
    (P := fun (acc : List (List Coord) × List Coord) =>
      ∀ r ∈ acc.1, ∃ x y : Nat, x < width ∧ y < height ∧ cellAt m x y = tt ∧
        r = CellularAutomataGenerator.get_region_tiles width height x y tt m)
  · intro b x hx hb
    apply foldl_preserve
      (P := fun (acc : List (List Coord) × List Coord) =>
        ∀ r ∈ acc.1, ∃ x y : Nat, x < width ∧ y < height ∧ cellAt m x y = tt ∧
          r = CellularAutomataGenerator.get_region_tiles width height x y tt m)
    · intro b' y hy hb'
      by_cases hcond : ((x : Int), (y : Int)) ∉ b'.2 ∧ cellAt m x y = tt
      · rw [if_pos hcond]
        intro r hr
        rcases List.mem_append.mp hr with h1 | h1
        · exact hb' r h1
        · rcases List.mem_singleton.mp h1 with rfl
          exact ⟨x, y, List.mem_range.mp hx, List.mem_range.mp hy, hcond.2, rfl⟩
      · rw [if_neg hcond]
        exact hb'
    · exact hb
  · intro r hr
    exact absurd hr (List.not_mem_nil r)

/-- Elements of a stable descending insertion come from the inserted
element or the base list. -/
theorem mem_insertByLenDesc {e z : List Coord} {l : List (List Coord)}
    (h : z ∈ CellularAutomataGenerator.insertByLenDesc e l) : z = e ∨ z ∈ l := by
  induction l with
  | nil =>
    simp [CellularAutomataGenerator.insertByLenDesc] at h
    exact Or.inl h
  | cons x t ih =>
    unfold CellularAutomataGenerator.insertByLenDesc at h
    split at h
    · rcases List.mem_cons.mp h with rfl | h1
      · exact Or.inl rfl
      · exact Or.inr h1
    · rcases List.mem_cons.mp h with rfl | h1
      · exact Or.inr (List.mem_cons_self _ _)
      · rcases ih h1 with h2 | h2
        · exact Or.inl h2
        · exact Or.inr (List.mem_cons_of_mem _ h2)

/-- The sorted region list contains only input regions. -/
theorem mem_sortRegions {z : List Coord} {l : List (List Coord)}
    (h : z ∈ CellularAutomataGenerator.sortRegions l) : z ∈ l := by
  unfold CellularAutomataGenerator.sortRegions at h
  have hgen : ∀ (l' : List (List Coord)) (acc : List (List Coord)),
      z ∈ l'.foldl (fun acc e => CellularAutomataGenerator.insertByLenDesc e acc) acc →
      z ∈ acc ∨ z ∈ l' := by
    intro l'
    induction l' with
    | nil =>
      intro acc h1
      exact Or.inl h1
    | cons e t ih =>
      intro acc h1
      simp only [List.foldl_cons] at h1
      rcases ih _ h1 with h2 | h2
      · rcases mem_insertByLenDesc h2 with rfl | h3
        · exact Or.inr (List.mem_cons_self _ _)
        · exact Or.inl h3
      · exact Or.inr (List.mem_cons_of_mem _ h2)
  rcases hgen l [] h with h1 | h1
  · exact absurd h1 (List.not_mem_nil z)
  · exact h1

/-- A fold whose steps never shrink the region list to empty: if the fold
result has no regions, neither had the accumulator. -/
theorem foldl_nil_mono {α : Type}
    {f : List (List Coord) × List Coord → α → List (List Coord) × List Coord}
    (hstep : ∀ acc a, (f acc a).1 = [] → acc.1 = []) :
    ∀ (l : List α) (acc : List (List Coord) × List Coord),
    (l.foldl f acc).1 = [] → acc.1 = [] := by
  intro l
  induction l with
  | nil =>
    intro acc h
    exact h
  | cons a t ih =>
    intro acc h
    exact hstep acc a (ih (f acc a) h)

/-- The row-major double fold of `_get_regions` produces at least one
region as soon as one cell fires its step (given that steps never shrink
the region list and keep it in sync with the visited list). -/
theorem double_fold_nonempty (width height : Nat)
    (inner : List (List Coord) × List Coord → Nat → Nat →
      List (List Coord) × List Coord)
    (hnilstep : ∀ acc x' y', (inner acc x' y').1 = [] → acc.1 = [])
    (hSstep : ∀ acc x' y', (acc.1 = [] → acc.2 = []) →
      ((inner acc x' y').1 = [] → (inner acc x' y').2 = []))
    (x y : Nat) (hx : x < width) (hy : y < height)
    (hfire : ∀ acc, acc.2 = [] → (inner acc x y).1 ≠ []) :
    ((List.range width).foldl
      (fun a x' => (List.range height).foldl (fun a y' => inner a x' y') a)
      ([], [])).1 ≠ [] := by
  intro hnil
  have houter_nil : ∀ (acc : List (List Coord) × List Coord) (x' : Nat),
      ((List.range height).foldl (fun a y' => inner a x' y') acc).1 = [] →
      acc.1 = [] :=
    fun acc x' h =>
      foldl_nil_mono (fun a y' => hnilstep a x' y') (List.range height) acc h
  rw [range_split hx, List.foldl_append] at hnil
  simp only [List.foldl_cons] at hnil
  set A : List (List Coord) × List Coord :=
    (List.range x).foldl
      (fun a x' => (List.range height).foldl (fun a y' => inner a x' y') a)
      ([], []) with hA
  have hBx : ((List.range height).foldl (fun a y' => inner a x y') A).1 = [] :=
    foldl_nil_mono houter_nil _ _ hnil
  rw [range_split hy, List.foldl_append] at hBx
  simp only [List.foldl_cons] at hBx
  set B : List (List Coord) × List Coord :=
    (List.range y).foldl (fun a y' => inner a x y') A with hB
  have hCy : (inner B x y).1 = [] :=
    foldl_nil_mono (fun a y' => hnilstep a x y') _ _ hBx
  have hSA : (A.1 = [] → A.2 = []) := by
    rw [hA]
    apply foldl_preserve
      (P := fun (a : List (List Coord) × List Coord) => a.1 = [] → a.2 = [])
    · intro b a _ hb
      apply foldl_preserve
        (P := fun (a : List (List Coord) × List Coord) => a.1 = [] → a.2 = [])
      · intro b' a' _ hb'
        exact hSstep b' a a' hb'
      · exact hb
    · intro _
      rfl
  have hSB : (B.1 = [] → B.2 = []) := by
    rw [hB]
    apply foldl_preserve
      (P := fun (a : List (List Coord) × List Coord) => a.1 = [] → a.2 = [])
    · intro b a _ hb
      exact hSstep b x a hb
    · exact hSA
  have hB1 : B.1 = [] := hnilstep _ x y hCy
  exact hfire _ (hSB hB1) hCy

/-- If some in-bounds cell has the requested type, `_get_regions` finds at
least one region. -/
theorem get_regions_nonempty (width height : Nat) (tt : Bool)
    (m : List (List Bool)) (x y : Nat) (hx : x < width) (hy : y < height)
    (hc : cellAt m x y = tt) :
    CellularAutomataGenerator.get_regions width height tt m ≠ [] := by
  unfold CellularAutomataGenerator.get_regions
  apply double_fold_nonempty width height
    (fun acc x' y' =>
      if ((x' : Int), (y' : Int)) ∉ acc.2 ∧ cellAt m x' y' = tt then
        (acc.1 ++ [CellularAutomataGenerator.get_region_tiles width height x' y' tt m],
         acc.2 ++ CellularAutomataGenerator.get_region_tiles width height x' y' tt m)
      else acc)
    ?_ ?_ x y hx hy ?_
  · intro acc x' y' h
    by_cases hcond : ((x' : Int), (y' : Int)) ∉ acc.2 ∧ cellAt m x' y' = tt
    · simp only [if_pos hcond] at h
      exact absurd h (by simp)
    · simpa only [if_neg hcond] using h
  · intro acc x' y' hS h
    by_cases hcond : ((x' : Int), (y' : Int)) ∉ acc.2 ∧ cellAt m x' y' = tt
    · simp only [if_pos hcond] at h
      exact absurd h (by simp)
    · simp only [if_neg hcond] at h ⊢
      exact hS h
  · intro acc hacc
    dsimp only
    rw [if_pos ⟨by rw [hacc]; exact List.not_mem_nil _, hc⟩]
    simp

/-- Stable descending insertion never returns the empty list. -/
theorem insertByLenDesc_ne_nil (e : List Coord) (l : List (List Coord)) :
    CellularAutomataGenerator.insertByLenDesc e l ≠ [] := by
  cases l with
  | nil => simp [CellularAutomataGenerator.insertByLenDesc]
  | cons x t =>
    unfold CellularAutomataGenerator.insertByLenDesc
    split <;> simp

/-- Sorting a nonempty region list yields a nonempty list. -/
theorem sortRegions_ne_nil {l : List (List Coord)} (h : l ≠ []) :
    CellularAutomataGenerator.sortRegions l ≠ [] := by
  cases l with
  | nil => exact absurd rfl h
  | cons e t =>
    unfold CellularAutomataGenerator.sortRegions
    simp only [List.foldl_cons]
    have haux : ∀ (t' : List (List Coord)) (acc : List (List Coord)),
        acc ≠ [] →
        t'.foldl (fun acc e => CellularAutomataGenerator.insertByLenDesc e acc) acc ≠ [] := by
      intro t'
      induction t' with
      | nil => exact fun acc hacc => hacc
      | cons e' t'' ih =>
        intro acc _
        simp only [List.foldl_cons]
        exact ih _ (insertByLenDesc_ne_nil e' acc)
    exact haux t _ (insertByLenDesc_ne_nil e [])

/-- Cell values of the final map built by `_connect_caves`: an in-bounds
cell is floor exactly when it belongs to the kept region. -/
theorem connect_caves_floor_iff (width height : Nat) (largest : List Coord)
    (c : Coord) (hb : inBoundsWH width height c) :
    cellAtI ((List.range width).map (fun (x : Nat) =>
      (List.range height).map (fun (y : Nat) =>
        if ((x : Int), (y : Int)) ∈ largest then false else true))) c = false ↔
    c ∈ largest := by
  obtain ⟨h1, h2, h3, h4⟩ := hb
  unfold cellAtI
  rw [cellAt_build width height _ c.1.toNat c.2.toNat (by omega) (by omega)]
  have hc : ((c.1.toNat : Int), (c.2.toNat : Int)) = c := by
    simp only [Prod.ext_iff]
    exact ⟨Int.toNat_of_nonneg h1, Int.toNat_of_nonneg h3⟩
  rw [hc]
  by_cases hmem : c ∈ largest
  · simp [hmem]
  · simp [hmem]

/-- C1 (amended): after the cave-connection stage (`_connect_caves`) the
floor cells form a single 4-connected component: any two in-bounds floor
cells of its output map are connected by floor-only movement.  (The
subsequent `_add_pillars` stage can break this, as the counterexample
shows, so the property holds of the connectivity stage, not of the final
`generate` output.) -/
theorem connect_caves_single_component (width height : Nat)
    (m : List (List Bool)) :
    FloorConnectedMap width height
      (CellularAutomataGenerator.connect_caves width height m).1 := by
  unfold CellularAutomataGenerator.connect_caves
  dsimp only
  by_cases hreg : CellularAutomataGenerator.get_regions width height false m = []
  · rw [if_pos hreg]
    intro a b ha hb
    exfalso
    obtain ⟨⟨ha1, ha2, ha3, ha4⟩, hafloor⟩ := ha
    exact get_regions_nonempty width height false m a.1.toNat a.2.toNat
      (by omega) (by omega) hafloor hreg
  · rw [if_neg hreg]
    cases hsort : CellularAutomataGenerator.sortRegions
        (CellularAutomataGenerator.get_regions width height false m) with
    | nil => exact absurd hsort (sortRegions_ne_nil hreg)
    | cons largest rest =>
      intro a b ha hb
      have hmem : largest ∈ CellularAutomataGenerator.get_regions width height false m :=
        mem_sortRegions (hsort ▸ List.mem_cons_self largest rest)
      obtain ⟨sx, sy, hsx, hsy, hcell, hEq⟩ :=
        get_regions_mem width height false m largest hmem
      have hsb : inBoundsWH width height ((sx : Int), (sy : Int)) := by
        unfold inBoundsWH
        refine ⟨?_, ?_, ?_, ?_⟩ <;> omega
      have hscell : cellAtI m ((sx : Int), (sy : Int)) = false := by
        unfold cellAtI
        simpa using hcell
      obtain ⟨hstart, hwf, hpaths⟩ :=
        get_region_tiles_spec width height false m sx sy hsb hscell
      rw [← hEq] at hstart hwf hpaths
      have hamem : a ∈ largest := (connect_caves_floor_iff width height largest a ha.1).mp ha.2
      have hbmem : b ∈ largest := (connect_caves_floor_iff width height largest b hb.1).mp hb.2
      obtain ⟨p1, hp1⟩ := hpaths a hamem
      obtain ⟨p2, hp2⟩ := hpaths b hbmem
      obtain ⟨q, hq⟩ := hp1.reverse_mem hstart
      refine ⟨q ++ p2, (StepPath.trans hq hp2).imp ?_⟩
      intro u v hv
      exact ⟨hv.1, (hwf v hv.2).1,
        (connect_caves_floor_iff width height largest v (hwf v hv.2).1).mpr hv.2⟩

/-- `getD` after a `set` at a valid index. -/
theorem getD_set_layers (l : List (List Coord)) (i j : Nat) (a : List Coord)
    (hi : i < l.length) :
    (l.set i a).getD j [] = if i = j then a else l.getD j [] := by
  rw [List.getD_eq_getElem?_getD, List.getElem?_set]
  by_cases hij : i = j
  · rw [if_pos hij, if_pos hij, if_pos hi]
    rfl
  · rw [if_neg hij, if_neg hij, List.getD_eq_getElem?_getD]

/-- Lookup in a dict after inserting a fresh binding. -/
theorem lookup_cons_self {β : Type} (l : List (Coord × β)) (k : Coord) (v : β) :
    alist.lookup ((k, v) :: l) k = some v := by
  unfold alist.lookup
  rw [List.find?_cons, decide_eq_true (by rfl : (k, v).1 = k)]
  rfl

/-- Lookup in a dict after inserting a different key. -/
theorem lookup_cons_ne {β : Type} (l : List (Coord × β)) (k c : Coord) (v : β)
    (h : c ≠ k) :
    alist.lookup ((k, v) :: l) c = alist.lookup l c := by
  unfold alist.lookup
  rw [List.find?_cons, decide_eq_false (fun hh : (k, v).1 = c => h hh.symm)]

/-- Any path leaving a set of nodes crosses its boundary: there are an
inside node and an outside neighbor joined by one step, with the inside
node reached by a strictly shorter path. -/
theorem path_exit {g : Grid} {o c : Coord} {p : List Coord}
    {V : List Coord} (ho : o ∈ V) (hp : StepPath (scanStep g) o p c)
    (hc : c ∉ V) :
    ∃ a b q, a ∈ V ∧ b ∉ V ∧ scanStep g a b ∧
      StepPath (scanStep g) o q a ∧ q.length < p.length := by
  induction p generalizing o with
  | nil =>
    cases hp
    exact absurd ho hc
  | cons x t ih =>
    by_cases hx : x ∈ V
    · obtain ⟨a, b, q, h1, h2, h3, h4, h5⟩ := ih hx hp.2
      exact ⟨a, b, x :: q, h1, h2, h3, ⟨hp.1, h4⟩, by simpa using Nat.succ_lt_succ h5⟩
    · exact ⟨o, x, [], ho, hx, hp.1, rfl, by simp⟩

/-- A nonempty path decomposes into its prefix and final step. -/
theorem path_last_step {step : Coord → Coord → Prop} {a b : Coord}
    {p : List Coord} (hp : StepPath step a p b) (hne : p ≠ []) :
    ∃ w q, StepPath step a q w ∧ step w b ∧ p = q ++ [b] := by
  induction p generalizing a with
  | nil => exact absurd rfl hne
  | cons x t ih =>
    cases t with
    | nil =>
      obtain ⟨h1, h2⟩ := hp
      cases h2
      exact ⟨a, [], rfl, h1, rfl⟩
    | cons y t' =>
      obtain ⟨w, q, hq, hs, heq⟩ := ih hp.2 (by simp)
      exact ⟨w, x :: q, ⟨hp.1, hq⟩, hs, by rw [heq]; rfl⟩

/-- Properties of the neighbor-processing fold inside one BFS expansion
at captured distance `du < R`: the fold appends a list of fresh in-bounds
neighbors to both queue and visited, records their distance `du + 1` in
the dict and in layer `du + 1`, leaves every older binding and layer
entry in place, keeps layers duplicate-free, visits every in-bounds
element of the processed list, and leaves `|queue| + |unvisited|`
unchanged. -/
theorem bfs_fold_aux (g : Grid) (R : Nat) (du : Nat) (hdu : du + 1 ≤ R)
    (L : List Coord) :
    ∀ (s : Pathfinding.BfsState),
    (∀ c, (alist.lookup s.dists c).isSome ↔ c ∈ s.visited) →
    s.layers.length = R + 1 →
    (∀ d, ∀ c ∈ s.layers.getD d [], c ∈ s.visited) →
    (∀ d, (s.layers.getD d []).Nodup) →
    ∃ new : List Coord,
      (L.foldl
        (fun (st : Pathfinding.BfsState) n =>
          if g.inBounds n ∧ n ∉ st.visited then
            { queue := st.queue ++ [n]
              visited := st.visited ++ [n]
              dists := (n, du + 1) :: st.dists
              layers :=
                if du + 1 ≤ R then
                  st.layers.set (du + 1) ((st.layers.getD (du + 1) []) ++ [n])
                else st.layers }
          else st) s) =
        { queue := s.queue ++ new
          visited := s.visited ++ new
          dists := (L.foldl
            (fun (st : Pathfinding.BfsState) n =>
              if g.inBounds n ∧ n ∉ st.visited then
                { queue := st.queue ++ [n]
                  visited := st.visited ++ [n]
                  dists := (n, du + 1) :: st.dists
                  layers :=
                    if du + 1 ≤ R then
                      st.layers.set (du + 1) ((st.layers.getD (du + 1) []) ++ [n])
                    else st.layers }
              else st) s).dists
          layers := (L.foldl
            (fun (st : Pathfinding.BfsState) n =>
              if g.inBounds n ∧ n ∉ st.visited then
                { queue := st.queue ++ [n]
                  visited := st.visited ++ [n]
                  dists := (n, du + 1) :: st.dists
                  layers :=
                    if du + 1 ≤ R then
                      st.layers.set (du + 1) ((st.layers.getD (du + 1) []) ++ [n])
                    else st.layers }
              else st) s).layers } ∧
      (∀ z ∈ new, z ∈ L ∧ g.inBounds z ∧ z ∉ s.visited) ∧
      (∀ c ∈ s.visited, alist.lookup
        (L.foldl
          (fun (st : Pathfinding.BfsState) n =>
            if g.inBounds n ∧ n ∉ st.visited then
              { queue := st.queue ++ [n]
                visited := st.visited ++ [n]
                dists := (n, du + 1) :: st.dists
                layers :=
                  if du + 1 ≤ R then
                    st.layers.set (du + 1) ((st.layers.getD (du + 1) []) ++ [n])
                  else st.layers }
            else st) s).dists c = alist.lookup s.dists c) ∧
      (∀ z ∈ new, alist.lookup
        (L.foldl
          (fun (st : Pathfinding.BfsState) n =>
            if g.inBounds n ∧ n ∉ st.visited then
              { queue := st.queue ++ [n]
                visited := st.visited ++ [n]
                dists := (n, du + 1) :: st.dists
                layers :=
                  if du + 1 ≤ R then
                    st.layers.set (du + 1) ((st.layers.getD (du + 1) []) ++ [n])
                  else st.layers }
            else st) s).dists z = some (du + 1)) ∧
      (∀ c, (alist.lookup
        (L.foldl
          (fun (st : Pathfinding.BfsState) n =>
            if g.inBounds n ∧ n ∉ st.visited then
              { queue := st.queue ++ [n]
                visited := st.visited ++ [n]
                dists := (n, du + 1) :: st.dists
                layers :=
                  if du + 1 ≤ R then
                    st.layers.set (du + 1) ((st.layers.getD (du + 1) []) ++ [n])
                  else st.layers }
            else st) s).dists c).isSome ↔ c ∈ s.visited ++ new) ∧
      ((L.foldl
        (fun (st : Pathfinding.BfsState) n =>
          if g.inBounds n ∧ n ∉ st.visited then
            { queue := st.queue ++ [n]
              visited := st.visited ++ [n]
              dists := (n, du + 1) :: st.dists
              layers :=
                if du + 1 ≤ R then
                  st.layers.set (du + 1) ((st.layers.getD (du + 1) []) ++ [n])
                else st.layers }
          else st) s).layers.length = R + 1) ∧
      (∀ d, ∀ c ∈ (L.foldl
        (fun (st : Pathfinding.BfsState) n =>
          if g.inBounds n ∧ n ∉ st.visited then
            { queue := st.queue ++ [n]
              visited := st.visited ++ [n]
              dists := (n, du + 1) :: st.dists
              layers :=
                if du + 1 ≤ R then
                  st.layers.set (du + 1) ((st.layers.getD (du + 1) []) ++ [n])
                else st.layers }
          else st) s).layers.getD d [],
        c ∈ s.layers.getD d [] ∨ (c ∈ new ∧ d = du + 1)) ∧
      (∀ d, ∀ c ∈ s.layers.getD d [], c ∈ (L.foldl
        (fun (st : Pathfinding.BfsState) n =>
          if g.inBounds n ∧ n ∉ st.visited then
            { queue := st.queue ++ [n]
              visited := st.visited ++ [n]
              dists := (n, du + 1) :: st.dists
              layers :=
                if du + 1 ≤ R then
                  st.layers.set (du + 1) ((st.layers.getD (du + 1) []) ++ [n])
                else st.layers }
          else st) s).layers.getD d []) ∧
      (∀ z ∈ new, z ∈ (L.foldl
        (fun (st : Pathfinding.BfsState) n =>
          if g.inBounds n ∧ n ∉ st.visited then
            { queue := st.queue ++ [n]
              visited := st.visited ++ [n]
              dists := (n, du + 1) :: st.dists
              layers :=
                if du + 1 ≤ R then
                  st.layers.set (du + 1) ((st.layers.getD (du + 1) []) ++ [n])
                else st.layers }
          else st) s).layers.getD (du + 1) []) ∧
      (∀ d, ((L.foldl
        (fun (st : Pathfinding.BfsState) n =>
          if g.inBounds n ∧ n ∉ st.visited then
            { queue := st.queue ++ [n]
              visited := st.visited ++ [n]
              dists := (n, du + 1) :: st.dists
              layers :=
                if du + 1 ≤ R then
                  st.layers.set (du + 1) ((st.layers.getD (du + 1) []) ++ [n])
                else st.layers }
          else st) s).layers.getD d []).Nodup) ∧
      (∀ d, ∀ c ∈ (L.foldl
        (fun (st : Pathfinding.BfsState) n =>
          if g.inBounds n ∧ n ∉ st.visited then
            { queue := st.queue ++ [n]
              visited := st.visited ++ [n]
              dists := (n, du + 1) :: st.dists
              layers :=
                if du + 1 ≤ R then
                  st.layers.set (du + 1) ((st.layers.getD (du + 1) []) ++ [n])
                else st.layers }
          else st) s).layers.getD d [], c ∈ s.visited ++ new) ∧
      (∀ x ∈ L, g.inBounds x → x ∈ s.visited ++ new) ∧
      ((s.queue ++ new).length +
          ((boundsFinset g.width g.height).filter
            (fun c => c ∉ s.visited ++ new)).card
        = s.queue.length +
          ((boundsFinset g.width g.height).filter
            (fun c => c ∉ s.visited)).card) := by
  induction L with
  | nil =>
    intro s hdom hlen hlayvis hnodup
    refine ⟨[], ?_, ?_, ?_, ?_, ?_, ?_, ?_, ?_, ?_, ?_, ?_, ?_, ?_⟩
    · simp only [List.foldl_nil, List.append_nil]
    · intro z hz
      exact absurd hz (List.not_mem_nil z)
    · intro c _
      rfl
    · intro z hz
      exact absurd hz (List.not_mem_nil z)
    · intro c
      simp only [List.foldl_nil, List.append_nil]
      exact hdom c
    · exact hlen
    · intro d c hc
      exact Or.inl hc
    · intro d c hc
      exact hc
    · intro z hz
      exact absurd hz (List.not_mem_nil z)
    · exact hnodup
    · intro d c hc
      exact List.mem_append_left _ (hlayvis d c hc)
    · intro x hx
      exact absurd hx (List.not_mem_nil x)
    · simp
  | cons n t ih =>
    intro s hdom hlen hlayvis hnodup
    by_cases hacc : g.inBounds n ∧ n ∉ s.visited
    · have hstep : (if g.inBounds n ∧ n ∉ s.visited then
          ({ queue := s.queue ++ [n]
             visited := s.visited ++ [n]
             dists := (n, du + 1) :: s.dists
             layers :=
               if du + 1 ≤ R then
                 s.layers.set (du + 1) ((s.layers.getD (du + 1) []) ++ [n])
               else s.layers } : Pathfinding.BfsState)
          else s) =
          { queue := s.queue ++ [n]
            visited := s.visited ++ [n]
            dists := (n, du + 1) :: s.dists
            layers := s.layers.set (du + 1) ((s.layers.getD (du + 1) []) ++ [n]) } := by
        rw [if_pos hacc, if_pos hdu]
      set s' : Pathfinding.BfsState :=
        { queue := s.queue ++ [n]
          visited := s.visited ++ [n]
          dists := (n, du + 1) :: s.dists
          layers := s.layers.set (du + 1) ((s.layers.getD (du + 1) []) ++ [n]) } with hs'
      have hlen' : s'.layers.length = R + 1 := by
        rw [hs']
        simpa using hlen
      have hdu_lt : du + 1 < s.layers.length := by omega
      have hgetD' : ∀ d, s'.layers.getD d [] =
          if du + 1 = d then (s.layers.getD (du + 1) []) ++ [n]
          else s.layers.getD d [] := by
        intro d
        rw [hs']
        exact getD_set_layers _ _ _ _ hdu_lt
      have hdom' : ∀ c, (alist.lookup s'.dists c).isSome ↔ c ∈ s'.visited := by
        intro c
        rw [hs']
        by_cases hcn : c = n
        · subst hcn
          rw [lookup_cons_self]
          simp
        · rw [lookup_cons_ne _ _ _ _ hcn, hdom c]
          show c ∈ s.visited ↔ c ∈ s.visited ++ [n]
          constructor
          · exact fun h => List.mem_append_left _ h
          · intro h
            rcases List.mem_append.mp h with h1 | h1
            · exact h1
            · exact absurd (List.mem_singleton.mp h1) hcn
      have hlayvis' : ∀ d, ∀ c ∈ s'.layers.getD d [], c ∈ s'.visited := by
        intro d c hc
        rw [hgetD' d] at hc
        rw [hs']
        by_cases hd : du + 1 = d
        · rw [if_pos hd] at hc
          rcases List.mem_append.mp hc with h1 | h1
          · exact List.mem_append_left _ (hlayvis d c (hd ▸ h1))
          · exact List.mem_append_right _ h1
        · rw [if_neg hd] at hc
          exact List.mem_append_left _ (hlayvis d c hc)
      have hnodup' : ∀ d, (s'.layers.getD d []).Nodup := by
        intro d
        rw [hgetD' d]
        by_cases hd : du + 1 = d
        · rw [if_pos hd]
          rw [List.nodup_append]
          refine ⟨hd ▸ hnodup (du + 1), List.nodup_singleton n, ?_⟩
          intro a ha hb
          rcases List.mem_singleton.mp hb with rfl
          exact hacc.2 (hlayvis (du + 1) a ha)
        · rw [if_neg hd]
          exact hnodup d
      obtain ⟨new', heq, hfresh, hold, hnew, hdomr, hlenr, hlayr1, hlayr2,
        hlayr3, hnodupr, hlayvisr, hLvis, hmeas⟩ := ih s' hdom' hlen' hlayvis' hnodup'
      refine ⟨n :: new', ?_, ?_, ?_, ?_, ?_, ?_, ?_, ?_, ?_, ?_, ?_, ?_, ?_⟩
      · rw [List.foldl_cons, hstep, heq, hs']
        simp
      · intro z hz
        rcases List.mem_cons.mp hz with rfl | hz'
        · exact ⟨List.mem_cons_self _ _, hacc.1, hacc.2⟩
        · obtain ⟨hzL, hzb, hzv⟩ := hfresh z hz'
          refine ⟨List.mem_cons_of_mem _ hzL, hzb, ?_⟩
          intro hmem
          exact hzv (by rw [hs']; exact List.mem_append_left _ hmem)
      · intro c hc
        rw [List.foldl_cons, hstep]
        have hcn : c ≠ n := fun h => hacc.2 (h ▸ hc)
        rw [hold c (by rw [hs']; exact List.mem_append_left _ hc), hs']
        exact lookup_cons_ne _ _ _ _ hcn
      · intro z hz
        rw [List.foldl_cons, hstep]
        rcases List.mem_cons.mp hz with rfl | hz'
        · rw [hold z (by rw [hs']; exact List.mem_append_right _ (List.mem_singleton.mpr rfl)), hs']
          exact lookup_cons_self _ _ _
        · exact hnew z hz'
      · intro c
        rw [List.foldl_cons, hstep]
        rw [hdomr c, hs']
        simp [List.mem_append, List.mem_cons, or_assoc]
      · rw [List.foldl_cons, hstep]
        exact hlenr
      · intro d c hc
        rw [List.foldl_cons, hstep] at hc
        rcases hlayr1 d c hc with h1 | h1
        · rw [hgetD' d] at h1
          by_cases hd : du + 1 = d
          · rw [if_pos hd] at h1
            rcases List.mem_append.mp h1 with h2 | h2
            · exact Or.inl (hd ▸ h2)
            · rcases List.mem_singleton.mp h2 with rfl
              exact Or.inr ⟨List.mem_cons_self _ _, hd.symm⟩
          · rw [if_neg hd] at h1
            exact Or.inl h1
        · exact Or.inr ⟨List.mem_cons_of_mem _ h1.1, h1.2⟩
      · intro d c hc
        rw [List.foldl_cons, hstep]
        apply hlayr2
        rw [hgetD' d]
        by_cases hd : du + 1 = d
        · rw [if_pos hd]
          exact List.mem_append_left _ (hd ▸ hc)
        · rw [if_neg hd]
          exact hc
      · intro z hz
        rw [List.foldl_cons, hstep]
        rcases List.mem_cons.mp hz with rfl | hz'
        · apply hlayr2
          rw [hgetD' (du + 1), if_pos rfl]
          exact List.mem_append_right _ (List.mem_singleton.mpr rfl)
        · exact hlayr3 z hz'
      · intro d
        rw [List.foldl_cons, hstep]
        exact hnodupr d
      · intro d c hc
        rw [List.foldl_cons, hstep] at hc
        have := hlayvisr d c hc
        rcases List.mem_append.mp this with h1 | h1
        · rw [hs'] at h1
          rcases List.mem_append.mp h1 with h2 | h2
          · exact List.mem_append_left _ h2
          · rcases List.mem_singleton.mp h2 with rfl
            exact List.mem_append_right _ (List.mem_cons_self _ _)
        · exact List.mem_append_right _ (List.mem_cons_of_mem _ h1)
      · intro x hx hxb
        rcases List.mem_cons.mp hx with rfl | hx'
        · exact List.mem_append_right _ (List.mem_cons_self _ _)
        · have := hLvis x hx' hxb
          rcases List.mem_append.mp this with h1 | h1
          · rw [hs'] at h1
            rcases List.mem_append.mp h1 with h2 | h2
            · exact List.mem_append_left _ h2
            · rcases List.mem_singleton.mp h2 with rfl
              exact List.mem_append_right _ (List.mem_cons_self _ _)
          · exact List.mem_append_right _ (List.mem_cons_of_mem _ h1)
      · have hmem : n ∈ (boundsFinset g.width g.height).filter
            (fun c => c ∉ s.visited) :=
          Finset.mem_filter.mpr ⟨mem_boundsFinset.mpr hacc.1, by simpa using hacc.2⟩
        have hpos : 1 ≤ ((boundsFinset g.width g.height).filter
            (fun c => c ∉ s.visited)).card :=
          Finset.card_pos.mpr ⟨n, hmem⟩
        have hfil : (boundsFinset g.width g.height).filter
            (fun c => c ∉ s.visited ++ [n]) =
            ((boundsFinset g.width g.height).filter (fun c => c ∉ s.visited)).erase n :=
          filter_not_mem_append
        have hstep2 : (s.queue ++ [n]).length +
            ((boundsFinset g.width g.height).filter
              (fun c => c ∉ s.visited ++ [n])).card
            = s.queue.length +
            ((boundsFinset g.width g.height).filter
              (fun c => c ∉ s.visited)).card := by
          rw [hfil, Finset.card_erase_of_mem hmem]
          simp only [List.length_append, List.length_singleton]
          omega
        have hcomb := hmeas
        rw [hs'] at hcomb
        calc (s.queue ++ n :: new').length +
              ((boundsFinset g.width g.height).filter
                (fun c => c ∉ s.visited ++ n :: new')).card
            = ((s.queue ++ [n]) ++ new').length +
              ((boundsFinset g.width g.height).filter
                (fun c => c ∉ (s.visited ++ [n]) ++ new')).card := by
              simp only [List.append_assoc, List.singleton_append]
          _ = (s.queue ++ [n]).length +
              ((boundsFinset g.width g.height).filter
                (fun c => c ∉ s.visited ++ [n])).card := hcomb
          _ = s.queue.length +
              ((boundsFinset g.width g.height).filter
                (fun c => c ∉ s.visited)).card := hstep2
    · have hstep : (if g.inBounds n ∧ n ∉ s.visited then
          ({ queue := s.queue ++ [n]
             visited := s.visited ++ [n]
             dists := (n, du + 1) :: s.dists
             layers :=
               if du + 1 ≤ R then
                 s.layers.set (du + 1) ((s.layers.getD (du + 1) []) ++ [n])
               else s.layers } : Pathfinding.BfsState)
          else s) = s := by
        rw [if_neg hacc]
      obtain ⟨new', heq, hfresh, hold, hnew, hdomr, hlenr, hlayr1, hlayr2,
        hlayr3, hnodupr, hlayvisr, hLvis, hmeas⟩ := ih s hdom hlen hlayvis hnodup
      refine ⟨new', ?_, ?_, ?_, ?_, ?_, ?_, ?_, ?_, ?_, ?_, ?_, ?_, ?_⟩
      · rw [List.foldl_cons, hstep]
        exact heq
      · intro z hz
        obtain ⟨h1, h2, h3⟩ := hfresh z hz
        exact ⟨List.mem_cons_of_mem _ h1, h2, h3⟩
      · intro c hc
        rw [List.foldl_cons, hstep]
        exact hold c hc
      · intro z hz
        rw [List.foldl_cons, hstep]
        exact hnew z hz
      · intro c
        rw [List.foldl_cons, hstep]
        exact hdomr c
      · rw [List.foldl_cons, hstep]
        exact hlenr
      · intro d c hc
        rw [List.foldl_cons, hstep] at hc
        exact hlayr1 d c hc
      · intro d c hc
        rw [List.foldl_cons, hstep]
        exact hlayr2 d c hc
      · intro z hz
        rw [List.foldl_cons, hstep]
        exact hlayr3 z hz
      · intro d
        rw [List.foldl_cons, hstep]
        exact hnodupr d
      · intro d c hc
        rw [List.foldl_cons, hstep] at hc
        exact hlayvisr d c hc
      · intro x hx hxb
        rcases List.mem_cons.mp hx with rfl | hx'
        · push_neg at hacc
          exact List.mem_append_left _ (hacc hxb)
        · exact hLvis x hx' hxb
      · exact hmeas

/-- A constant-valued map is sorted. -/
theorem sorted_map_const (l : List Coord) (k : Nat) :
    List.Sorted (· ≤ ·) (l.map (fun _ => k)) := by
  induction l with
  | nil => exact List.sorted_nil
  | cons x t ih =>
    rw [List.map_cons, List.sorted_cons]
    refine ⟨?_, ih⟩
    intro b hb
    rcases List.mem_map.mp hb with ⟨a, _, rfl⟩
    exact le_rfl

/-- One BFS step preserves the invariant and decreases the termination
measure by exactly one. -/
theorem bfs_step_inv (g : Grid) (R : Nat) (o : Coord)
    (u : Coord) (rest v : List Coord) (dd : List (Coord × Nat))
    (ll : List (List Coord))
    (hinv : BfsInv g R o ⟨u :: rest, v, dd, ll⟩) :
    BfsInv g R o (Pathfinding.bfs_step g R ⟨u :: rest, v, dd, ll⟩) ∧
    bfsMeasure g (Pathfinding.bfs_step g R ⟨u :: rest, v, dd, ll⟩) + 1 =
      bfsMeasure g ⟨u :: rest, v, dd, ll⟩ := by
  obtain ⟨horig, hqsub, hdom, hexact, hsort, hspread, hclosed, hlen,
    hlayd, hlayc, hlayn, hlayv⟩ := hinv
  have huv : u ∈ v := hqsub u (List.mem_cons_self u rest)
  obtain ⟨du, hdu⟩ := Option.isSome_iff_exists.mp ((hdom u).mpr huv)
  have hduD : (alist.lookup dd u).getD 0 = du := by rw [hdu]; rfl
  by_cases hcut : R ≤ (alist.lookup dd u).getD 0
  · have hbs : Pathfinding.bfs_step g R ⟨u :: rest, v, dd, ll⟩ =
        ⟨rest, v, dd, ll⟩ := by
      show (if R ≤ (alist.lookup dd u).getD 0 then
          (⟨rest, v, dd, ll⟩ : Pathfinding.BfsState)
        else (neighbors4 u).foldl
          (fun (st : Pathfinding.BfsState) n =>
            if g.inBounds n ∧ n ∉ st.visited then
              { queue := st.queue ++ [n]
                visited := st.visited ++ [n]
                dists := (n, (alist.lookup dd u).getD 0 + 1) :: st.dists
                layers :=
                  if (alist.lookup dd u).getD 0 + 1 ≤ R then
                    st.layers.set ((alist.lookup dd u).getD 0 + 1)
                      ((st.layers.getD ((alist.lookup dd u).getD 0 + 1) []) ++ [n])
                  else st.layers }
            else st)
          ⟨rest, v, dd, ll⟩) = ⟨rest, v, dd, ll⟩
      rw [if_pos hcut]
    rw [hbs]
    constructor
    · refine ⟨horig, ?_, hdom, hexact, ?_, ?_, ?_, hlen, hlayd, hlayc, hlayn, hlayv⟩
      · intro c hc
        exact hqsub c (List.mem_cons_of_mem u hc)
      · have := hsort
        rw [List.map_cons, List.sorted_cons] at this
        exact this.2
      · intro a ha b hb
        exact hspread a (List.mem_cons_of_mem u ha) b (List.mem_cons_of_mem u hb)
      · intro w hw hwq hwd
        by_cases hwu : w = u
        · subst hwu
          simp only [bfsDistOf] at hwd
          rw [hduD] at hwd
          rw [hduD] at hcut
          omega
        · refine hclosed w hw ?_ hwd
          intro hmem
          rcases List.mem_cons.mp hmem with h1 | h1
          · exact hwu h1
          · exact hwq h1
    · unfold bfsMeasure
      simp only [List.length_cons]
      omega
  · push_neg at hcut
    rw [hduD] at hcut
    have hduR : du + 1 ≤ R := hcut
    have hbs : Pathfinding.bfs_step g R ⟨u :: rest, v, dd, ll⟩ =
        (neighbors4 u).foldl
          (fun (st : Pathfinding.BfsState) n =>
            if g.inBounds n ∧ n ∉ st.visited then
              { queue := st.queue ++ [n]
                visited := st.visited ++ [n]
                dists := (n, du + 1) :: st.dists
                layers :=
                  if du + 1 ≤ R then
                    st.layers.set (du + 1) ((st.layers.getD (du + 1) []) ++ [n])
                  else st.layers }
            else st)
          ⟨rest, v, dd, ll⟩ := by
      show (if R ≤ (alist.lookup dd u).getD 0 then
          (⟨rest, v, dd, ll⟩ : Pathfinding.BfsState)
        else (neighbors4 u).foldl
          (fun (st : Pathfinding.BfsState) n =>
            if g.inBounds n ∧ n ∉ st.visited then
              { queue := st.queue ++ [n]
                visited := st.visited ++ [n]
                dists := (n, (alist.lookup dd u).getD 0 + 1) :: st.dists
                layers :=
                  if (alist.lookup dd u).getD 0 + 1 ≤ R then
                    st.layers.set ((alist.lookup dd u).getD 0 + 1)
                      ((st.layers.getD ((alist.lookup dd u).getD 0 + 1) []) ++ [n])
                  else st.layers }
            else st)
          ⟨rest, v, dd, ll⟩) = _
      rw [if_neg (by rw [hduD]; omega), hduD]
    obtain ⟨new, heq, hfresh, hold, hnew, hdomr, hlenr, hlayr1, hlayr2,
      hlayr3, hnodupr, hlayvisr, hLvis, hmeas⟩ :=
      bfs_fold_aux g R du hduR (neighbors4 u) ⟨rest, v, dd, ll⟩
        hdom hlen hlayv hlayn
    rw [hbs, heq]
    have hDv_old : ∀ c ∈ v, bfsDistOf (((neighbors4 u).foldl
        (fun (st : Pathfinding.BfsState) n =>
          if g.inBounds n ∧ n ∉ st.visited then
            { queue := st.queue ++ [n]
              visited := st.visited ++ [n]
              dists := (n, du + 1) :: st.dists
              layers :=
                if du + 1 ≤ R then
                  st.layers.set (du + 1) ((st.layers.getD (du + 1) []) ++ [n])
                else st.layers }
          else st)
        ⟨rest, v, dd, ll⟩).dists) c = bfsDistOf dd c := by
      intro c hc
      unfold bfsDistOf
      rw [hold c hc]
    have hDv_new : ∀ z ∈ new, bfsDistOf (((neighbors4 u).foldl
        (fun (st : Pathfinding.BfsState) n =>
          if g.inBounds n ∧ n ∉ st.visited then
            { queue := st.queue ++ [n]
              visited := st.visited ++ [n]
              dists := (n, du + 1) :: st.dists
              layers :=
                if du + 1 ≤ R then
                  st.layers.set (du + 1) ((st.layers.getD (du + 1) []) ++ [n])
                else st.layers }
          else st)
        ⟨rest, v, dd, ll⟩).dists) z = du + 1 := by
      intro z hz
      unfold bfsDistOf
      rw [hnew z hz]
      rfl
    have hheadmin : ∀ a ∈ u :: rest, du ≤ bfsDistOf dd a := by
      intro a ha
      rcases List.mem_cons.mp ha with rfl | ha'
      · rw [bfsDistOf, hduD]
      · have := List.rel_of_sorted_cons (by
          rw [← List.map_cons]
          exact (show List.Sorted (· ≤ ·) ((u :: rest).map (bfsDistOf dd)) from hsort))
        have h2 := this (bfsDistOf dd a) (List.mem_map.mpr ⟨a, ha', rfl⟩)
        rwa [bfsDistOf, hduD] at h2
    have hrest_le : ∀ a ∈ rest, bfsDistOf dd a ≤ du + 1 := by
      intro a ha
      have := hspread a (List.mem_cons_of_mem u ha) u (List.mem_cons_self u rest)
      rwa [show bfsDistOf dd u = du from by rw [bfsDistOf, hduD]] at this
    have hexact_new : ∀ z ∈ new, IsLeast (scanDistSet g o z) (du + 1) := by
      intro z hz
      obtain ⟨hzn, hzb, hzv⟩ := hfresh z hz
      obtain ⟨hu_le, hu_lb⟩ := hexact u du hdu
      obtain ⟨p, hp, hplen⟩ := hu_le
      constructor
      · exact ⟨p ++ [z], StepPath.append hp ⟨hzn, hzb⟩, by
          rw [List.length_append, hplen]; rfl⟩
      · intro k hk
        by_contra hlt
        push_neg at hlt
        have hkdu : k ≤ du := by omega
        obtain ⟨p', hp', hp'len⟩ := hk
        obtain ⟨a, b, q, ha_in, hb_out, hab, hq, hqlen⟩ :=
          path_exit horig hp' hzv
        obtain ⟨da, hda⟩ := Option.isSome_iff_exists.mp ((hdom a).mpr ha_in)
        have hda_least := hexact a da hda
        have hda_le : da ≤ q.length := hda_least.2 ⟨q, hq, rfl⟩
        have hda_lt : da < du := by
          have : q.length < k := hp'len ▸ hqlen
          omega
        by_cases haq : a ∈ u :: rest
        · have := hheadmin a haq
          rw [bfsDistOf, hda] at this
          simp at this
          omega
        · have := hclosed a ha_in haq (by rw [bfsDistOf, hda]; simpa using by omega)
          exact hb_out (this b hab.1 hab.2)
    constructor
    · refine ⟨?_, ?_, ?_, ?_, ?_, ?_, ?_, hlenr, ?_, ?_, hnodupr, ?_⟩
      · exact List.mem_append_left _ horig
      · intro c hc
        rcases List.mem_append.mp hc with h1 | h1
        · exact List.mem_append_left _ (hqsub c (List.mem_cons_of_mem u h1))
        · exact List.mem_append_right _ h1
      · exact hdomr
      · intro c n hc
        by_cases hcv : c ∈ v
        · rw [hold c hcv] at hc
          exact hexact c n hc
        · have hcvn : c ∈ v ++ new := (hdomr c).mp (by rw [hc]; rfl)
          have hcnew : c ∈ new := by
            rcases List.mem_append.mp hcvn with h1 | h1
            · exact absurd h1 hcv
            · exact h1
          have := hnew c hcnew
          rw [this] at hc
          have hn : n = du + 1 := (Option.some.injEq _ _).mp hc.symm
          rw [hn]
          exact hexact_new c hcnew
      · show List.Sorted (· ≤ ·) ((rest ++ new).map _)
        rw [List.map_append]
        rw [List.Sorted, List.pairwise_append]
        refine ⟨?_, ?_, ?_⟩
        · rw [List.map_congr_left (fun a ha => hDv_old a
            (hqsub a (List.mem_cons_of_mem u ha)))]
          have := hsort
          rw [List.map_cons, List.sorted_cons] at this
          exact this.2
        · rw [List.map_congr_left hDv_new]
          exact sorted_map_const new (du + 1)
        · intro x hx y hy
          rw [List.map_congr_left (fun a ha => hDv_old a
            (hqsub a (List.mem_cons_of_mem u ha)))] at hx
          rw [List.map_congr_left hDv_new] at hy
          rcases List.mem_map.mp hx with ⟨a, ha, rfl⟩
          rcases List.mem_map.mp hy with ⟨z, hz, rfl⟩
          exact hrest_le a ha
      · intro a ha b hb
        rcases List.mem_append.mp ha with ha1 | ha1 <;>
          rcases List.mem_append.mp hb with hb1 | hb1
        · rw [hDv_old a (hqsub a (List.mem_cons_of_mem u ha1)),
            hDv_old b (hqsub b (List.mem_cons_of_mem u hb1))]
          exact hspread a (List.mem_cons_of_mem u ha1) b (List.mem_cons_of_mem u hb1)
        · rw [hDv_old a (hqsub a (List.mem_cons_of_mem u ha1)),
            hDv_new b hb1]
          have := hrest_le a ha1
          omega
        · rw [hDv_new a ha1,
            hDv_old b (hqsub b (List.mem_cons_of_mem u hb1))]
          have := hheadmin b (List.mem_cons_of_mem u hb1)
          omega
        · rw [hDv_new a ha1, hDv_new b hb1]
          omega
      · intro w hw hwq hwd
        rcases List.mem_append.mp hw with hw1 | hw1
        · by_cases hwu : w = u
          · subst hwu
            intro x hx hxb
            exact hLvis x hx hxb
          · have hwrest : w ∉ u :: rest := by
              intro hmem
              rcases List.mem_cons.mp hmem with h1 | h1
              · exact hwu h1
              · exact hwq (List.mem_append_left _ h1)
            have hwd' : bfsDistOf dd w < R := by
              rwa [hDv_old w hw1] at hwd
            intro x hx hxb
            exact List.mem_append_left _ (hclosed w hw1 hwrest hwd' x hx hxb)
        · exact absurd (List.mem_append_right rest hw1) hwq
      · intro d c hc
        rcases hlayr1 d c hc with h1 | h1
        · have hcv : c ∈ v := hlayv d c h1
          rw [hold c hcv]
          exact hlayd d c h1
        · rw [hnew c h1.1, h1.2]
      · intro c n hc hn
        have hcvn : c ∈ v ++ new := (hdomr c).mp (by rw [hc]; rfl)
        rcases List.mem_append.mp hcvn with h1 | h1
        · rw [hold c h1] at hc
          exact hlayr2 n c (hlayc c n hc hn)
        · have := hnew c h1
          rw [this] at hc
          have hn2 : n = du + 1 := (Option.some.injEq _ _).mp hc.symm
          rw [hn2]
          exact hlayr3 c h1
      · exact hlayvisr
    · unfold bfsMeasure
      show (rest ++ new).length + _ + 1 = _
      rw [hmeas]
      simp [List.length_cons]
      omega

/-- The BFS loop preserves the invariant, and with fuel at least the
measure it drains the queue completely. -/
theorem bfs_loop_spec (g : Grid) (R : Nat) (o : Coord) :
    ∀ (fuel : Nat) (s : Pathfinding.BfsState), BfsInv g R o s →
    BfsInv g R o (Pathfinding.bfs_loop g R fuel s) ∧
    (bfsMeasure g s ≤ fuel → (Pathfinding.bfs_loop g R fuel s).queue = []) := by
  intro fuel
  induction fuel with
  | zero =>
    intro s hinv
    refine ⟨hinv, ?_⟩
    intro hm
    unfold bfsMeasure at hm
    simp only [Nat.le_zero, Nat.add_eq_zero] at hm
    exact List.length_eq_zero.mp hm.1
  | succ n ih =>
    intro s hinv
    obtain ⟨q, v, dd, ll⟩ := s
    cases q with
    | nil => exact ⟨hinv, fun _ => rfl⟩
    | cons u rest =>
      have hstep := bfs_step_inv g R o u rest v dd ll hinv
      have hloop : Pathfinding.bfs_loop g R (n + 1) ⟨u :: rest, v, dd, ll⟩ =
          Pathfinding.bfs_loop g R n
            (Pathfinding.bfs_step g R ⟨u :: rest, v, dd, ll⟩) := rfl
      rw [hloop]
      have hres := ih (Pathfinding.bfs_step g R ⟨u :: rest, v, dd, ll⟩) hstep.1
      refine ⟨hres.1, ?_⟩
      intro hm
      refine hres.2 ?_
      have h2 := hstep.2
      have h3 : bfsMeasure g ⟨u :: rest, v, dd, ll⟩ ≤ n + 1 := hm
      omega

/-- `getD` of a replicated list of empty layers is empty. -/
theorem replicate_getD_nil (n d : Nat) :
    (List.replicate n ([] : List Coord)).getD d [] = [] := by
  rw [List.getD_eq_getElem?_getD, List.getElem?_replicate]
  by_cases h : d < n
  · rw [if_pos h]
    rfl
  · rw [if_neg h]
    rfl

/-- The initial BFS state satisfies the invariant. -/
theorem bfs_init_inv (g : Grid) (R : Nat) (o : Coord) :
    BfsInv g R o (Pathfinding.bfs_init o R) := by
  have hlen0 : (0 : Nat) < (List.replicate (R + 1) ([] : List Coord)).length := by
    simp
  have hgetD : ∀ d,
      ((List.replicate (R + 1) ([] : List Coord)).set 0 [o]).getD d [] =
      if 0 = d then [o] else [] := by
    intro d
    rw [getD_set_layers _ _ _ _ hlen0, replicate_getD_nil]
  have hlook : ∀ c n, alist.lookup [(o, 0)] c = some n → c = o ∧ n = 0 := by
    intro c n h
    by_cases hc : c = o
    · subst hc
      rw [lookup_cons_self] at h
      exact ⟨rfl, (Option.some.injEq _ _).mp h.symm⟩
    · rw [lookup_cons_ne _ _ _ _ hc] at h
      exact absurd h (by unfold alist.lookup; simp)
  have hleast : IsLeast (scanDistSet g o o) 0 :=
    ⟨⟨[], rfl, rfl⟩, fun k _ => Nat.zero_le k⟩
  show BfsInv g R o ⟨[o], [o], [(o, 0)],
    (List.replicate (R + 1) ([] : List Coord)).set 0 [o]⟩
  refine ⟨List.mem_singleton.mpr rfl, fun c hc => hc, ?_, ?_, ?_, ?_, ?_, ?_,
    ?_, ?_, ?_, ?_⟩
  · intro c
    constructor
    · intro h
      obtain ⟨n, hn⟩ := Option.isSome_iff_exists.mp h
      exact List.mem_singleton.mpr (hlook c n hn).1
    · intro h
      rcases List.mem_singleton.mp h with rfl
      rw [lookup_cons_self]
      rfl
  · intro c n h
    obtain ⟨hco, hn0⟩ := hlook c n h
    rw [hco, hn0]
    exact hleast
  · exact List.sorted_singleton _
  · intro a ha b hb
    rcases List.mem_singleton.mp ha with rfl
    rcases List.mem_singleton.mp hb with rfl
    exact Nat.le_succ _
  · intro w hw hwq
    exact absurd hw hwq
  · simp
  · intro d c hc
    rw [show (⟨[o], [o], [(o, 0)],
        (List.replicate (R + 1) ([] : List Coord)).set 0 [o]⟩ :
        Pathfinding.BfsState).layers =
        (List.replicate (R + 1) ([] : List Coord)).set 0 [o] from rfl,
      hgetD d] at hc
    by_cases hd : 0 = d
    · rw [if_pos hd] at hc
      rcases List.mem_singleton.mp hc with rfl
      rw [← hd]
      exact lookup_cons_self _ _ _
    · rw [if_neg hd] at hc
      exact absurd hc (List.not_mem_nil c)
  · intro c n h hn
    obtain ⟨hco, hn0⟩ := hlook c n h
    rw [hco, hn0, show (⟨[o], [o], [(o, 0)],
        (List.replicate (R + 1) ([] : List Coord)).set 0 [o]⟩ :
        Pathfinding.BfsState).layers =
        (List.replicate (R + 1) ([] : List Coord)).set 0 [o] from rfl,
      hgetD 0, if_pos rfl]
    exact List.mem_singleton.mpr rfl
  · intro d
    rw [show (⟨[o], [o], [(o, 0)],
        (List.replicate (R + 1) ([] : List Coord)).set 0 [o]⟩ :
        Pathfinding.BfsState).layers =
        (List.replicate (R + 1) ([] : List Coord)).set 0 [o] from rfl,
      hgetD d]
    by_cases hd : 0 = d
    · rw [if_pos hd]
      exact List.nodup_singleton o
    · rw [if_neg hd]
      exact List.nodup_nil
  · intro d c hc
    rw [show (⟨[o], [o], [(o, 0)],
        (List.replicate (R + 1) ([] : List Coord)).set 0 [o]⟩ :
        Pathfinding.BfsState).layers =
        (List.replicate (R + 1) ([] : List Coord)).set 0 [o] from rfl,
      hgetD d] at hc
    by_cases hd : 0 = d
    · rw [if_pos hd] at hc
      exact hc
    · rw [if_neg hd] at hc
      exact absurd hc (List.not_mem_nil c)

/-- C6: `bfs_scan_layered` returns `radius + 1` layers; every coordinate
in layer `d` is at graph distance exactly `d` from the origin (with
distance measured over 4-adjacent in-bounds steps, walls ignored, as the
code does), every coordinate whose graph distance `d` is at most `radius`
appears in layer `d`, each layer is duplicate-free, and no coordinate
appears in two distinct layers. -/
theorem bfs_scan_layered_exact (o : Coord) (g : Grid) (R : Nat) :
    (Pathfinding.bfs_scan_layered o g R).length = R + 1 ∧
    (∀ d, ∀ c ∈ (Pathfinding.bfs_scan_layered o g R).getD d [],
      IsLeast (scanDistSet g o c) d) ∧
    (∀ c d, IsLeast (scanDistSet g o c) d → d ≤ R →
      c ∈ (Pathfinding.bfs_scan_layered o g R).getD d []) ∧
    (∀ d, ((Pathfinding.bfs_scan_layered o g R).getD d []).Nodup) ∧
    (∀ d₁ d₂ c, c ∈ (Pathfinding.bfs_scan_layered o g R).getD d₁ [] →
      c ∈ (Pathfinding.bfs_scan_layered o g R).getD d₂ [] → d₁ = d₂) := by
  have hm0 : bfsMeasure g (Pathfinding.bfs_init o R) ≤
      g.width * g.height + 1 := by
    unfold bfsMeasure
    have h3 : (Pathfinding.bfs_init o R).queue.length = 1 := rfl
    rw [h3]
    calc 1 + ((boundsFinset g.width g.height).filter
          (fun c => c ∉ (Pathfinding.bfs_init o R).visited)).card
        ≤ 1 + g.width * g.height :=
          Nat.add_le_add_left
            (le_trans (Finset.card_filter_le _ _)
              (boundsFinset_card g.width g.height)) 1
      _ = g.width * g.height + 1 := Nat.add_comm _ _
  obtain ⟨hinvF, hqF⟩ := bfs_loop_spec g R o (g.width * g.height + 1)
    (Pathfinding.bfs_init o R) (bfs_init_inv g R o)
  have hqF' := hqF hm0
  obtain ⟨horig, hqsub, hdom, hexact, hsort, hspread, hclosed, hlen,
    hlayd, hlayc, hlayn, hlayv⟩ := hinvF
  have hvis : ∀ d, ∀ c, IsLeast (scanDistSet g o c) d → d ≤ R →
      c ∈ (Pathfinding.bfs_loop g R (g.width * g.height + 1)
        (Pathfinding.bfs_init o R)).visited := by
    intro d
    induction d using Nat.strong_induction_on with
    | _ d ih =>
      intro c hle hdR
      obtain ⟨⟨p, hp, hplen⟩, hlb⟩ := hle
      cases p with
      | nil =>
        rcases (show o = c from hp)
        exact horig
      | cons x t =>
        obtain ⟨w, qq, hq, hwc, hpe⟩ := path_last_step hp (by simp)
        have hqlen : qq.length + 1 = d := by
          rw [hpe] at hplen
          rw [List.length_append] at hplen
          simpa using hplen
        have hne : (scanDistSet g o w).Nonempty := ⟨qq.length, qq, hq, rfl⟩
        have hwleast : IsLeast (scanDistSet g o w)
            (sInf (scanDistSet g o w)) :=
          ⟨Nat.sInf_mem hne, fun k hk => Nat.sInf_le hk⟩
        have hwle : sInf (scanDistSet g o w) ≤ qq.length :=
          Nat.sInf_le ⟨qq, hq, rfl⟩
        have hwlt : sInf (scanDistSet g o w) < d := by omega
        have hwvis := ih _ hwlt w hwleast (by omega)
        obtain ⟨nw, hnw⟩ := Option.isSome_iff_exists.mp ((hdom w).mpr hwvis)
        have hnweq : nw = sInf (scanDistSet g o w) :=
          (hexact w nw hnw).unique hwleast
        have hwnotq : w ∉ (Pathfinding.bfs_loop g R (g.width * g.height + 1)
            (Pathfinding.bfs_init o R)).queue := by
          rw [hqF']
          exact List.not_mem_nil w
        have hwdist : bfsDistOf (Pathfinding.bfs_loop g R
            (g.width * g.height + 1) (Pathfinding.bfs_init o R)).dists w < R := by
          rw [bfsDistOf, hnw]
          show nw < R
          omega
        exact hclosed w hwvis hwnotq hwdist c hwc.1 hwc.2
  refine ⟨hlen, ?_, ?_, hlayn, ?_⟩
  · intro d c hc
    exact hexact c d (hlayd d c hc)
  · intro c d hle hdR
    have hcv := hvis d c hle hdR
    obtain ⟨n, hn⟩ := Option.isSome_iff_exists.mp ((hdom c).mpr hcv)
    have hneq : n = d := (hexact c n hn).unique hle
    rw [← hneq]
    exact hlayc c n hn (by omega)
  · intro d₁ d₂ c h1 h2
    have e1 := hlayd d₁ c h1
    have e2 := hlayd d₂ c h2
    rw [e1] at e2
    exact (Option.some.injEq _ _).mp e2

/-- The heap order is reflexive. -/
theorem tupLe_refl (a : Int × Coord) : Pathfinding.tupLe a a := by
  unfold Pathfinding.tupLe
  omega

/-- The heap order is total. -/
theorem tupLe_total (a b : Int × Coord) :
    Pathfinding.tupLe a b ∨ Pathfinding.tupLe b a := by
  unfold Pathfinding.tupLe
  omega

/-- The heap order is transitive. -/
theorem tupLe_trans {a b c : Int × Coord} (h1 : Pathfinding.tupLe a b)
    (h2 : Pathfinding.tupLe b c) : Pathfinding.tupLe a c := by
  unfold Pathfinding.tupLe at h1 h2 ⊢
  omega

/-- `heappop` returns a least entry of the heap. -/
theorem popMin_min {l : List (Int × Coord)} {e : Int × Coord}
    {rest : List (Int × Coord)}
    (h : Pathfinding.popMin l = some (e, rest)) :
    ∀ x ∈ l, Pathfinding.tupLe e x := by
  unfold Pathfinding.popMin at h
  cases l with
  | nil => simp at h
  | cons a t =>
    simp only [Option.some.injEq, Prod.mk.injEq] at h
    have hfold : ∀ (u : List (Int × Coord)) (acc : Int × Coord),
        Pathfinding.tupLe
          (u.foldl (fun x y => if Pathfinding.tupLe x y then x else y) acc) acc ∧
        ∀ z ∈ u, Pathfinding.tupLe
          (u.foldl (fun x y => if Pathfinding.tupLe x y then x else y) acc) z := by
      intro u
      induction u with
      | nil =>
        intro acc
        exact ⟨tupLe_refl acc, fun z hz => absurd hz (List.not_mem_nil z)⟩
      | cons z w ih =>
        intro acc
        rw [List.foldl_cons]
        by_cases hz : Pathfinding.tupLe acc z
        · rw [if_pos hz]
          obtain ⟨h1, h2⟩ := ih acc
          refine ⟨h1, fun y hy => ?_⟩
          rcases List.mem_cons.mp hy with rfl | hy'
          · exact tupLe_trans h1 hz
          · exact h2 y hy'
        · rw [if_neg hz]
          obtain ⟨h1, h2⟩ := ih z
          have hza : Pathfinding.tupLe z acc :=
            (tupLe_total acc z).resolve_left hz
          refine ⟨tupLe_trans h1 hza, fun y hy => ?_⟩
          rcases List.mem_cons.mp hy with rfl | hy'
          · exact h1
          · exact h2 y hy'
    intro x hx
    rcases List.mem_cons.mp hx with rfl | hx'
    · rw [← h.1]
      exact (hfold t x).1
    · rw [← h.1]
      exact (hfold t a).2 x hx'

/-- Manhattan distance is nonnegative. -/
theorem heuristic_nonneg (a b : Coord) : 0 ≤ Pathfinding.heuristic a b :=
  add_nonneg (abs_nonneg _) (abs_nonneg _)

/-- Manhattan distance from a point to itself is zero. -/
theorem heuristic_self (a : Coord) : Pathfinding.heuristic a a = 0 := by
  unfold Pathfinding.heuristic
  simp

/-- Shifting one endpoint by one changes an absolute difference by at
most one (increment case). -/
theorem abs_shift1 (x y : Int) : |x - y| ≤ |x + 1 - y| + 1 := by
  rcases abs_cases (x - y) with ⟨h1, h1'⟩ | ⟨h1, h1'⟩ <;>
    rcases abs_cases (x + 1 - y) with ⟨h2, h2'⟩ | ⟨h2, h2'⟩ <;> omega

/-- Shifting one endpoint by one changes an absolute difference by at
most one (decrement case). -/
theorem abs_shift2 (x y : Int) : |x - y| ≤ |x - 1 - y| + 1 := by
  rcases abs_cases (x - y) with ⟨h1, h1'⟩ | ⟨h1, h1'⟩ <;>
    rcases abs_cases (x - 1 - y) with ⟨h2, h2'⟩ | ⟨h2, h2'⟩ <;> omega

/-- One 4-adjacent step changes Manhattan distance to a fixed target by
at most one. -/
theorem heuristic_step {a c : Coord} (h : c ∈ neighbors4 a) (b : Coord) :
    Pathfinding.heuristic a b ≤ Pathfinding.heuristic c b + 1 := by
  unfold Pathfinding.heuristic
  simp only [neighbors4, List.mem_cons, List.not_mem_nil, or_false] at h
  rcases h with rfl | rfl | rfl | rfl
  · have := abs_shift1 a.1 b.1
    simp only []
    linarith
  · have := abs_shift2 a.1 b.1
    simp only []
    linarith
  · have := abs_shift1 a.2 b.2
    simp only []
    linarith
  · have := abs_shift2 a.2 b.2
    simp only []
    linarith

/-- Admissibility, step 1: the Manhattan heuristic is a lower bound on
walkable path length. -/
theorem heuristic_le_length {g : Grid} {a b : Coord} {p : List Coord}
    (hp : WalkPath g a p b) :
    Pathfinding.heuristic a b ≤ (p.length : Int) := by
  induction p generalizing a with
  | nil =>
    have hab : a = b := hp
    subst hab
    simp [heuristic_self]
  | cons c q ih =>
    have h1 := heuristic_step hp.1.1 b
    have h2 := ih hp.2
    simp only [List.length_cons]
    push_cast
    linarith

/-- Cost of the empty path. -/
theorem path_cost_nil (g : Grid) : path_cost g [] = 0 := rfl

/-- Cost of a path extended at the front. -/
theorem path_cost_cons (g : Grid) (c : Coord) (p : List Coord) :
    path_cost g (c :: p) = (g.tiles c.1 c.2).cost + path_cost g p := by
  simp [path_cost]

/-- Cost of a concatenation of paths. -/
theorem path_cost_append (g : Grid) (p q : List Coord) :
    path_cost g (p ++ q) = path_cost g p + path_cost g q := by
  simp [path_cost]

/-- Admissibility, step 2: when every walkable tile costs at least 1,
path length bounds accumulated cost. -/
theorem length_le_path_cost {g : Grid}
    (hc : ∀ c : Coord, g.inBounds c →
      (g.tiles c.1 c.2).type ≠ TileType.wall → 1 ≤ (g.tiles c.1 c.2).cost)
    {a b : Coord} {p : List Coord} (hp : WalkPath g a p b) :
    (p.length : Int) ≤ path_cost g p := by
  induction p generalizing a with
  | nil => simp [path_cost]
  | cons c q ih =>
    have hcost : 1 ≤ (g.tiles c.1 c.2).cost := hc c hp.1.2.1 hp.1.2.2
    have h2 := ih hp.2
    rw [path_cost_cons]
    simp only [List.length_cons]
    push_cast
    linarith

/-- Admissibility: the Manhattan heuristic lower-bounds the accumulated
cost of any walkable path when all walkable tiles cost at least 1. -/
theorem heuristic_le_path_cost {g : Grid}
    (hc : ∀ c : Coord, g.inBounds c →
      (g.tiles c.1 c.2).type ≠ TileType.wall → 1 ≤ (g.tiles c.1 c.2).cost)
    {a b : Coord} {p : List Coord} (hp : WalkPath g a p b) :
    Pathfinding.heuristic a b ≤ path_cost g p :=
  le_trans (heuristic_le_length hp) (length_le_path_cost hc hp)

/-- On a unit-cost grid the accumulated cost of a walkable path is its
length. -/
theorem path_cost_eq_length {g : Grid}
    (hc : ∀ c : Coord, g.inBounds c →
      (g.tiles c.1 c.2).type ≠ TileType.wall → (g.tiles c.1 c.2).cost = 1)
    {a b : Coord} {p : List Coord} (hp : WalkPath g a p b) :
    path_cost g p = (p.length : Int) := by
  induction p generalizing a with
  | nil => simp [path_cost]
  | cons c q ih =>
    have hcost : (g.tiles c.1 c.2).cost = 1 := hc c hp.1.2.1 hp.1.2.2
    have h2 := ih hp.2
    rw [path_cost_cons, hcost]
    simp only [List.length_cons]
    push_cast
    linarith

/-- A node is not among its own 4-neighbors. -/
theorem not_mem_neighbors4_self (c : Coord) : c ∉ neighbors4 c := by
  simp only [neighbors4, List.mem_cons, List.not_mem_nil, or_false]
  rintro (h | h | h | h)
  · have h1 : c.1 = c.1 + 1 := congrArg Prod.fst h
    omega
  · have h1 : c.1 = c.1 - 1 := congrArg Prod.fst h
    omega
  · have h1 : c.2 = c.2 + 1 := congrArg Prod.snd h
    omega
  · have h1 : c.2 = c.2 - 1 := congrArg Prod.snd h
    omega

/-- Recording an improved cost and parent for a neighbor `m` of the node
`u` being expanded, and pushing the corresponding frontier entry,
preserves the A* invariants; the costs of other nodes are untouched and
`m`'s new cost is exactly `cost[u] + tile.cost`. -/
theorem astar_write_inv (g : Grid) (start goal u m : Coord) (cu new : Int)
    (fr : List (Int × Coord)) (came : List (Coord × Option Coord))
    (cost : List (Coord × Int)) (fd : Bool)
    (hc1 : ∀ c : Coord, g.inBounds c →
      (g.tiles c.1 c.2).type ≠ TileType.wall → 1 ≤ (g.tiles c.1 c.2).cost)
    (hcore : AInvCore g start goal ⟨fr, came, cost, fd⟩)
    (hwk : AOpenRelExc g goal u ⟨fr, came, cost, fd⟩)
    (hcu : alist.lookup cost u = some cu)
    (hm : m ∈ neighbors4 u) (hb : g.inBounds m)
    (hw : (g.tiles m.1 m.2).type ≠ TileType.wall)
    (hnew : new = cu + (g.tiles m.1 m.2).cost)
    (himp : ¬ alist.hasKey cost m ∨ new < (alist.lookup cost m).getD 0) :
    AInvCore g start goal
      ⟨fr ++ [(new + Pathfinding.heuristic m goal, m)],
        (m, some u) :: came, (m, new) :: cost, fd⟩ ∧
    AOpenRelExc g goal u
      ⟨fr ++ [(new + Pathfinding.heuristic m goal, m)],
        (m, some u) :: came, (m, new) :: cost, fd⟩ ∧
    alist.lookup ((m, new) :: cost) u = some cu ∧
    (∀ n c, alist.lookup cost n = some c →
      ∃ c', alist.lookup ((m, new) :: cost) n = some c' ∧ c' ≤ c) ∧
    alist.lookup ((m, new) :: cost) m = some new := by
  obtain ⟨h1, h2, h3, h4, h5, h6, h7⟩ := hcore
  replace h1 : alist.lookup cost start = some 0 := h1
  replace h2 : ∀ n, (alist.lookup cost n).isSome ↔
      (alist.lookup came n).isSome := h2
  replace h3 : ∀ n c, alist.lookup cost n = some c → 0 ≤ c := h3
  replace h4 : alist.lookup came start = some none := h4
  replace h5 : ∀ n pp, alist.lookup came n = some pp → n = start ∨
      ∃ prev, pp = some prev ∧ walkStep g prev n ∧
        ∃ cn cp, alist.lookup cost n = some cn ∧
          alist.lookup cost prev = some cp ∧
          cp + (g.tiles n.1 n.2).cost ≤ cn := h5
  replace h6 : ∀ n c, alist.lookup cost n = some c →
      ∃ p, WalkPath g start p n ∧ path_cost g p = c := h6
  replace h7 : ∀ e ∈ fr, e = ((0 : Int), start) ∨
      ∃ cn, alist.lookup cost e.2 = some cn ∧
        cn + Pathfinding.heuristic e.2 goal ≤ e.1 := h7
  replace hwk : ∀ n c, alist.lookup cost n = some c →
      (∃ pr, (pr, n) ∈ fr ∧ pr ≤ c + Pathfinding.heuristic n goal) ∨
      (∀ m2, walkStep g n m2 → ∃ cm, alist.lookup cost m2 = some cm ∧
        cm ≤ c + (g.tiles m2.1 m2.2).cost) ∨
      n = u := hwk
  have hum : m ≠ u := fun h => not_mem_neighbors4_self u (h ▸ hm)
  have hcost1 : 1 ≤ (g.tiles m.1 m.2).cost := hc1 m hb hw
  have hcu0 : 0 ≤ cu := h3 u cu hcu
  have hnewpos : 0 < new := by omega
  have hmstart : m ≠ start := by
    intro he
    rcases himp with hfresh | hlt
    · refine hfresh ?_
      unfold alist.hasKey
      rw [he, h1]
      rfl
    · rw [he, h1] at hlt
      have hlt0 : new < 0 := hlt
      omega
  have hwalkum : walkStep g u m := ⟨hm, hb, hw⟩
  have hlkm : alist.lookup ((m, new) :: cost) m = some new :=
    lookup_cons_self cost m new
  have hlku : alist.lookup ((m, new) :: cost) u = some cu := by
    rw [lookup_cons_ne cost m u new (fun h => hum h.symm)]
    exact hcu
  have hmono : ∀ n c, alist.lookup cost n = some c →
      ∃ c', alist.lookup ((m, new) :: cost) n = some c' ∧ c' ≤ c := by
    intro n c hn
    by_cases hnm : n = m
    · rw [hnm] at hn
      refine ⟨new, by rw [hnm]; exact hlkm, ?_⟩
      rcases himp with hfresh | hlt
      · exact absurd (by unfold alist.hasKey; rw [hn]; rfl) hfresh
      · rw [hn] at hlt
        exact le_of_lt hlt
    · exact ⟨c, by rw [lookup_cons_ne cost m n new (fun h => hnm h)]; exact hn,
        le_refl c⟩
  refine ⟨⟨?_, ?_, ?_, ?_, ?_, ?_, ?_⟩, ?_, hlku, hmono, hlkm⟩
  · show alist.lookup ((m, new) :: cost) start = some 0
    rw [lookup_cons_ne cost m start new (fun h => hmstart h.symm)]
    exact h1
  · intro n
    show (alist.lookup ((m, new) :: cost) n).isSome ↔
      (alist.lookup ((m, some u) :: came) n).isSome
    by_cases hnm : n = m
    · rw [hnm, lookup_cons_self, lookup_cons_self]
      simp
    · rw [lookup_cons_ne cost m n new (fun h => hnm h),
        lookup_cons_ne came m n (some u) (fun h => hnm h)]
      exact h2 n
  · intro n c hn
    have hn' : alist.lookup ((m, new) :: cost) n = some c := hn
    by_cases hnm : n = m
    · rw [hnm, hlkm] at hn'
      have hcnew : c = new := (Option.some.injEq _ _).mp hn'.symm
      omega
    · rw [lookup_cons_ne cost m n new (fun h => hnm h)] at hn'
      exact h3 n c hn'
  · show alist.lookup ((m, some u) :: came) start = some none
    rw [lookup_cons_ne came m start (some u) (fun h => hmstart h.symm)]
    exact h4
  · intro n pp hpp
    have hpp' : alist.lookup ((m, some u) :: came) n = some pp := hpp
    by_cases hnm : n = m
    · rw [hnm, lookup_cons_self] at hpp'
      have hppu : pp = some u := (Option.some.injEq _ _).mp hpp'.symm
      right
      refine ⟨u, hppu, ?_, new, cu, ?_, ?_, ?_⟩
      · rw [hnm]
        exact hwalkum
      · show alist.lookup ((m, new) :: cost) n = some new
        rw [hnm]
        exact hlkm
      · exact hlku
      · rw [hnm, hnew]
    · rw [lookup_cons_ne came m n (some u) (fun h => hnm h)] at hpp'
      rcases h5 n pp hpp' with hstart | ⟨prev, hps, hstep, cn, cp, hcn, hcp, hle⟩
      · exact Or.inl hstart
      · right
        by_cases hpm : prev = m
        · refine ⟨prev, hps, hstep, cn, new, ?_, ?_, ?_⟩
          · show alist.lookup ((m, new) :: cost) n = some cn
            rw [lookup_cons_ne cost m n new (fun h => hnm h)]
            exact hcn
          · show alist.lookup ((m, new) :: cost) prev = some new
            rw [hpm]
            exact hlkm
          · rw [hpm] at hcp
            rcases himp with hfresh | hlt
            · exact absurd (by unfold alist.hasKey; rw [hcp]; rfl) hfresh
            · rw [hcp] at hlt
              have hltv : new < cp := hlt
              omega
        · refine ⟨prev, hps, hstep, cn, cp, ?_, ?_, hle⟩
          · show alist.lookup ((m, new) :: cost) n = some cn
            rw [lookup_cons_ne cost m n new (fun h => hnm h)]
            exact hcn
          · show alist.lookup ((m, new) :: cost) prev = some cp
            rw [lookup_cons_ne cost m prev new (fun h => hpm h)]
            exact hcp
  · intro n c hn
    have hn' : alist.lookup ((m, new) :: cost) n = some c := hn
    by_cases hnm : n = m
    · rw [hnm, hlkm] at hn'
      have hcnew : c = new := (Option.some.injEq _ _).mp hn'.symm
      obtain ⟨p, hp, hpc⟩ := h6 u cu hcu
      refine ⟨p ++ [m], ?_, ?_⟩
      · show WalkPath g start (p ++ [m]) n
        rw [hnm]
        exact StepPath.append hp hwalkum
      · rw [path_cost_append, hpc, hcnew, hnew]
        simp [path_cost_cons, path_cost_nil]
    · rw [lookup_cons_ne cost m n new (fun h => hnm h)] at hn'
      exact h6 n c hn'
  · intro e he
    have he' : e ∈ fr ++ [(new + Pathfinding.heuristic m goal, m)] := he
    rcases List.mem_append.mp he' with he1 | he1
    · rcases h7 e he1 with hstart | ⟨cn, hlk, hle⟩
      · exact Or.inl hstart
      · right
        by_cases hem : e.2 = m
        · rw [hem] at hlk
          refine ⟨new, ?_, ?_⟩
          · show alist.lookup ((m, new) :: cost) e.2 = some new
            rw [hem]
            exact hlkm
          · rcases himp with hfresh | hlt
            · exact absurd (by unfold alist.hasKey; rw [hlk]; rfl) hfresh
            · rw [hlk] at hlt
              have hltv : new < cn := hlt
              have hh := heuristic_nonneg e.2 goal
              omega
        · refine ⟨cn, ?_, hle⟩
          show alist.lookup ((m, new) :: cost) e.2 = some cn
          rw [lookup_cons_ne cost m e.2 new (fun h => hem h)]
          exact hlk
    · rcases List.mem_singleton.mp he1 with rfl
      right
      exact ⟨new, hlkm, le_refl _⟩
  · intro n c hn
    have hn' : alist.lookup ((m, new) :: cost) n = some c := hn
    by_cases hnm : n = m
    · left
      refine ⟨new + Pathfinding.heuristic m goal, ?_, ?_⟩
      · show (new + Pathfinding.heuristic m goal, n) ∈
          fr ++ [(new + Pathfinding.heuristic m goal, m)]
        rw [hnm]
        exact List.mem_append_right fr (List.mem_singleton.mpr rfl)
      · rw [hnm, hlkm] at hn'
        have hcnew : c = new := (Option.some.injEq _ _).mp hn'.symm
        have hh := heuristic_nonneg m goal
        rw [hnm]
        omega
    · rw [lookup_cons_ne cost m n new (fun h => hnm h)] at hn'
      rcases hwk n c hn' with ⟨pr, hpr, hple⟩ | hrel | hnu
      · exact Or.inl ⟨pr, List.mem_append_left _ hpr, hple⟩
      · right
        left
        intro m2 hm2
        obtain ⟨cm, hcm, hcmle⟩ := hrel m2 hm2
        obtain ⟨cm', hcm', hcm'le⟩ := hmono m2 cm hcm
        exact ⟨cm', hcm', by omega⟩
      · exact Or.inr (Or.inr hnu)

/-- The neighbor-relaxation fold of one A* iteration preserves the core
invariant and the weakened open-or-relaxed invariant, keeps the expanded
node's cost, only improves recorded costs, only appends to the frontier,
relaxes every walkable neighbor in the processed list, and leaves the
break flag alone. -/
theorem astar_fold_inv (g : Grid) (start goal u : Coord) (cu : Int)
    (hc1 : ∀ c : Coord, g.inBounds c →
      (g.tiles c.1 c.2).type ≠ TileType.wall → 1 ≤ (g.tiles c.1 c.2).cost)
    (L : List Coord) :
    (∀ n ∈ L, n ∈ neighbors4 u) →
    ∀ (fr : List (Int × Coord)) (came : List (Coord × Option Coord))
      (cost : List (Coord × Int)) (fd : Bool),
    AInvCore g start goal ⟨fr, came, cost, fd⟩ →
    AOpenRelExc g goal u ⟨fr, came, cost, fd⟩ →
    alist.lookup cost u = some cu →
    AInvCore g start goal (L.foldl
      (fun (st : Pathfinding.AStarState) next_node =>
        if g.inBounds next_node then
          let tile := g.tiles next_node.1 next_node.2
          if tile.type = TileType.wall then st
          else
            let new_cost := (alist.lookup st.cost_so_far u).getD 0 + tile.cost
            if ¬ alist.hasKey st.cost_so_far next_node ∨
                new_cost < (alist.lookup st.cost_so_far next_node).getD 0 then
              { st with
                cost_so_far := (next_node, new_cost) :: st.cost_so_far
                frontier := st.frontier ++
                  [(new_cost + Pathfinding.heuristic next_node goal, next_node)]
                came_from := (next_node, some u) :: st.came_from }
            else st
        else st) ⟨fr, came, cost, fd⟩) ∧
    AOpenRelExc g goal u (L.foldl
      (fun (st : Pathfinding.AStarState) next_node =>
        if g.inBounds next_node then
          let tile := g.tiles next_node.1 next_node.2
          if tile.type = TileType.wall then st
          else
            let new_cost := (alist.lookup st.cost_so_far u).getD 0 + tile.cost
            if ¬ alist.hasKey st.cost_so_far next_node ∨
                new_cost < (alist.lookup st.cost_so_far next_node).getD 0 then
              { st with
                cost_so_far := (next_node, new_cost) :: st.cost_so_far
                frontier := st.frontier ++
                  [(new_cost + Pathfinding.heuristic next_node goal, next_node)]
                came_from := (next_node, some u) :: st.came_from }
            else st
        else st) ⟨fr, came, cost, fd⟩) ∧
    alist.lookup (L.foldl
      (fun (st : Pathfinding.AStarState) next_node =>
        if g.inBounds next_node then
          let tile := g.tiles next_node.1 next_node.2
          if tile.type = TileType.wall then st
          else
            let new_cost := (alist.lookup st.cost_so_far u).getD 0 + tile.cost
            if ¬ alist.hasKey st.cost_so_far next_node ∨
                new_cost < (alist.lookup st.cost_so_far next_node).getD 0 then
              { st with
                cost_so_far := (next_node, new_cost) :: st.cost_so_far
                frontier := st.frontier ++
                  [(new_cost + Pathfinding.heuristic next_node goal, next_node)]
                came_from := (next_node, some u) :: st.came_from }
            else st
        else st) ⟨fr, came, cost, fd⟩).cost_so_far u = some cu ∧
    (∀ n c, alist.lookup cost n = some c →
      ∃ c', alist.lookup (L.foldl
      (fun (st : Pathfinding.AStarState) next_node =>
        if g.inBounds next_node then
          let tile := g.tiles next_node.1 next_node.2
          if tile.type = TileType.wall then st
          else
            let new_cost := (alist.lookup st.cost_so_far u).getD 0 + tile.cost
            if ¬ alist.hasKey st.cost_so_far next_node ∨
                new_cost < (alist.lookup st.cost_so_far next_node).getD 0 then
              { st with
                cost_so_far := (next_node, new_cost) :: st.cost_so_far
                frontier := st.frontier ++
                  [(new_cost + Pathfinding.heuristic next_node goal, next_node)]
                came_from := (next_node, some u) :: st.came_from }
            else st
        else st) ⟨fr, came, cost, fd⟩).cost_so_far n = some c' ∧ c' ≤ c) ∧
    (∀ e ∈ fr, e ∈ (L.foldl
      (fun (st : Pathfinding.AStarState) next_node =>
        if g.inBounds next_node then
          let tile := g.tiles next_node.1 next_node.2
          if tile.type = TileType.wall then st
          else
            let new_cost := (alist.lookup st.cost_so_far u).getD 0 + tile.cost
            if ¬ alist.hasKey st.cost_so_far next_node ∨
                new_cost < (alist.lookup st.cost_so_far next_node).getD 0 then
              { st with
                cost_so_far := (next_node, new_cost) :: st.cost_so_far
                frontier := st.frontier ++
                  [(new_cost + Pathfinding.heuristic next_node goal, next_node)]
                came_from := (next_node, some u) :: st.came_from }
            else st
        else st) ⟨fr, came, cost, fd⟩).frontier) ∧
    (∀ m2 ∈ L, walkStep g u m2 → ∃ cm, alist.lookup (L.foldl
      (fun (st : Pathfinding.AStarState) next_node =>
        if g.inBounds next_node then
          let tile := g.tiles next_node.1 next_node.2
          if tile.type = TileType.wall then st
          else
            let new_cost := (alist.lookup st.cost_so_far u).getD 0 + tile.cost
            if ¬ alist.hasKey st.cost_so_far next_node ∨
                new_cost < (alist.lookup st.cost_so_far next_node).getD 0 then
              { st with
                cost_so_far := (next_node, new_cost) :: st.cost_so_far
                frontier := st.frontier ++
                  [(new_cost + Pathfinding.heuristic next_node goal, next_node)]
                came_from := (next_node, some u) :: st.came_from }
            else st
        else st) ⟨fr, came, cost, fd⟩).cost_so_far m2 = some cm ∧
      cm ≤ cu + (g.tiles m2.1 m2.2).cost) ∧
    (L.foldl
      (fun (st : Pathfinding.AStarState) next_node =>
        if g.inBounds next_node then
          let tile := g.tiles next_node.1 next_node.2
          if tile.type = TileType.wall then st
          else
            let new_cost := (alist.lookup st.cost_so_far u).getD 0 + tile.cost
            if ¬ alist.hasKey st.cost_so_far next_node ∨
                new_cost < (alist.lookup st.cost_so_far next_node).getD 0 then
              { st with
                cost_so_far := (next_node, new_cost) :: st.cost_so_far
                frontier := st.frontier ++
                  [(new_cost + Pathfinding.heuristic next_node goal, next_node)]
                came_from := (next_node, some u) :: st.came_from }
            else st
        else st) ⟨fr, came, cost, fd⟩).found = fd := by
  induction L with
  | nil =>
    intro hL fr came cost fd hcore hwk hcu
    refine ⟨hcore, hwk, hcu, ?_, ?_, ?_, rfl⟩
    · intro n c hn
      exact ⟨c, hn, le_refl c⟩
    · intro e he
      exact he
    · intro m2 hm2
      exact absurd hm2 (List.not_mem_nil m2)
  | cons m L' ih =>
    intro hL fr came cost fd hcore hwk hcu
    have hm : m ∈ neighbors4 u := hL m (List.mem_cons_self m L')
    have hL' : ∀ n ∈ L', n ∈ neighbors4 u :=
      fun n hn => hL n (List.mem_cons_of_mem m hn)
    rw [List.foldl_cons]
    by_cases hb : g.inBounds m
    · rw [if_pos hb]
      dsimp only
      rw [hcu, Option.getD_some]
      by_cases hwall : (g.tiles m.1 m.2).type = TileType.wall
      · rw [if_pos hwall]
        obtain ⟨hc_r, hw_r, hcu_r, hmono_r, hfr_r, hrel_r, hfd_r⟩ :=
          ih hL' fr came cost fd hcore hwk hcu
        refine ⟨hc_r, hw_r, hcu_r, hmono_r, hfr_r, ?_, hfd_r⟩
        intro m2 hm2 hws
        rcases List.mem_cons.mp hm2 with rfl | hm2'
        · exact absurd hwall hws.2.2
        · exact hrel_r m2 hm2' hws
      · rw [if_neg hwall]
        by_cases himp : ¬ alist.hasKey cost m ∨
            cu + (g.tiles m.1 m.2).cost < (alist.lookup cost m).getD 0
        · rw [if_pos himp]
          obtain ⟨hc_w, hw_w, hcu_w, hmono_w, hlkm_w⟩ :=
            astar_write_inv g start goal u m cu
              (cu + (g.tiles m.1 m.2).cost) fr came cost fd hc1 hcore hwk hcu
              hm hb hwall rfl himp
          obtain ⟨hc_r, hw_r, hcu_r, hmono_r, hfr_r, hrel_r, hfd_r⟩ :=
            ih hL' (fr ++ [(cu + (g.tiles m.1 m.2).cost +
                Pathfinding.heuristic m goal, m)])
              ((m, some u) :: came)
              ((m, cu + (g.tiles m.1 m.2).cost) :: cost) fd hc_w hw_w hcu_w
          refine ⟨hc_r, hw_r, hcu_r, ?_, ?_, ?_, hfd_r⟩
          · intro n c hn
            obtain ⟨c1, hc1l, hc1le⟩ := hmono_w n c hn
            obtain ⟨c2, hc2l, hc2le⟩ := hmono_r n c1 hc1l
            exact ⟨c2, hc2l, le_trans hc2le hc1le⟩
          · intro e he
            exact hfr_r e (List.mem_append_left _ he)
          · intro m2 hm2 hws
            rcases List.mem_cons.mp hm2 with rfl | hm2'
            · obtain ⟨c2, hc2l, hc2le⟩ := hmono_r m2
                (cu + (g.tiles m2.1 m2.2).cost) hlkm_w
              exact ⟨c2, hc2l, hc2le⟩
            · exact hrel_r m2 hm2' hws
        · rw [if_neg himp]
          obtain ⟨hc_r, hw_r, hcu_r, hmono_r, hfr_r, hrel_r, hfd_r⟩ :=
            ih hL' fr came cost fd hcore hwk hcu
          refine ⟨hc_r, hw_r, hcu_r, hmono_r, hfr_r, ?_, hfd_r⟩
          intro m2 hm2 hws
          rcases List.mem_cons.mp hm2 with rfl | hm2'
          · push_neg at himp
            obtain ⟨hkey, hge⟩ := himp
            obtain ⟨cm, hcm⟩ := Option.isSome_iff_exists.mp hkey
            rw [hcm] at hge
            have hgev : cm ≤ cu + (g.tiles m2.1 m2.2).cost := hge
            obtain ⟨c2, hc2l, hc2le⟩ := hmono_r m2 cm hcm
            exact ⟨c2, hc2l, by omega⟩
          · exact hrel_r m2 hm2' hws
    · rw [if_neg hb]
      obtain ⟨hc_r, hw_r, hcu_r, hmono_r, hfr_r, hrel_r, hfd_r⟩ :=
        ih hL' fr came cost fd hcore hwk hcu
      refine ⟨hc_r, hw_r, hcu_r, hmono_r, hfr_r, ?_, hfd_r⟩
      intro m2 hm2 hws
      rcases List.mem_cons.mp hm2 with rfl | hm2'
      · exact absurd hws.2.1 hb
      · exact hrel_r m2 hm2' hws

/-- A dict key with a value is among the mapped keys. -/
theorem lookup_key_mem {β : Type} {l : List (Coord × β)} {c : Coord} {v : β}
    (h : alist.lookup l c = some v) : c ∈ l.map Prod.fst := by
  unfold alist.lookup at h
  cases hf : l.find? (fun p => p.1 = c) with
  | none => rw [hf] at h; simp at h
  | some e =>
    have he := List.mem_of_find?_eq_some hf
    have hp := List.find?_some hf
    have hec : e.1 = c := of_decide_eq_true hp
    rw [← hec]
    exact List.mem_map.mpr ⟨e, he, rfl⟩

/-- One full A* iteration (pop a non-goal entry and relax its neighbors)
preserves the loop invariant and the break flag. -/
theorem astar_step_inv (g : Grid) (start goal : Coord)
    (hc1 : ∀ c : Coord, g.inBounds c →
      (g.tiles c.1 c.2).type ≠ TileType.wall → 1 ≤ (g.tiles c.1 c.2).cost)
    (fr : List (Int × Coord)) (came : List (Coord × Option Coord))
    (cost : List (Coord × Int)) (fd : Bool)
    (m : Int × Coord) (rest : List (Int × Coord))
    (hinv : AInv g start goal ⟨fr, came, cost, fd⟩)
    (hpop : Pathfinding.popMin fr = some (m, rest)) :
    AInv g start goal
      (Pathfinding.astar_expand g goal m.2 ⟨rest, came, cost, fd⟩) ∧
    (Pathfinding.astar_expand g goal m.2 ⟨rest, came, cost, fd⟩).found = fd := by
  obtain ⟨hcore, hopen⟩ := hinv
  obtain ⟨hmem, hrest⟩ := popMin_mem hpop
  obtain ⟨h1, h2, h3, h4, h5, h6, h7⟩ := hcore
  replace h1 : alist.lookup cost start = some 0 := h1
  replace h7 : ∀ e ∈ fr, e = ((0 : Int), start) ∨
      ∃ cn, alist.lookup cost e.2 = some cn ∧
        cn + Pathfinding.heuristic e.2 goal ≤ e.1 := h7
  have hcu : ∃ cu, alist.lookup cost m.2 = some cu := by
    rcases h7 m hmem with hst | ⟨cn, hlk, _⟩
    · rw [hst]
      exact ⟨0, h1⟩
    · exact ⟨cn, hlk⟩
  obtain ⟨cu, hcu⟩ := hcu
  have hcore' : AInvCore g start goal ⟨rest, came, cost, fd⟩ := by
    refine ⟨h1, h2, h3, h4, h5, h6, ?_⟩
    intro e he
    refine h7 e ?_
    rw [hrest] at he
    exact List.mem_of_mem_erase he
  have hwk' : AOpenRelExc g goal m.2 ⟨rest, came, cost, fd⟩ := by
    intro n c hn
    have hn' : alist.lookup cost n = some c := hn
    rcases hopen n c hn' with ⟨pr, hpr, hple⟩ | hrel
    · by_cases hprm : (pr, n) = m
      · right
        right
        exact congrArg Prod.snd hprm
      · left
        refine ⟨pr, ?_, hple⟩
        show (pr, n) ∈ rest
        rw [hrest]
        exact (List.mem_erase_of_ne hprm).mpr hpr
    · exact Or.inr (Or.inl hrel)
  obtain ⟨hc_r, hw_r, hcu_r, hmono_r, hfr_r, hrel_r, hfd_r⟩ :=
    astar_fold_inv g start goal m.2 cu hc1 (neighbors4 m.2)
      (fun n hn => hn) rest came cost fd hcore' hwk' hcu
  refine ⟨⟨hc_r, ?_⟩, hfd_r⟩
  intro n c hn
  rcases hw_r n c hn with hop | hrel | hnu
  · exact Or.inl hop
  · exact Or.inr hrel
  · right
    intro m2 hm2
    rw [hnu] at hm2 hn
    obtain ⟨cm, hcm, hcmle⟩ := hrel_r m2 hm2.1 hm2
    have hcu2 : alist.lookup (Pathfinding.astar_expand g goal m.2
        ⟨rest, came, cost, fd⟩).cost_so_far m.2 = some cu := hcu_r
    rw [hn] at hcu2
    have hceq : c = cu := (Option.some.injEq _ _).mp hcu2
    exact ⟨cm, hcm, by omega⟩

/-- Cascade along a walkable path to the goal: from any node with a
recorded cost that fits an optimal continuation, either the goal already
has a cost at most `C`, or some frontier entry has priority at most `C`. -/
theorem astar_cascade (g : Grid) (start goal : Coord) (C : Int)
    (hc1 : ∀ c : Coord, g.inBounds c →
      (g.tiles c.1 c.2).type ≠ TileType.wall → 1 ≤ (g.tiles c.1 c.2).cost)
    (s : Pathfinding.AStarState)
    (hopen : AOpenRel g goal s) :
    ∀ (p : List Coord) (a : Coord) (ca : Int), WalkPath g a p goal →
    alist.lookup s.cost_so_far a = some ca →
    ca + path_cost g p ≤ C →
    (∃ cg, alist.lookup s.cost_so_far goal = some cg ∧ cg ≤ C) ∨
    (∃ pr n, (pr, n) ∈ s.frontier ∧ pr ≤ C) := by
  intro p
  induction p with
  | nil =>
    intro a ca hp hca hle
    left
    have hag : a = goal := hp
    rw [← hag]
    refine ⟨ca, hca, ?_⟩
    rw [path_cost_nil] at hle
    omega
  | cons b q ih =>
    intro a ca hp hca hle
    rcases hopen a ca hca with ⟨pr, hpr, hple⟩ | hrel
    · right
      refine ⟨pr, a, hpr, ?_⟩
      have hadm := heuristic_le_path_cost hc1 hp
      omega
    · obtain ⟨cb, hcb, hcble⟩ := hrel b hp.1
      refine ih b cb hp.2 hcb ?_
      rw [path_cost_cons] at hle
      omega

/-- The fueled A* loop preserves the core invariant; if it stops without
taking the break it preserves the full invariant; and if it takes the
break, the goal's recorded cost is at most the optimal cost `C` (given a
walkable witness path of cost `C`). -/
theorem astar_loop_inv (g : Grid) (start goal : Coord) (C : Int)
    (hc1 : ∀ c : Coord, g.inBounds c →
      (g.tiles c.1 c.2).type ≠ TileType.wall → 1 ≤ (g.tiles c.1 c.2).cost)
    (popt : List Coord) (hpopt : WalkPath g start popt goal)
    (hpc : path_cost g popt = C) :
    ∀ (fuel : Nat) (s : Pathfinding.AStarState), AInv g start goal s →
    AInvCore g start goal (Pathfinding.astar_loop g goal fuel s) ∧
    (s.found = false → (Pathfinding.astar_loop g goal fuel s).found = false →
      AOpenRel g goal (Pathfinding.astar_loop g goal fuel s)) ∧
    ((Pathfinding.astar_loop g goal fuel s).found = true → s.found = true ∨
      ∃ cg, alist.lookup
        (Pathfinding.astar_loop g goal fuel s).cost_so_far goal = some cg ∧
        cg ≤ C) := by
  intro fuel
  induction fuel with
  | zero =>
    intro s hinv
    exact ⟨hinv.1, fun _ _ => hinv.2, fun h => Or.inl h⟩
  | succ f ih =>
    intro s hinv
    obtain ⟨fr, came, cost, fd⟩ := s
    cases hpop : Pathfinding.popMin fr with
    | none =>
      have hred : Pathfinding.astar_loop g goal (f + 1) ⟨fr, came, cost, fd⟩ =
          ⟨fr, came, cost, fd⟩ := by
        unfold Pathfinding.astar_loop
        rw [hpop]
      rw [hred]
      exact ⟨hinv.1, fun _ _ => hinv.2, fun h => Or.inl h⟩
    | some mr =>
      obtain ⟨m, rest⟩ := mr
      by_cases hmg : m.2 = goal
      · have hred : Pathfinding.astar_loop g goal (f + 1) ⟨fr, came, cost, fd⟩ =
            ⟨rest, came, cost, true⟩ := by
          unfold Pathfinding.astar_loop
          rw [hpop]
          dsimp only
          rw [if_pos hmg]
        rw [hred]
        obtain ⟨hcore, hopen⟩ := hinv
        obtain ⟨h1, h2, h3, h4, h5, h6, h7⟩ := hcore
        replace h1 : alist.lookup cost start = some 0 := h1
        replace h7 : ∀ e ∈ fr, e = ((0 : Int), start) ∨
            ∃ cn, alist.lookup cost e.2 = some cn ∧
              cn + Pathfinding.heuristic e.2 goal ≤ e.1 := h7
        have hCnn : 0 ≤ C := by
          have hlen := length_le_path_cost hc1 hpopt
          rw [hpc] at hlen
          have hl0 : (0 : Int) ≤ (popt.length : Int) := Int.ofNat_nonneg _
          omega
        have hgc : ∃ cg, alist.lookup cost goal = some cg ∧ cg ≤ C := by
          rcases astar_cascade g start goal C hc1 ⟨fr, came, cost, fd⟩
              hopen popt start 0 hpopt h1 (by omega) with
            ⟨cg, hcg, hcgle⟩ | ⟨pr, n, hpr, hple⟩
          · exact ⟨cg, hcg, hcgle⟩
          · have hminle := popMin_min hpop (pr, n) hpr
            have hm1 : m.1 ≤ pr := by
              unfold Pathfinding.tupLe at hminle
              rcases hminle with h | ⟨h, _⟩
              · exact le_of_lt h
              · exact le_of_eq h
            rcases h7 m (popMin_mem hpop).1 with hst | ⟨cn, hlk, hle2⟩
            · have hsg : start = goal := by
                rw [← hmg, hst]
              refine ⟨0, by rw [← hsg]; exact h1, hCnn⟩
            · rw [hmg] at hlk
              refine ⟨cn, hlk, ?_⟩
              rw [hmg, heuristic_self] at hle2
              omega
        obtain ⟨cg, hcg, hcgle⟩ := hgc
        refine ⟨⟨h1, h2, h3, h4, h5, h6, ?_⟩, ?_, ?_⟩
        · intro e he
          refine h7 e ?_
          have hrest := (popMin_mem hpop).2
          rw [show (⟨rest, came, cost, true⟩ :
            Pathfinding.AStarState).frontier = rest from rfl, hrest] at he
          exact List.mem_of_mem_erase he
        · intro _ hff
          have hff' : true = false :=
            show (⟨rest, came, cost, true⟩ :
              Pathfinding.AStarState).found = false from hff
          exact absurd hff' (by simp)
        · intro _
          right
          exact ⟨cg, hcg, hcgle⟩
      · have hred : Pathfinding.astar_loop g goal (f + 1) ⟨fr, came, cost, fd⟩ =
            Pathfinding.astar_loop g goal f
              (Pathfinding.astar_expand g goal m.2 ⟨rest, came, cost, fd⟩) := by
          conv_lhs => unfold Pathfinding.astar_loop
          dsimp only
          rw [hpop]
          dsimp only
          rw [if_neg hmg]
        rw [hred]
        obtain ⟨hstep, hstepfd⟩ := astar_step_inv g start goal hc1
          fr came cost fd m rest hinv hpop
        obtain ⟨hc_l, ho_l, hf_l⟩ := ih
          (Pathfinding.astar_expand g goal m.2 ⟨rest, came, cost, fd⟩) hstep
        refine ⟨hc_l, ?_, ?_⟩
        · intro hsf hff
          refine ho_l ?_ hff
          rw [hstepfd]
          exact hsf
        · intro hfd
          rcases hf_l hfd with h | h
          · rw [hstepfd] at h
            exact Or.inl h
          · exact Or.inr h

/-- Following `came_from` parents from any costed node reconstructs a
walkable path from `start` whose accumulated cost, together with the
accumulated suffix, stays within the node's recorded cost budget; fuel
exceeding the number of cheaper keys suffices. -/
theorem astar_reconstruct_spec (g : Grid) (start goal : Coord)
    (came : List (Coord × Option Coord)) (cost : List (Coord × Int))
    (hc1 : ∀ c : Coord, g.inBounds c →
      (g.tiles c.1 c.2).type ≠ TileType.wall → 1 ≤ (g.tiles c.1 c.2).cost)
    (h1 : alist.lookup cost start = some 0)
    (h2 : ∀ n, (alist.lookup cost n).isSome ↔ (alist.lookup came n).isSome)
    (h5 : ∀ n pp, alist.lookup came n = some pp → n = start ∨
      ∃ prev, pp = some prev ∧ walkStep g prev n ∧
        ∃ cn cp, alist.lookup cost n = some cn ∧
          alist.lookup cost prev = some cp ∧
          cp + (g.tiles n.1 n.2).cost ≤ cn)
    (cg : Int) :
    ∀ (fuel : Nat) (cur : Coord) (ccur : Int) (acc : List Coord),
    alist.lookup cost cur = some ccur →
    WalkPath g cur acc goal →
    path_cost g acc ≤ cg - ccur →
    ((came.map Prod.fst).toFinset.filter
      (fun n => (alist.lookup cost n).getD ccur < ccur)).card + 1 ≤ fuel →
    WalkPath g start (Pathfinding.reconstruct fuel came start cur acc) goal ∧
    path_cost g (Pathfinding.reconstruct fuel came start cur acc) ≤ cg := by
  intro fuel
  induction fuel with
  | zero =>
    intro cur ccur acc _ _ _ hfuel
    exact absurd hfuel (Nat.not_succ_le_zero _)
  | succ f ih =>
    intro cur ccur acc hcur hacc hcostacc hfuel
    by_cases hcs : cur = start
    · have hred : Pathfinding.reconstruct (f + 1) came start cur acc = acc := by
        unfold Pathfinding.reconstruct
        rw [if_pos hcs]
      rw [hred]
      rw [hcs] at hacc hcur
      rw [h1] at hcur
      have hc0 : (0 : Int) = ccur := (Option.some.injEq _ _).mp hcur
      refine ⟨hacc, ?_⟩
      omega
    · have hkey : (alist.lookup came cur).isSome := by
        rw [← h2]
        rw [hcur]
        rfl
      obtain ⟨pp, hpp⟩ := Option.isSome_iff_exists.mp hkey
      rcases h5 cur pp hpp with hst | ⟨prev, hps, hstep, cn, cp, hcn, hcp, hle2⟩
      · exact absurd hst hcs
      · have hccur : cn = ccur := by
          rw [hcur] at hcn
          exact ((Option.some.injEq _ _).mp hcn).symm
        have htile : 1 ≤ (g.tiles cur.1 cur.2).cost := hc1 cur hstep.2.1 hstep.2.2
        have hcplt : cp < ccur := by omega
        have hred : Pathfinding.reconstruct (f + 1) came start cur acc =
            Pathfinding.reconstruct f came start prev (cur :: acc) := by
          conv_lhs => unfold Pathfinding.reconstruct
          rw [if_neg hcs, hpp, hps]
        rw [hred]
        refine ih prev cp (cur :: acc) hcp ⟨hstep, hacc⟩ ?_ ?_
        · rw [path_cost_cons]
          omega
        · have hprevkey : prev ∈ (came.map Prod.fst).toFinset := by
            rw [List.mem_toFinset]
            have hpk : (alist.lookup came prev).isSome := by
              rw [← h2, hcp]
              rfl
            obtain ⟨pv, hpv⟩ := Option.isSome_iff_exists.mp hpk
            exact lookup_key_mem hpv
          have hsub : Finset.filter
              (fun n => (alist.lookup cost n).getD cp < cp)
              (came.map Prod.fst).toFinset ⊆
              Finset.filter
              (fun n => (alist.lookup cost n).getD ccur < ccur)
              (came.map Prod.fst).toFinset := by
            intro n hn
            rw [Finset.mem_filter] at hn ⊢
            obtain ⟨hn1, hn2⟩ := hn
            refine ⟨hn1, ?_⟩
            have hn2' : (alist.lookup cost n).getD cp < cp := hn2
            show (alist.lookup cost n).getD ccur < ccur
            cases hlk : alist.lookup cost n with
            | none =>
              rw [hlk] at hn2'
              have hcc : cp < cp := hn2'
              exact absurd hcc (lt_irrefl cp)
            | some cv =>
              rw [hlk] at hn2'
              have hv : cv < cp := hn2'
              show cv < ccur
              omega
          have hprevnot : prev ∉ Finset.filter
              (fun n => (alist.lookup cost n).getD cp < cp)
              (came.map Prod.fst).toFinset := by
            rw [Finset.mem_filter]
            rintro ⟨-, hlt⟩
            have hlt' : (alist.lookup cost prev).getD cp < cp := hlt
            rw [hcp] at hlt'
            have hcc : cp < cp := hlt'
            omega
          have hprevin : prev ∈ Finset.filter
              (fun n => (alist.lookup cost n).getD ccur < ccur)
              (came.map Prod.fst).toFinset := by
            rw [Finset.mem_filter]
            refine ⟨hprevkey, ?_⟩
            show (alist.lookup cost prev).getD ccur < ccur
            rw [hcp]
            exact hcplt
          have hins : insert prev (Finset.filter
              (fun n => (alist.lookup cost n).getD cp < cp)
              (came.map Prod.fst).toFinset) ⊆
              Finset.filter
              (fun n => (alist.lookup cost n).getD ccur < ccur)
              (came.map Prod.fst).toFinset := by
            intro n hn
            rcases Finset.mem_insert.mp hn with rfl | hn'
            · exact hprevin
            · exact hsub hn'
          have hcard := Finset.card_le_card hins
          rw [Finset.card_insert_of_not_mem hprevnot] at hcard
          omega

/-- The initial A* state satisfies the loop invariant. -/
theorem astar_init_inv (g : Grid) (start goal : Coord) :
    AInv g start goal (Pathfinding.astar_init start) := by
  have hlook : ∀ (n : Coord) (c : Int),
      alist.lookup [(start, (0 : Int))] n = some c → n = start ∧ c = 0 := by
    intro n c h
    by_cases hn : n = start
    · subst hn
      rw [lookup_cons_self] at h
      exact ⟨rfl, (Option.some.injEq _ _).mp h.symm⟩
    · rw [lookup_cons_ne _ _ _ _ hn] at h
      exact absurd h (by unfold alist.lookup; simp)
  have hlookc : ∀ (n : Coord) (c : Option Coord),
      alist.lookup [(start, (none : Option Coord))] n = some c →
        n = start ∧ c = none := by
    intro n c h
    by_cases hn : n = start
    · subst hn
      rw [lookup_cons_self] at h
      exact ⟨rfl, (Option.some.injEq _ _).mp h.symm⟩
    · rw [lookup_cons_ne _ _ _ _ hn] at h
      exact absurd h (by unfold alist.lookup; simp)
  constructor
  · refine ⟨?_, ?_, ?_, ?_, ?_, ?_, ?_⟩
    · exact lookup_cons_self _ _ _
    · intro n
      show (alist.lookup [(start, (0 : Int))] n).isSome ↔
        (alist.lookup [(start, (none : Option Coord))] n).isSome
      by_cases hn : n = start
      · subst hn
        rw [lookup_cons_self, lookup_cons_self]
        simp
      · rw [lookup_cons_ne _ _ _ _ hn, lookup_cons_ne _ _ _ _ hn]
        exact Iff.rfl
    · intro n c hn
      obtain ⟨-, rfl⟩ := hlook n c hn
      exact le_refl 0
    · exact lookup_cons_self _ _ _
    · intro n pp hpp
      exact Or.inl (hlookc n pp hpp).1
    · intro n c hn
      obtain ⟨hns, hc0⟩ := hlook n c hn
      refine ⟨[], ?_, ?_⟩
      · show WalkPath g start [] n
        rw [hns]
        rfl
      · rw [hc0]
        exact path_cost_nil g
    · intro e he
      rcases List.mem_singleton.mp he with rfl
      exact Or.inl rfl
  · intro n c hn
    obtain ⟨hns, hc0⟩ := hlook n c hn
    left
    refine ⟨0, ?_, ?_⟩
    · show ((0 : Int), n) ∈ [((0 : Int), start)]
      rw [hns]
      exact List.mem_singleton.mpr rfl
    · rw [hc0]
      have := heuristic_nonneg n goal
      omega

/-- A* returns a minimum-cost walkable path whenever the fueled loop
terminates (goal popped or frontier exhausted) and a minimum cost
exists. -/
theorem a_star_opt_main (start goal : Coord) (g : Grid) (C : Int)
    (hc1 : ∀ c : Coord, g.inBounds c →
      (g.tiles c.1 c.2).type ≠ TileType.wall → 1 ≤ (g.tiles c.1 c.2).cost)
    (hterm : (Pathfinding.astar_loop g goal
        ((g.width * g.height + 1) * (g.width * g.height + 1))
        (Pathfinding.astar_init start)).found = true ∨
      (Pathfinding.astar_loop g goal
        ((g.width * g.height + 1) * (g.width * g.height + 1))
        (Pathfinding.astar_init start)).frontier = [])
    (hleast : IsLeast (walkCostSet g start goal) C) :
    WalkPath g start (Pathfinding.a_star start goal g) goal ∧
    path_cost g (Pathfinding.a_star start goal g) = C := by
  obtain ⟨⟨popt, hpopt, hpoptc⟩, hlb⟩ := hleast
  obtain ⟨hcoreF, hopenF, hfoundF⟩ :=
    astar_loop_inv g start goal C hc1 popt hpopt hpoptc
      ((g.width * g.height + 1) * (g.width * g.height + 1))
      (Pathfinding.astar_init start) (astar_init_inv g start goal)
  set F := Pathfinding.astar_loop g goal
    ((g.width * g.height + 1) * (g.width * g.height + 1))
    (Pathfinding.astar_init start) with hF
  obtain ⟨h1F, h2F, h3F, h4F, h5F, h6F, h7F⟩ := hcoreF
  have hcgex : ∃ cg, alist.lookup F.cost_so_far goal = some cg ∧ cg ≤ C := by
    by_cases hfd : F.found = true
    · rcases hfoundF hfd with hinitfd | h
      · have hfalse : (Pathfinding.astar_init start).found = false := rfl
        rw [hinitfd] at hfalse
        exact Bool.noConfusion hfalse
      · exact h
    · rcases hterm with ht | ht
      · exact absurd ht hfd
      · have hff : F.found = false := by
          cases hb2 : F.found
          · rfl
          · exact absurd hb2 hfd
        have hopen := hopenF rfl hff
        rcases astar_cascade g start goal C hc1 F hopen popt start 0
            hpopt h1F (by omega) with hgc | ⟨pr, n, hpr, -⟩
        · exact hgc
        · rw [ht] at hpr
          exact absurd hpr (List.not_mem_nil _)
  obtain ⟨cg, hcg, hcgle⟩ := hcgex
  have hCle : C ≤ cg := by
    obtain ⟨p, hp, hpc2⟩ := h6F goal cg hcg
    exact hlb ⟨p, hp, hpc2⟩
  have hcgC : cg = C := le_antisymm hcgle hCle
  rw [hcgC] at hcg
  have hkey : alist.hasKey F.came_from goal := by
    unfold alist.hasKey
    rw [← h2F goal, hcg]
    rfl
  have hface : Pathfinding.a_star start goal g =
      Pathfinding.reconstruct (F.came_from.length + 1) F.came_from
        start goal [] := by
    unfold Pathfinding.a_star
    dsimp only
    rw [← hF]
    rw [if_pos hkey]
  obtain ⟨hrw, hrc⟩ := astar_reconstruct_spec g start goal
    F.came_from F.cost_so_far hc1 h1F h2F h5F C
    (F.came_from.length + 1) goal C [] hcg rfl
    (by rw [path_cost_nil]; omega)
    (by
      have hc1' := Finset.card_filter_le
        ((F.came_from.map Prod.fst).toFinset)
        (fun n => (alist.lookup F.cost_so_far n).getD C < C)
      have hc2' := List.toFinset_card_le (F.came_from.map Prod.fst)
      rw [List.length_map] at hc2'
      omega)
  rw [hface]
  refine ⟨hrw, ?_⟩
  have hlow : C ≤ path_cost g (Pathfinding.reconstruct
      (F.came_from.length + 1) F.came_from start goal []) :=
    hlb ⟨_, hrw, rfl⟩
  omega

set_option maxRecDepth 100000 in
/-- C2: whenever the fueled A* loop reaches its natural exit (goal popped
or frontier exhausted), `Pathfinding.a_star` is optimal: on a grid whose
walkable tiles all have cost 1 the returned path's length equals the
least walkable-path length from start to goal; with arbitrary per-tile
costs at least 1 the returned path is walkable and its accumulated cost
equals the minimum achievable cost; and on the 12 × 12 all-floor grid
from `(0, 0)` to `(11, 11)` the returned path has length 22 and
accumulated cost 22. -/
theorem a_star_optimal :
    (∀ (start goal : Coord) (g : Grid) (n : Nat),
      (∀ c : Coord, g.inBounds c → (g.tiles c.1 c.2).type ≠ TileType.wall →
        (g.tiles c.1 c.2).cost = 1) →
      ((Pathfinding.astar_loop g goal
          ((g.width * g.height + 1) * (g.width * g.height + 1))
          (Pathfinding.astar_init start)).found = true ∨
        (Pathfinding.astar_loop g goal
          ((g.width * g.height + 1) * (g.width * g.height + 1))
          (Pathfinding.astar_init start)).frontier = []) →
      IsLeast (walkDistSet g start goal) n →
      (Pathfinding.a_star start goal g).length = n) ∧
    (∀ (start goal : Coord) (g : Grid) (C : Int),
      (∀ c : Coord, g.inBounds c → (g.tiles c.1 c.2).type ≠ TileType.wall →
        1 ≤ (g.tiles c.1 c.2).cost) →
      ((Pathfinding.astar_loop g goal
          ((g.width * g.height + 1) * (g.width * g.height + 1))
          (Pathfinding.astar_init start)).found = true ∨
        (Pathfinding.astar_loop g goal
          ((g.width * g.height + 1) * (g.width * g.height + 1))
          (Pathfinding.astar_init start)).frontier = []) →
      IsLeast (walkCostSet g start goal) C →
      WalkPath g start (Pathfinding.a_star start goal g) goal ∧
      path_cost g (Pathfinding.a_star start goal g) = C) ∧
    ((Pathfinding.a_star (0, 0) (11, 11) (allFloorGrid 12 12)).length = 22 ∧
      path_cost (allFloorGrid 12 12)
        (Pathfinding.a_star (0, 0) (11, 11) (allFloorGrid 12 12)) = 22) := by
  refine ⟨?_, ?_, ?_, ?_⟩
  · intro start goal g n hcu hterm hnleast
    have hc1 : ∀ c : Coord, g.inBounds c →
        (g.tiles c.1 c.2).type ≠ TileType.wall →
        1 ≤ (g.tiles c.1 c.2).cost :=
      fun c hb hw => le_of_eq (hcu c hb hw).symm
    have hCleast : IsLeast (walkCostSet g start goal) (n : Int) := by
      constructor
      · obtain ⟨⟨p, hp, hpl⟩, hnlb⟩ := hnleast
        exact ⟨p, hp, by rw [path_cost_eq_length hcu hp, hpl]⟩
      · rintro k ⟨p, hp, hpc⟩
        have hlen := hnleast.2 ⟨p, hp, rfl⟩
        rw [← hpc, path_cost_eq_length hcu hp]
        exact_mod_cast hlen
    obtain ⟨hwp, hpc⟩ := a_star_opt_main start goal g (n : Int) hc1 hterm hCleast
    rw [path_cost_eq_length hcu hwp] at hpc
    exact_mod_cast hpc
  · intro start goal g C hc1 hterm hCleast
    exact a_star_opt_main start goal g C hc1 hterm hCleast
  · decide
  · decide

set_option maxRecDepth 100000 in
/-- Witness for C2 on a concrete 12 × 12 all-floor grid: the termination
and minimality hypotheses hold and the optimal accumulated cost from
`(0, 0)` to `(11, 11)` is 22. -/
theorem a_star_optimal_witness :
    WalkPath (allFloorGrid 12 12) (0, 0)
      (Pathfinding.a_star (0, 0) (11, 11) (allFloorGrid 12 12)) (11, 11) ∧
    path_cost (allFloorGrid 12 12)
      (Pathfinding.a_star (0, 0) (11, 11) (allFloorGrid 12 12)) = 22 := by
  refine a_star_optimal.2.1 (0, 0) (11, 11) (allFloorGrid 12 12) 22
    (fun c _ _ => le_refl 1) (Or.inl (by decide)) ⟨?_, ?_⟩
  · exact ⟨[(1, 0), (2, 0), (3, 0), (4, 0), (5, 0), (6, 0), (7, 0), (8, 0), (9, 0), (10, 0), (11, 0), (11, 1), (11, 2), (11, 3), (11, 4), (11, 5), (11, 6), (11, 7), (11, 8), (11, 9), (11, 10), (11, 11)], by decide, by decide⟩
  · rintro k ⟨p, hp, hpc⟩
    have hadm := heuristic_le_path_cost (fun c _ _ => le_refl 1) hp
    have h22 : Pathfinding.heuristic (0, 0) (11, 11) = 22 := by decide
    omega
